import Mathlib

/-!
# Instrumentpp: a verification development of `src/instrument.h`

The header defines
* `stats<T>`: count / total / min / max / mean / stdev of a `std::vector<T>`,
* `Instrument<>`: two static members (`initialTime`, `times`), a constructor,
  a destructor that prints the report, and the RAII class `InstrumentFunction`.

The program computes in `uint64_t` and in `double`.  Unsigned integers are
natural numbers reduced modulo `2^64` where the code can wrap.  A `double` is an
IEEE-754 binary64 value: a finite value is a pair significand / exponent
`m * 2^e` in the encoding's own normal form, and every arithmetic operation
rounds the exact result to nearest, ties to even (each operation of the source
is rounded on its own: no fused multiply-add, no extended precision).
`assert` is taken as enabled: a failed assertion ends the program.
-/

set_option linter.dupNamespace false
set_option maxRecDepth 100000
set_option exponentiation.threshold 4096

namespace Instrumentpp

/-! ## binary64 -/

/-- A binary64 value.  `fin m e` is the finite value `m * 2^e`; the operations
below produce it in the normal form of the encoding: `2^52 ≤ |m| < 2^53` and
`-1074 ≤ e ≤ 971` (normal), or `|m| < 2^52` and `e = -1074` (subnormal, zero).
The two zeros of the encoding are identified: every divisor this program uses is
a non-negative quantity, so the sign of a zero is never observed. -/
inductive F64 where
  | fin (m : ℤ) (e : ℤ)
  | inf (neg : Bool)
  | nan
deriving DecidableEq, Repr

/-- The fraction `a / b * 2^s` as a numerator and a denominator. -/
def scaleFrac (a b : ℕ) (s : ℤ) : ℕ × ℕ :=
  if 0 ≤ s then (a * 2 ^ s.toNat, b) else (a, b * 2 ^ (-s).toNat)

/-- Binary logarithm by repeated halving; the first argument bounds the number
of halvings. -/
def log2Fuel : ℕ → ℕ → ℕ
  | 0, _ => 0
  | f + 1, n => if n < 2 then 0 else log2Fuel f (n / 2) + 1

/-- Floor of the binary logarithm of a natural number (0 at 0). -/
def ilog2 (n : ℕ) : ℕ := log2Fuel n n

/-- Floor of the binary logarithm of `a / b` (for `a, b > 0`). -/
def expOf (a b : ℕ) : ℤ :=
  let d : ℤ := (ilog2 a : ℤ) - (ilog2 b : ℤ)
  let p := scaleFrac a b (-d)
  if p.2 ≤ p.1 then d else d - 1

/-- The last step of a rounding: the rounded significand `m ≤ 2^53` at exponent
`u` is renormalised when it reached `2^53`, and a result beyond the largest
finite value becomes an infinity. -/
def pack (neg : Bool) (m : ℕ) (u : ℤ) : F64 :=
  let m1 := if m = 2 ^ 53 then 2 ^ 52 else m
  let u1 := if m = 2 ^ 53 then u + 1 else u
  if 971 < u1 then F64.inf neg
  else F64.fin (if neg then -(m1 : ℤ) else (m1 : ℤ)) u1

/-- Round-to-nearest, ties-to-even, of the exact value `± (a / b) * 2^e`
(`b > 0`) to binary64: 53 significant bits, least exponent `-1074`, overflow to
infinity. -/
def roundRat (neg : Bool) (a b : ℕ) (e : ℤ) : F64 :=
  if a = 0 then F64.fin 0 (-1074) else
  let u : ℤ := max (expOf a b + e - 52) (-1074)
  let p := scaleFrac a b (e - u)
  let q := p.1 / p.2
  let r := p.1 % p.2
  let m := if 2 * r < p.2 ∨ (2 * r = p.2 ∧ q % 2 = 0) then q else q + 1
  pack neg m u

/-- Rounding of the exact dyadic value `s * 2^e`. -/
def roundDyadic (s : ℤ) (e : ℤ) : F64 :=
  roundRat (decide (s < 0)) s.natAbs 1 e

namespace F64

/-- The constant `0.0`. -/
def zero : F64 := fin 0 (-1074)

/-- Conversion of an unsigned integer to `double`. -/
def ofNat (n : ℕ) : F64 := roundDyadic n 0

/-- The literal `1E-3`: the binary64 value nearest to one thousandth. -/
def milli : F64 := roundRat false 1 1000 0

/-- The literal `100.` (also the `int` 100 converted to `double`). -/
def hundred : F64 := ofNat 100

def neg : F64 → F64
  | fin m e => fin (-m) e
  | inf s => inf (!s)
  | nan => nan

/-- Addition of two doubles. -/
def add : F64 → F64 → F64
  | fin m1 e1, fin m2 e2 =>
      let e := min e1 e2
      roundDyadic (m1 * ((2 ^ (e1 - e).toNat : ℕ) : ℤ) + m2 * ((2 ^ (e2 - e).toNat : ℕ) : ℤ)) e
  | fin _ _, inf s => inf s
  | inf s, fin _ _ => inf s
  | inf s1, inf s2 => if s1 = s2 then inf s1 else nan
  | _, _ => nan

/-- Subtraction of two doubles. -/
def sub (x y : F64) : F64 := add x (neg y)

/-- Multiplication of two doubles. -/
def mul : F64 → F64 → F64
  | fin m1 e1, fin m2 e2 => roundDyadic (m1 * m2) (e1 + e2)
  | fin m _, inf s => if m = 0 then nan else inf (xor (decide (m < 0)) s)
  | inf s, fin m _ => if m = 0 then nan else inf (xor s (decide (m < 0)))
  | inf s1, inf s2 => inf (xor s1 s2)
  | _, _ => nan

/-- Division of two doubles.  A zero divisor is `+0.0`. -/
def div : F64 → F64 → F64
  | fin m1 e1, fin m2 e2 =>
      if m2 = 0 then (if m1 = 0 then nan else inf (decide (m1 < 0)))
      else roundRat (xor (decide (m1 < 0)) (decide (m2 < 0))) m1.natAbs m2.natAbs (e1 - e2)
  | fin _ _, inf _ => zero
  | inf s, fin m _ => inf (xor s (decide (m < 0)))
  | _, _ => nan

/-- Integer square root by bits: the largest `r < 2^bits` with `r * r ≤ n`,
built from the high bit down. -/
def isqrtAux (n : ℕ) : ℕ → ℕ → ℕ
  | 0, acc => acc
  | i + 1, acc =>
      let c := acc + 2 ^ i
      isqrtAux n i (if c * c ≤ n then c else acc)

/-- Correctly rounded square root, `std::sqrt`.  The significand is shifted by
at least 116 bits to an even exponent; the integer part of the root (at least 58
bits) is extended with a sticky bit that records inexactness, then rounded. -/
def sqrt : F64 → F64
  | fin m e =>
      if m < 0 then nan
      else if m = 0 then zero
      else
        let s : ℕ := 116 + (e % 2).toNat
        let n : ℕ := m.toNat * 2 ^ s
        let e1 : ℤ := e - s
        let r := isqrtAux n 128 0
        let sticky : ℕ := if r * r = n then 0 else 1
        roundDyadic ((2 * r + sticky : ℕ) : ℤ) (e1 / 2 - 1)
  | inf s => if s then nan else inf false
  | nan => nan

/-- Conversion of a `double` to `uint64_t` (truncation toward zero).  `none`
where C++ leaves the conversion undefined: the truncated value is not
representable in 64 bits, or the operand is not finite. -/
def toUInt64 : F64 → Option ℕ
  | fin m e =>
      let t : ℤ :=
        if 0 ≤ e then m * ((2 ^ e.toNat : ℕ) : ℤ) else Int.tdiv m ((2 ^ (-e).toNat : ℕ) : ℤ)
      if 0 ≤ t ∧ t < 2 ^ 64 then some t.toNat else none
  | _ => none

/-- The rational value of a finite double (0 for infinities and NaN). -/
def toRat : F64 → ℚ
  | fin m e => (m : ℚ) * (2 : ℚ) ^ e
  | _ => 0

/-- The predicate "is a finite value". -/
def isFinite : F64 → Bool
  | fin _ _ => true
  | _ => false

end F64

/-! ## Rounding over the rationals

The same rounding stated on a rational number instead of a fraction of machine
integers.  The lemmas below show that `roundRat` computes it; the error bounds
are proved on this form. -/

/-- The integer nearest to `s`, the even one at a tie. -/
def nearestEven (s : ℚ) : ℤ :=
  if s - ⌊s⌋ < 1 / 2 ∨ (s - ⌊s⌋ = 1 / 2 ∧ ⌊s⌋ % 2 = 0) then ⌊s⌋ else ⌊s⌋ + 1

/-- The exponent of the last place of the binary64 values around `x > 0`. -/
def ulpExp (x : ℚ) : ℤ := max (Int.log 2 x - 52) (-1074)

/-- Rounding of `± x` for a rational `x ≥ 0`. -/
def roundAbs (neg : Bool) (x : ℚ) : F64 :=
  if x = 0 then F64.fin 0 (-1074)
  else pack neg (nearestEven (x / (2 : ℚ) ^ ulpExp x)).toNat (ulpExp x)

/-- Rounding of a rational to binary64. -/
def roundQ (q : ℚ) : F64 := roundAbs (decide (q < 0)) |q|

/-- The values of the format: `M * 2^U` with fewer than 54 bits in `M` and an
exponent of at least `-1074`. -/
def Representable (q : ℚ) : Prop :=
  ∃ M U : ℤ, |M| < 2 ^ 53 ∧ -1074 ≤ U ∧ q = (M : ℚ) * (2 : ℚ) ^ U

/-- The value of the rounding of `q`: the multiple of the last place nearest to
`q`, with the sign of `q`. -/
def roundVal (q : ℚ) : ℚ :=
  (if q < 0 then -1 else 1) * (nearestEven (|q| / (2 : ℚ) ^ ulpExp |q|) : ℚ) *
    (2 : ℚ) ^ ulpExp |q|

/-- The double `x` is finite, in the normal form of the format, with value `v`. -/
def IsVal (x : F64) (v : ℚ) : Prop :=
  ∃ m e : ℤ, x = F64.fin m e ∧ |m| < 2 ^ 53 ∧ -1074 ≤ e ∧ (m : ℚ) * (2 : ℚ) ^ e = v

/-- The unit roundoff of binary64, `2^-53`. -/
def eps : ℚ := 1 / 2 ^ 53

/-- The value `x` approximates `a ≥ 0` within `k` roundings:
`a (1 - eps)^k ≤ x ≤ a (1 + eps)^k`. -/
def Near (k : ℕ) (a x : ℚ) : Prop :=
  a * (1 - eps) ^ k ≤ x ∧ x ≤ a * (1 + eps) ^ k

/-! ## `stats<uint64_t>` -/

/-- `std::accumulate(first, last, init)` with a `double` accumulator: each
element is converted to `double` and added, `init = init + *first`. -/
def accumulate (xs : List ℕ) (init : F64) : F64 :=
  xs.foldl (fun acc x => F64.add acc (F64.ofNat x)) init

/-- The loop of `std::min_element`: `if (*first < *smallest) smallest = first`.
Arguments: the rest of the range, the position of its head, the position and
value of the smallest element so far. -/
def minLoop : List ℕ → ℕ → ℕ → ℕ → ℕ
  | [], _, si, _ => si
  | y :: ys, i, si, sv => if y < sv then minLoop ys (i + 1) i y else minLoop ys (i + 1) si sv

/-- `std::min_element(in.begin(), in.end())` as a position; on an empty range
it returns `last`, the position one past the end. -/
def min_element : List ℕ → ℕ
  | [] => 0
  | x :: xs => minLoop xs 1 0 x

/-- The loop of `std::max_element`: `if (*largest < *first) largest = first`. -/
def maxLoop : List ℕ → ℕ → ℕ → ℕ → ℕ
  | [], _, li, _ => li
  | y :: ys, i, li, lv => if lv < y then maxLoop ys (i + 1) i y else maxLoop ys (i + 1) li lv

/-- `std::max_element(in.begin(), in.end())` as a position. -/
def max_element : List ℕ → ℕ
  | [] => 0
  | x :: xs => maxLoop xs 1 0 x

/-- The struct `stats<uint64_t>`.  A field is `none` where C++ leaves its
initialiser undefined: `min` and `max` dereference an iterator (undefined at
`end()`), `total` converts a `double` to `uint64_t` (undefined out of range),
and `mean`, `stdev` are computed from `total`. -/
structure stats where
  count : ℕ
  total : Option ℕ
  min : Option ℕ
  max : Option ℕ
  mean : Option F64
  stdev : Option F64
deriving DecidableEq, Repr

namespace stats

/-- The static member `devest(in, mean)`. -/
def devest (inp : List ℕ) (mean : F64) : F64 :=
  let out := inp.foldl
    (fun out x =>
      let tmp := F64.sub (F64.ofNat x) mean
      F64.add out (F64.mul tmp tmp))
    F64.zero
  F64.sqrt (F64.div out (F64.ofNat inp.length))

/-- The constructor `stats(const std::vector<T> &in)`; members are initialised
in declaration order. -/
def stats (inp : List ℕ) : stats :=
  let count := inp.length
  let total := F64.toUInt64 (accumulate inp F64.zero)
  let min := inp[min_element inp]?
  let max := inp[max_element inp]?
  let mean := total.map (fun t => F64.div (F64.ofNat t) (F64.ofNat count))
  let stdev := mean.map (fun m => devest inp m)
  { count := count, total := total, min := min, max := max, mean := mean, stdev := stdev }

end stats

/-! ## `Instrument<>` -/

/-- The type `timevect`: a vector of `uint64_t`. -/
abbrev timevect := List ℕ

/-- The static members of `Instrument<>`.  `times` is an
`std::unordered_map<std::string, timevect>`: a list of key / value pairs with
distinct keys.  The iteration order of the container is unspecified; the model
fixes the order of first insertion. -/
structure Instrument where
  initialTime : ℕ
  times : List (String × timevect)
deriving DecidableEq, Repr

/-- The state at program start: `initialTime(0)` and an empty map. -/
def Instrument.init : Instrument := { initialTime := 0, times := [] }

/-- Lookup of a key in the map (`times.find(k)`). -/
def find (ts : List (String × timevect)) (k : String) : Option timevect :=
  match ts with
  | [] => none
  | (k1, v) :: rest => if k1 = k then some v else find rest k

/-- The statement `times[k].push_back(d)`: `operator[]` inserts an empty vector
when the key is absent, then the sample is appended. -/
def pushBack (ts : List (String × timevect)) (k : String) (d : ℕ) : List (String × timevect) :=
  match ts with
  | [] => [(k, [d])]
  | (k1, v) :: rest => if k1 = k then (k1, v ++ [d]) :: rest else (k1, v) :: pushBack rest k d

/-- The expression `(take_time_stamp() - start) * 1E-3` stored in a `uint64_t`:
the difference is taken modulo `2^64`, converted to `double`, multiplied by the
`double` literal, and truncated. -/
def elapsed (now start : ℕ) : Option ℕ :=
  F64.toUInt64 (F64.mul (F64.ofNat ((now + 2 ^ 64 - start) % 2 ^ 64)) F64.milli)

/-- The members of the inner class `InstrumentFunction`. -/
structure InstrumentFunction where
  funct_ : String
  start_time_ : ℕ
deriving DecidableEq, Repr

/-- The constructor `InstrumentFunction(funct)` when the clock reads `now`.
`none` is the failure of `assert(Instrument::initialTime > 0)`. -/
def InstrumentFunction.ctor (g : Instrument) (funct : String) (now : ℕ) :
    Option InstrumentFunction :=
  if 0 < g.initialTime then some { funct_ := funct, start_time_ := now } else none

/-- The destructor `~InstrumentFunction()` when the clock reads `now`. -/
def InstrumentFunction.dtor (g : Instrument) (t : InstrumentFunction) (now : ℕ) :
    Option Instrument :=
  (elapsed now t.start_time_).map
    (fun d => { g with times := pushBack g.times t.funct_ d })

/-- The constructor `Instrument()` when the clock reads `now`.  `none` is the
failure of `assert(initialTime == 0)`. -/
def Instrument.ctor (g : Instrument) (now : ℕ) : Option Instrument :=
  if g.initialTime = 0 then some { g with initialTime := now } else none

/-- The numbers of one line of the report, in column order.  The text layout
(`setw`, two decimals) is not part of the model. -/
structure Row where
  cont : ℕ
  name : String
  count : ℕ
  total : Option ℕ
  percent : Option F64
  mean : Option F64
  min : Option ℕ
  max : Option ℕ
  stdev : Option F64
  relative : Option F64
deriving DecidableEq, Repr

/-- The body of the loop of `~Instrument()` for the entry `f`. -/
def reportRow (el : Option ℕ) (cont : ℕ) (f : String × timevect) : Row :=
  let st := stats.stats f.2
  { cont := cont
    name := f.1
    count := st.count
    total := st.total
    percent := st.total.bind (fun t => el.map (fun e =>
      F64.div (F64.mul (F64.ofNat t) F64.hundred) (F64.ofNat e)))
    mean := st.mean
    min := st.min
    max := st.max
    stdev := st.stdev
    relative := st.stdev.bind (fun s => st.mean.map (fun m =>
      F64.div (F64.mul s F64.hundred) m)) }

/-- The loop `for (auto const &f : times)` with its counter `cont`. -/
def reportLoop (el : Option ℕ) : List (String × timevect) → ℕ → List Row
  | [], _ => []
  | f :: rest, cont => reportRow el cont f :: reportLoop el rest (cont + 1)

/-- The body of the destructor `~Instrument()` when the clock reads `now`, run
on the content of a map that is alive: the printed total time and the rows.  It
assigns to no static member.  The lifetime of the map is the matter of
`Instrument.teardown`. -/
def Instrument.dtor (g : Instrument) (now : ℕ) : Option ℕ × List Row :=
  let el := elapsed now g.initialTime
  (el, reportLoop el g.times 0)

/-- Where the declaration `Instrument<> __global_intrumenter__;`, the expansion
of `INSTRUMENTPP_CONSTRUCT`, is written: in a block (a local variable of
`main`), or at namespace scope (a variable with static storage duration,
"constructed globally" as the comment of the class says). -/
inductive Storage where
  | block
  | namespaceScope
deriving DecidableEq, Repr

/-- The end of the lifetime of the `Instrument` object.  The member `times` is a
static data member of a class template specialisation: it is initialised
dynamically, unordered with respect to the other statics, and statics are
destroyed in the reverse order of their initialisation.  A local object is
destroyed when its block is left, before every static, so its destructor
iterates the live map.  For an object at namespace scope `timesFirst` says
whether the initialisation of `times` completed before that of the object;
when it did not, `times` is destroyed before `~Instrument()` runs, and the loop
`for (auto const &f : times)` over the destroyed container is undefined
(`none`). -/
def Instrument.teardown (s : Storage) (timesFirst : Bool) (g : Instrument) (now : ℕ) :
    Option (Option ℕ × List Row) :=
  match s with
  | Storage.block => some (Instrument.dtor g now)
  | Storage.namespaceScope => if timesFirst then some (Instrument.dtor g now) else none

/-- What the program does to the static state, one event at a time. -/
inductive Event where
  | newInstrument (now : ℕ)
  | newFunction (funct : String) (now : ℕ)
  | endFunction (t : InstrumentFunction) (now : ℕ)
  | endInstrument (now : ℕ)
deriving DecidableEq, Repr

/-- One event; `none` when an assertion fails (the program aborts). -/
def step (g : Instrument) : Event → Option Instrument
  | Event.newInstrument now => Instrument.ctor g now
  | Event.newFunction funct now => (InstrumentFunction.ctor g funct now).map (fun _ => g)
  | Event.endFunction t now => InstrumentFunction.dtor g t now
  | Event.endInstrument _ => some g

/-- A sequence of events from the state `g`. -/
def run (g : Instrument) : List Event → Option Instrument
  | [] => some g
  | ev :: rest => (step g ev).bind (fun g1 => run g1 rest)

/-- The label an event records under: the label of the timer that a
destructor event releases. -/
def Event.label : Event → Option String
  | Event.endFunction t _ => some t.funct_
  | _ => none

/-- The sample an event appends to the series of `L`: the elapsed time of a
destructor event of a timer with label `L`. -/
def Event.sample (L : String) : Event → Option ℕ
  | Event.endFunction t now => if t.funct_ = L then elapsed now t.start_time_ else none
  | _ => none

/-- The labels recorded by a sequence of events, in the order of the releases. -/
def recorded (evs : List Event) : List String := evs.filterMap Event.label

/-- The samples a sequence of events appends to the series of `L`, in the order
of the releases. -/
def samplesOf (L : String) (evs : List Event) : List ℕ := evs.filterMap (Event.sample L)


/-! ## Correctness of the integer rounding -/

theorem log2Fuel_eq (f : ℕ) : ∀ n, n ≤ f → log2Fuel f n = Nat.log2 n := by
  induction f with
  | zero => intro n hn; simp [Nat.le_zero.mp hn, log2Fuel, Nat.log2]
  | succ f ih =>
    intro n hn
    unfold log2Fuel
    rw [Nat.log2]
    by_cases h2 : n < 2
    · simp [h2, Nat.not_le.mpr h2]
    · have : n / 2 ≤ f := by omega
      simp [h2, ih _ this, Nat.le_of_not_lt h2]

theorem ilog2_le (n : ℕ) (h : n ≠ 0) : 2 ^ ilog2 n ≤ n := by
  rw [ilog2, log2Fuel_eq n n le_rfl]; exact Nat.log2_self_le h

theorem lt_ilog2 (n : ℕ) : n < 2 ^ (ilog2 n + 1) := by
  rw [ilog2, log2Fuel_eq n n le_rfl]; exact Nat.lt_log2_self

theorem scaleFrac_snd_pos (a b : ℕ) (s : ℤ) (hb : 0 < b) : 0 < (scaleFrac a b s).2 := by
  unfold scaleFrac
  split
  · exact hb
  · positivity

theorem scaleFrac_val (a b : ℕ) (s : ℤ) (hb : 0 < b) :
    ((scaleFrac a b s).1 : ℚ) / ((scaleFrac a b s).2 : ℚ) = (a : ℚ) / b * (2 : ℚ) ^ s := by
  have hb' : (b : ℚ) ≠ 0 := by exact_mod_cast hb.ne'
  unfold scaleFrac
  split
  · rename_i h
    have : (2 : ℚ) ^ s = ((2 : ℚ) ^ s.toNat) := by
      rw [← zpow_natCast, Int.toNat_of_nonneg h]
    simp only [Nat.cast_mul, Nat.cast_pow, Nat.cast_ofNat, this]
    field_simp
  · rename_i h
    have hs : s = -((-s).toNat : ℤ) := by
      rw [Int.toNat_of_nonneg (by omega)]; ring
    have : (2 : ℚ) ^ s = ((2 : ℚ) ^ (-s).toNat)⁻¹ := by
      conv_lhs => rw [hs]
      rw [zpow_neg, zpow_natCast]
    simp only [Nat.cast_mul, Nat.cast_pow, Nat.cast_ofNat, this]
    field_simp

theorem expOf_spec (a b : ℕ) (ha : 0 < a) (hb : 0 < b) :
    (2 : ℚ) ^ expOf a b ≤ (a : ℚ) / b ∧ (a : ℚ) / b < (2 : ℚ) ^ (expOf a b + 1) := by
  have hb' : (0 : ℚ) < b := by exact_mod_cast hb
  have h2 : (0 : ℚ) < 2 := by norm_num
  have hla := ilog2_le a ha.ne'
  have hua := lt_ilog2 a
  have hlb := ilog2_le b hb.ne'
  have hub := lt_ilog2 b
  have hlaQ : (2 : ℚ) ^ (ilog2 a : ℤ) ≤ a := by rw [zpow_natCast]; exact_mod_cast hla
  have huaQ : (a : ℚ) < (2 : ℚ) ^ ((ilog2 a : ℤ) + 1) := by
    rw [show ((ilog2 a : ℤ) + 1) = ((ilog2 a + 1 : ℕ) : ℤ) by push_cast; ring, zpow_natCast]
    exact_mod_cast hua
  have hlbQ : (2 : ℚ) ^ (ilog2 b : ℤ) ≤ b := by rw [zpow_natCast]; exact_mod_cast hlb
  have hubQ : (b : ℚ) < (2 : ℚ) ^ ((ilog2 b : ℤ) + 1) := by
    rw [show ((ilog2 b : ℤ) + 1) = ((ilog2 b + 1 : ℕ) : ℤ) by push_cast; ring, zpow_natCast]
    exact_mod_cast hub
  set d : ℤ := (ilog2 a : ℤ) - (ilog2 b : ℤ) with hd
  have hpd : (0 : ℚ) < (2 : ℚ) ^ d := zpow_pos h2 d
  -- the quotient lies in `[2^(d-1), 2^(d+1))`
  have hlow : (2 : ℚ) ^ (d - 1) ≤ (a : ℚ) / b := by
    rw [le_div_iff₀ hb']
    calc (2 : ℚ) ^ (d - 1) * b ≤ (2 : ℚ) ^ (d - 1) * (2 : ℚ) ^ ((ilog2 b : ℤ) + 1) := by
          apply mul_le_mul_of_nonneg_left hubQ.le (zpow_pos h2 _).le
      _ = (2 : ℚ) ^ (ilog2 a : ℤ) := by
          rw [← zpow_add₀ (by norm_num : (2 : ℚ) ≠ 0)]; congr 1; omega
      _ ≤ a := hlaQ
  have hhigh : (a : ℚ) / b < (2 : ℚ) ^ (d + 1) := by
    rw [div_lt_iff₀ hb']
    calc (a : ℚ) < (2 : ℚ) ^ ((ilog2 a : ℤ) + 1) := huaQ
      _ = (2 : ℚ) ^ (d + 1) * (2 : ℚ) ^ (ilog2 b : ℤ) := by
          rw [← zpow_add₀ (by norm_num : (2 : ℚ) ≠ 0)]; congr 1; omega
      _ ≤ (2 : ℚ) ^ (d + 1) * b := by
          apply mul_le_mul_of_nonneg_left hlbQ (zpow_pos h2 _).le
  have hv := scaleFrac_val a b (-d) hb
  have hsp := scaleFrac_snd_pos a b (-d) hb
  have hspQ : (0 : ℚ) < ((scaleFrac a b (-d)).2 : ℚ) := by exact_mod_cast hsp
  have hexp : expOf a b = if (scaleFrac a b (-d)).2 ≤ (scaleFrac a b (-d)).1 then d else d - 1 := rfl
  rw [hexp]
  split
  · rename_i hle
    refine ⟨?_, hhigh⟩
    have : (1 : ℚ) ≤ (a : ℚ) / b * (2 : ℚ) ^ (-d) := by
      rw [← hv, le_div_iff₀ hspQ, one_mul]; exact_mod_cast hle
    rw [zpow_neg, ← div_eq_mul_inv, le_div_iff₀ hpd, one_mul] at this
    exact this
  · rename_i hle
    refine ⟨hlow, ?_⟩
    have : (a : ℚ) / b * (2 : ℚ) ^ (-d) < 1 := by
      rw [← hv, div_lt_iff₀ hspQ, one_mul]; exact_mod_cast Nat.lt_of_not_le hle
    rw [zpow_neg, ← div_eq_mul_inv, div_lt_iff₀ hpd, one_mul] at this
    rw [sub_add_cancel]
    exact this

theorem log_eq_of_bounds (x : ℚ) (E : ℤ) (h1 : (2 : ℚ) ^ E ≤ x) (h2 : x < (2 : ℚ) ^ (E + 1)) :
    Int.log 2 x = E := by
  have hx : 0 < x := lt_of_lt_of_le (zpow_pos (by norm_num) E) h1
  have ha : E ≤ Int.log 2 x := by
    rw [← Int.zpow_le_iff_le_log (by norm_num) hx]; exact_mod_cast h1
  have hb : Int.log 2 x < E + 1 := by
    rw [← Int.lt_zpow_iff_log_lt (by norm_num) hx]; exact_mod_cast h2
  omega


theorem nearestEven_frac (N D : ℕ) (hD : 0 < D) :
    nearestEven ((N : ℚ) / D) =
      ((if 2 * (N % D) < D ∨ (2 * (N % D) = D ∧ (N / D) % 2 = 0) then N / D else N / D + 1 : ℕ) : ℤ) := by
  have hDQ : (0 : ℚ) < D := by exact_mod_cast hD
  have hfl : ⌊(N : ℚ) / D⌋ = ((N / D : ℕ) : ℤ) := by
    rw [Rat.floor_natCast_div_natCast]; rfl
  have hfr : (N : ℚ) / D - (((N / D : ℕ) : ℤ) : ℚ) = ((N % D : ℕ) : ℚ) / D := by
    have h := Nat.div_add_mod N D
    have hq : (N : ℚ) = (D : ℚ) * ((N / D : ℕ) : ℚ) + ((N % D : ℕ) : ℚ) := by exact_mod_cast h.symm
    rw [Int.cast_natCast]
    field_simp
    linarith
  unfold nearestEven
  rw [hfl, hfr]
  have c1 : ((N % D : ℕ) : ℚ) / D < 1 / 2 ↔ 2 * (N % D) < D := by
    rw [div_lt_iff₀ hDQ]
    constructor
    · intro h
      have : (2 : ℚ) * ((N % D : ℕ) : ℚ) < D := by linarith
      exact_mod_cast this
    · intro h
      have : (2 : ℚ) * ((N % D : ℕ) : ℚ) < D := by exact_mod_cast h
      linarith
  have c2 : ((N % D : ℕ) : ℚ) / D = 1 / 2 ↔ 2 * (N % D) = D := by
    rw [div_eq_iff hDQ.ne']
    constructor
    · intro h
      have : (2 : ℚ) * ((N % D : ℕ) : ℚ) = D := by linarith
      exact_mod_cast this
    · intro h
      have : (2 : ℚ) * ((N % D : ℕ) : ℚ) = D := by exact_mod_cast h
      linarith
  have c3 : ((N / D : ℕ) : ℤ) % 2 = 0 ↔ (N / D) % 2 = 0 := by omega
  by_cases hc : 2 * (N % D) < D ∨ (2 * (N % D) = D ∧ (N / D) % 2 = 0)
  · rw [if_pos hc, if_pos (by rwa [c1, c2, c3])]
  · rw [if_neg hc, if_neg (by rwa [c1, c2, c3])]
    push_cast
    rfl

theorem roundRat_eq (neg : Bool) (a b : ℕ) (e : ℤ) (hb : 0 < b) :
    roundRat neg a b e = roundAbs neg ((a : ℚ) / b * (2 : ℚ) ^ e) := by
  have hbQ : (0 : ℚ) < b := by exact_mod_cast hb
  have h2e : (0 : ℚ) < (2 : ℚ) ^ e := zpow_pos (by norm_num) e
  by_cases ha : a = 0
  · simp [roundRat, roundAbs, ha]
  · have ha' : 0 < a := Nat.pos_of_ne_zero ha
    have haQ : (0 : ℚ) < a := by exact_mod_cast ha'
    have hx : (a : ℚ) / b * (2 : ℚ) ^ e ≠ 0 := by positivity
    obtain ⟨hl, hu⟩ := expOf_spec a b ha' hb
    have hlog : Int.log 2 ((a : ℚ) / b * (2 : ℚ) ^ e) = expOf a b + e := by
      apply log_eq_of_bounds
      · rw [zpow_add₀ (by norm_num : (2 : ℚ) ≠ 0)]
        exact mul_le_mul_of_nonneg_right hl h2e.le
      · rw [show expOf a b + e + 1 = (expOf a b + 1) + e by ring,
          zpow_add₀ (by norm_num : (2 : ℚ) ≠ 0)]
        exact mul_lt_mul_of_pos_right hu h2e
    have hulp : ulpExp ((a : ℚ) / b * (2 : ℚ) ^ e) = max (expOf a b + e - 52) (-1074) := by
      rw [ulpExp, hlog]
    set u : ℤ := max (expOf a b + e - 52) (-1074) with hu_def
    have hs : (a : ℚ) / b * (2 : ℚ) ^ e / (2 : ℚ) ^ u =
        ((scaleFrac a b (e - u)).1 : ℚ) / ((scaleFrac a b (e - u)).2 : ℚ) := by
      rw [scaleFrac_val a b (e - u) hb, zpow_sub₀ (by norm_num : (2 : ℚ) ≠ 0)]
      field_simp
    have hne := nearestEven_frac (scaleFrac a b (e - u)).1 (scaleFrac a b (e - u)).2
      (scaleFrac_snd_pos a b (e - u) hb)
    unfold roundRat roundAbs
    rw [if_neg ha, if_neg hx, hulp, hs, hne, Int.toNat_ofNat]

/-! ## Properties of the rounding over the rationals -/

theorem nearestEven_err (s : ℚ) : |(nearestEven s : ℚ) - s| ≤ 1 / 2 := by
  have h1 := Int.floor_le s
  have h2 := Int.lt_floor_add_one s
  unfold nearestEven
  split
  · rename_i h
    rw [abs_le]
    rcases h with h | ⟨h, _⟩ <;> constructor <;> linarith
  · rename_i h
    push_neg at h
    push_cast
    rw [abs_le]
    constructor <;> linarith [h.1]

theorem nearestEven_int (k : ℤ) : nearestEven (k : ℚ) = k := by
  unfold nearestEven
  simp

theorem nearestEven_mono_int (s : ℚ) (k : ℤ) (h : (k : ℚ) ≤ s) : k ≤ nearestEven s := by
  have hf : k ≤ ⌊s⌋ := Int.le_floor.mpr h
  unfold nearestEven
  split <;> omega

theorem nearestEven_le_int (s : ℚ) (k : ℤ) (h : s ≤ (k : ℚ)) : nearestEven s ≤ k := by
  unfold nearestEven
  split
  · have := Int.floor_le s
    have : (⌊s⌋ : ℚ) ≤ k := le_trans this h
    exact_mod_cast this
  · rename_i hc
    push_neg at hc
    by_contra hlt
    have h1 : k ≤ ⌊s⌋ := by omega
    have h2 : (k : ℚ) ≤ (⌊s⌋ : ℚ) := by exact_mod_cast h1
    have h3 := Int.floor_le s
    have h4 : s - ⌊s⌋ ≤ 0 := by linarith
    have := hc.1
    linarith


theorem two_zpow_pos (e : ℤ) : (0 : ℚ) < (2 : ℚ) ^ e := zpow_pos (by norm_num) e

theorem pack_spec (neg : Bool) (m : ℕ) (u : ℤ) (hm : m ≤ 2 ^ 53) (hu : u ≤ 970)
    (hl : -1074 ≤ u) :
    ∃ m1 e1 : ℤ, pack neg m u = F64.fin m1 e1 ∧ |m1| < 2 ^ 53 ∧ -1074 ≤ e1 ∧ e1 ≤ 971 ∧
      (m1 : ℚ) * (2 : ℚ) ^ e1 = (if neg then -1 else 1) * (m : ℚ) * (2 : ℚ) ^ u := by
  unfold pack
  by_cases h53 : m = 2 ^ 53
  · have hno : ¬ (971 < u + 1) := by omega
    simp only [h53, if_true, if_neg hno]
    refine ⟨_, _, rfl, ?_, by omega, by omega, ?_⟩
    · cases neg <;> simp
    · rw [zpow_add₀ (by norm_num : (2 : ℚ) ≠ 0)]
      cases neg <;> simp <;> ring
  · have hno : ¬ (971 < u) := by omega
    simp only [h53, if_false, if_neg hno]
    have hlt : m < 2 ^ 53 := lt_of_le_of_ne hm h53
    refine ⟨_, _, rfl, ?_, hl, by omega, ?_⟩
    · cases neg
      · simp only [Bool.false_eq_true, if_false, Nat.abs_cast]; exact_mod_cast hlt
      · simp only [if_true, abs_neg, Nat.abs_cast]; exact_mod_cast hlt
    · cases neg <;> simp

theorem ulpExp_ge (x : ℚ) : -1074 ≤ ulpExp x := le_max_right _ _

theorem ulpExp_le_of_lt (x : ℚ) (E : ℤ) (hx : 0 < x) (h : x < (2 : ℚ) ^ E) (hE : -1021 ≤ E) :
    ulpExp x ≤ E - 53 := by
  have hlog : Int.log 2 x < E := by
    rw [← Int.lt_zpow_iff_log_lt (by norm_num) hx]; exact_mod_cast h
  unfold ulpExp
  apply max_le <;> omega

theorem scaled_lt (x : ℚ) : x / (2 : ℚ) ^ ulpExp x < (2 : ℚ) ^ (53 : ℕ) := by
  have h1 := Int.lt_zpow_succ_log_self (R := ℚ) (b := 2) (by norm_num) x
  have h2 : Int.log 2 x - 52 ≤ ulpExp x := le_max_left _ _
  rw [div_lt_iff₀ (two_zpow_pos _), ← zpow_natCast, ← zpow_add₀ (by norm_num : (2 : ℚ) ≠ 0)]
  refine lt_of_lt_of_le (by exact_mod_cast h1) ?_
  apply zpow_le_zpow_right₀ (by norm_num)
  push_cast
  omega

theorem nearestEven_nonneg (s : ℚ) (hs : 0 ≤ s) : 0 ≤ nearestEven s :=
  nearestEven_mono_int s 0 (by simpa using hs)

/-- The value on the grid of `x ≥ 0`: the nearest multiple of the last place. -/
theorem roundAbs_spec (neg : Bool) (x : ℚ) (hx : 0 ≤ x) (hlt : x < (2 : ℚ) ^ (1023 : ℤ)) :
    ∃ m1 e1 : ℤ, roundAbs neg x = F64.fin m1 e1 ∧ |m1| < 2 ^ 53 ∧ -1074 ≤ e1 ∧ e1 ≤ 971 ∧
      (m1 : ℚ) * (2 : ℚ) ^ e1 =
        (if neg then -1 else 1) * (nearestEven (x / (2 : ℚ) ^ ulpExp x) : ℚ) *
          (2 : ℚ) ^ ulpExp x := by
  by_cases h0 : x = 0
  · refine ⟨0, -1074, by simp [roundAbs, h0], by norm_num, le_refl _, by norm_num, ?_⟩
    simp [h0, nearestEven]
  · have hpos : 0 < x := lt_of_le_of_ne hx (Ne.symm h0)
    have hs0 : 0 ≤ x / (2 : ℚ) ^ ulpExp x := div_nonneg hx (two_zpow_pos _).le
    have hn0 := nearestEven_nonneg _ hs0
    have hn53 : nearestEven (x / (2 : ℚ) ^ ulpExp x) ≤ 2 ^ 53 := by
      apply nearestEven_le_int
      have := scaled_lt x
      push_cast
      exact this.le
    have hu : ulpExp x ≤ 970 := by
      have := ulpExp_le_of_lt x 1023 hpos hlt (by norm_num)
      omega
    have hm : (nearestEven (x / (2 : ℚ) ^ ulpExp x)).toNat ≤ 2 ^ 53 := by
      have := Int.toNat_of_nonneg hn0
      omega
    obtain ⟨m1, e1, h1, h2, h3, h4, h5⟩ := pack_spec neg _ (ulpExp x) hm hu (ulpExp_ge x)
    refine ⟨m1, e1, by simp [roundAbs, h0, h1], h2, h3, h4, ?_⟩
    rw [h5]
    have : (((nearestEven (x / (2 : ℚ) ^ ulpExp x)).toNat : ℕ) : ℚ) =
        (nearestEven (x / (2 : ℚ) ^ ulpExp x) : ℚ) := by
      have := Int.toNat_of_nonneg hn0
      exact_mod_cast this
    rw [this]


/-- The sign factor of a rational. -/
theorem sign_mul_abs (q : ℚ) : q = (if q < 0 then (-1 : ℚ) else 1) * |q| := by
  split
  · rename_i h; rw [abs_of_neg h]; ring
  · rename_i h; rw [abs_of_nonneg (not_lt.mp h)]; ring

theorem roundQ_spec (q : ℚ) (h : |q| < (2 : ℚ) ^ (1023 : ℤ)) :
    ∃ m e : ℤ, roundQ q = F64.fin m e ∧ |m| < 2 ^ 53 ∧ -1074 ≤ e ∧ e ≤ 971 ∧
      (m : ℚ) * (2 : ℚ) ^ e =
        (if q < 0 then -1 else 1) * (nearestEven (|q| / (2 : ℚ) ^ ulpExp |q|) : ℚ) *
          (2 : ℚ) ^ ulpExp |q| := by
  obtain ⟨m, e, h1, h2, h3, h4, h5⟩ := roundAbs_spec (decide (q < 0)) |q| (abs_nonneg q) h
  refine ⟨m, e, h1, h2, h3, h4, ?_⟩
  rw [h5]
  by_cases hq : q < 0 <;> simp [hq]

theorem roundQ_err (q : ℚ) (m e : ℤ) (h : |q| < (2 : ℚ) ^ (1023 : ℤ))
    (hr : roundQ q = F64.fin m e) :
    |(m : ℚ) * (2 : ℚ) ^ e - q| ≤ (2 : ℚ) ^ ulpExp |q| / 2 := by
  obtain ⟨m1, e1, h1, _, _, _, h5⟩ := roundQ_spec q h
  rw [hr] at h1
  injection h1 with hm he
  subst hm he
  rw [h5]
  have hu := two_zpow_pos (ulpExp |q|)
  have herr := nearestEven_err (|q| / (2 : ℚ) ^ ulpExp |q|)
  have hqa := sign_mul_abs q
  have hs : |(if q < 0 then (-1 : ℚ) else 1)| = 1 := by split <;> simp
  generalize ulpExp |q| = u at hu herr ⊢
  generalize nearestEven (|q| / (2 : ℚ) ^ u) = n at herr ⊢
  generalize (if q < 0 then (-1 : ℚ) else 1) = σ at hqa hs ⊢
  generalize |q| = a at hqa herr ⊢
  have hk : σ * (n : ℚ) * (2 : ℚ) ^ u - q = σ * ((n : ℚ) - a / (2 : ℚ) ^ u) * (2 : ℚ) ^ u := by
    rw [hqa]
    field_simp
    ring
  rw [hk, abs_mul, abs_mul, hs, one_mul, abs_of_pos hu]
  calc |(n : ℚ) - a / (2 : ℚ) ^ u| * (2 : ℚ) ^ u ≤ 1 / 2 * (2 : ℚ) ^ u :=
        mul_le_mul_of_nonneg_right herr hu.le
    _ = (2 : ℚ) ^ u / 2 := by ring

theorem roundQ_exact (q : ℚ) (m e : ℤ) (hrep : Representable q)
    (h : |q| < (2 : ℚ) ^ (1023 : ℤ)) (hr : roundQ q = F64.fin m e) :
    (m : ℚ) * (2 : ℚ) ^ e = q := by
  obtain ⟨m1, e1, h1, _, _, _, h5⟩ := roundQ_spec q h
  rw [hr] at h1
  injection h1 with hm he
  subst hm he
  rw [h5]
  obtain ⟨M, U, hM, hU, hq⟩ := hrep
  have hgrid : ∃ k : ℤ, |q| / (2 : ℚ) ^ ulpExp |q| = (k : ℚ) := by
    by_cases hM0 : M = 0
    · refine ⟨0, ?_⟩
      simp [hq, hM0]
    · have habs : |q| = (|M| : ℤ) * (2 : ℚ) ^ U := by
        rw [hq, abs_mul, abs_of_pos (two_zpow_pos U)]; push_cast; rfl
      have hpos : 0 < |q| := by
        rw [habs]
        have : (0 : ℚ) < ((|M| : ℤ) : ℚ) := by exact_mod_cast abs_pos.mpr hM0
        exact mul_pos this (two_zpow_pos U)
      have hlt : |q| < (2 : ℚ) ^ (53 + U) := by
        rw [habs, zpow_add₀ (by norm_num : (2 : ℚ) ≠ 0)]
        apply mul_lt_mul_of_pos_right _ (two_zpow_pos U)
        exact_mod_cast hM
      have hu := ulpExp_le_of_lt |q| (53 + U) hpos hlt (by omega)
      refine ⟨|M| * 2 ^ (U - ulpExp |q|).toNat, ?_⟩
      have hd : (2 : ℚ) ^ U / (2 : ℚ) ^ ulpExp |q| = (2 : ℚ) ^ (U - ulpExp |q|).toNat := by
        rw [← zpow_sub₀ (by norm_num : (2 : ℚ) ≠ 0), ← zpow_natCast,
          Int.toNat_of_nonneg (by omega)]
      generalize ulpExp |q| = u at hu hd ⊢
      rw [habs, mul_div_assoc, hd]
      push_cast
      rfl
  obtain ⟨k, hk⟩ := hgrid
  rw [hk, nearestEven_int, ← hk, mul_assoc, div_mul_cancel₀ _ (two_zpow_pos _).ne',
    ← sign_mul_abs]

theorem roundDyadic_eq (s e : ℤ) : roundDyadic s e = roundQ ((s : ℚ) * (2 : ℚ) ^ e) := by
  have hp := two_zpow_pos e
  unfold roundDyadic roundQ
  rw [roundRat_eq _ _ _ _ Nat.one_pos]
  have h1 : decide (s < 0) = decide ((s : ℚ) * (2 : ℚ) ^ e < 0) := by
    congr 1
    apply propext
    constructor
    · intro h
      exact mul_neg_of_neg_of_pos (by exact_mod_cast h) hp
    · intro h
      by_contra hc
      have : (0 : ℚ) ≤ (s : ℚ) := by exact_mod_cast (not_lt.mp hc)
      have := mul_nonneg this hp.le
      linarith
  have h2 : ((s.natAbs : ℕ) : ℚ) / ((1 : ℕ) : ℚ) * (2 : ℚ) ^ e = |(s : ℚ) * (2 : ℚ) ^ e| := by
    rw [abs_mul, abs_of_pos hp, Nat.cast_one, div_one, Nat.cast_natAbs]
    push_cast
    rfl
  rw [h1, h2]

namespace F64

theorem ofNat_eq (n : ℕ) : ofNat n = roundQ (n : ℚ) := by
  unfold ofNat
  rw [roundDyadic_eq]
  simp

theorem add_fin (m1 e1 m2 e2 : ℤ) :
    add (fin m1 e1) (fin m2 e2) = roundQ ((m1 : ℚ) * (2 : ℚ) ^ e1 + (m2 : ℚ) * (2 : ℚ) ^ e2) := by
  unfold add
  simp only
  rw [roundDyadic_eq]
  congr 1
  have key : ∀ (a b : ℤ), b ≤ a →
      ((2 : ℚ) ^ (a - b).toNat) * (2 : ℚ) ^ b = (2 : ℚ) ^ a := by
    intro a b hab
    rw [← zpow_natCast, Int.toNat_of_nonneg (by omega),
      ← zpow_add₀ (by norm_num : (2 : ℚ) ≠ 0)]
    congr 1
    ring
  push_cast
  rw [add_mul, mul_assoc, mul_assoc, key e1 _ (min_le_left e1 e2), key e2 _ (min_le_right e1 e2)]

theorem mul_fin (m1 e1 m2 e2 : ℤ) :
    mul (fin m1 e1) (fin m2 e2) = roundQ ((m1 : ℚ) * (2 : ℚ) ^ e1 * ((m2 : ℚ) * (2 : ℚ) ^ e2)) := by
  unfold mul
  simp only
  rw [roundDyadic_eq]
  congr 1
  push_cast
  rw [zpow_add₀ (by norm_num : (2 : ℚ) ≠ 0)]
  ring

end F64


namespace F64

theorem toUInt64_fin (m e : ℤ) (h0 : 0 ≤ m)
    (hlt : (m : ℚ) * (2 : ℚ) ^ e < (2 : ℚ) ^ (64 : ℕ)) :
    toUInt64 (fin m e) = some ⌊(m : ℚ) * (2 : ℚ) ^ e⌋.toNat := by
  have hfl : (if 0 ≤ e then m * ((2 ^ e.toNat : ℕ) : ℤ)
        else Int.tdiv m ((2 ^ (-e).toNat : ℕ) : ℤ)) = ⌊(m : ℚ) * (2 : ℚ) ^ e⌋ := by
    split
    · rename_i he
      have : (m : ℚ) * (2 : ℚ) ^ e = ((m * ((2 ^ e.toNat : ℕ) : ℤ) : ℤ) : ℚ) := by
        push_cast
        rw [← zpow_natCast, Int.toNat_of_nonneg he]
      rw [this, Int.floor_intCast]
    · rename_i he
      have hd : (0 : ℤ) ≤ ((2 ^ (-e).toNat : ℕ) : ℤ) := Int.natCast_nonneg _
      rw [Int.tdiv_eq_ediv h0 hd]
      have : (m : ℚ) * (2 : ℚ) ^ e = (m : ℚ) / ((2 ^ (-e).toNat : ℕ) : ℚ) := by
        have hs : e = -((-e).toNat : ℤ) := by
          rw [Int.toNat_of_nonneg (by omega)]; ring
        conv_lhs => rw [hs, zpow_neg, zpow_natCast]
        push_cast
        rfl
      rw [this, Rat.floor_intCast_div_natCast]
  have hv0 : 0 ≤ (m : ℚ) * (2 : ℚ) ^ e :=
    mul_nonneg (by exact_mod_cast h0) (two_zpow_pos e).le
  have hf0 : 0 ≤ ⌊(m : ℚ) * (2 : ℚ) ^ e⌋ := Int.floor_nonneg.mpr hv0
  have hf1 : ⌊(m : ℚ) * (2 : ℚ) ^ e⌋ < 2 ^ 64 := by
    rw [Int.floor_lt]
    exact_mod_cast hlt
  unfold toUInt64
  simp only [hfl]
  rw [if_pos ⟨hf0, hf1⟩]

theorem toUInt64_nat (m e : ℤ) (n : ℕ) (hv : (m : ℚ) * (2 : ℚ) ^ e = (n : ℚ)) (hn : n < 2 ^ 64) :
    toUInt64 (fin m e) = some n := by
  have h0 : 0 ≤ m := by
    by_contra hc
    have hm : (m : ℚ) < 0 := by exact_mod_cast (not_le.mp hc)
    have := mul_neg_of_neg_of_pos hm (two_zpow_pos e)
    rw [hv] at this
    have : (0 : ℚ) ≤ n := Nat.cast_nonneg n
    linarith
  rw [toUInt64_fin m e h0 (by rw [hv]; exact_mod_cast hn), hv]
  simp

end F64

theorem representable_nat (n : ℕ) (h : n ≤ 2 ^ 53) : Representable (n : ℚ) := by
  by_cases h53 : n = 2 ^ 53
  · refine ⟨2 ^ 52, 1, by norm_num, by norm_num, ?_⟩
    rw [h53]; norm_num
  · refine ⟨n, 0, ?_, by norm_num, by simp⟩
    have : n < 2 ^ 53 := lt_of_le_of_ne h h53
    rw [Nat.abs_cast]
    exact_mod_cast this

theorem nat_lt_big (n : ℕ) (h : n ≤ 2 ^ 64) : |(n : ℚ)| < (2 : ℚ) ^ (1023 : ℤ) := by
  rw [abs_of_nonneg (Nat.cast_nonneg n)]
  have h1 : (n : ℚ) ≤ (2 : ℚ) ^ (64 : ℤ) := by
    rw [show (64 : ℤ) = ((64 : ℕ) : ℤ) by norm_num, zpow_natCast]
    exact_mod_cast h
  exact lt_of_le_of_lt h1 (zpow_lt_zpow_right₀ (by norm_num) (by norm_num))

/-- A rounding whose exact value is a natural number up to `2^53` is exact. -/
theorem roundQ_nat (n : ℕ) (h : n ≤ 2 ^ 53) :
    ∃ m e : ℤ, roundQ (n : ℚ) = F64.fin m e ∧ (m : ℚ) * (2 : ℚ) ^ e = n := by
  have hb := nat_lt_big n (le_trans h (by norm_num))
  obtain ⟨m, e, h1, _⟩ := roundQ_spec (n : ℚ) hb
  exact ⟨m, e, h1, roundQ_exact _ m e (representable_nat n h) hb h1⟩

theorem accumulate_exact (xs : List ℕ) : ∀ (acc : F64) (m e : ℤ) (S : ℕ),
    acc = F64.fin m e → (m : ℚ) * (2 : ℚ) ^ e = S → S + xs.sum ≤ 2 ^ 53 →
    ∃ m1 e1 : ℤ, accumulate xs acc = F64.fin m1 e1 ∧
      (m1 : ℚ) * (2 : ℚ) ^ e1 = ((S + xs.sum : ℕ) : ℚ) := by
  induction xs with
  | nil =>
    intro acc m e S h1 h2 _
    exact ⟨m, e, by simp [accumulate, h1], by simpa using h2⟩
  | cons x xs ih =>
    intro acc m e S h1 h2 h3
    simp only [List.sum_cons] at h3
    obtain ⟨mx, ex, hx1, hx2⟩ := roundQ_nat x (by omega)
    obtain ⟨ms, es, hs1, hs2⟩ := roundQ_nat (S + x) (by omega)
    have hstep : F64.add acc (F64.ofNat x) = F64.fin ms es := by
      rw [h1, F64.ofNat_eq, hx1, F64.add_fin, h2, hx2, ← hs1]
      push_cast
      rfl
    obtain ⟨m1, e1, h4, h5⟩ := ih (F64.fin ms es) ms es (S + x) rfl hs2 (by omega)
    refine ⟨m1, e1, ?_, ?_⟩
    · rw [← h4]
      simp only [accumulate, List.foldl_cons, hstep]
    · rw [h5, List.sum_cons]
      push_cast
      ring


theorem ulpExp_pow_le (x : ℚ) (E : ℤ) (hx : 0 < x) (h : x < (2 : ℚ) ^ E) (hE : -1021 ≤ E) :
    (2 : ℚ) ^ ulpExp x ≤ (2 : ℚ) ^ (E - 53) :=
  zpow_le_zpow_right₀ (by norm_num) (ulpExp_le_of_lt x E hx h hE)

/-- Rounding of a non-negative rational below `2^E`: a finite non-negative value
on the grid of the last place, within half a last place of the exact value. -/
theorem roundQ_nonneg (q : ℚ) (E : ℤ) (h0 : 0 ≤ q) (hE : q < (2 : ℚ) ^ E) (hE1 : -1021 ≤ E)
    (hE2 : E ≤ 1023) :
    ∃ m e : ℤ, roundQ q = F64.fin m e ∧ 0 ≤ m ∧ |m| < 2 ^ 53 ∧ -1074 ≤ e ∧
      (m : ℚ) * (2 : ℚ) ^ e = (nearestEven (q / (2 : ℚ) ^ ulpExp q) : ℚ) * (2 : ℚ) ^ ulpExp q ∧
      |(m : ℚ) * (2 : ℚ) ^ e - q| ≤ (2 : ℚ) ^ (E - 53) / 2 := by
  have hbig : |q| < (2 : ℚ) ^ (1023 : ℤ) := by
    rw [abs_of_nonneg h0]
    exact lt_of_lt_of_le hE (zpow_le_zpow_right₀ (by norm_num) hE2)
  obtain ⟨m, e, h1, h2, h3, _, h5⟩ := roundQ_spec q hbig
  have herr := roundQ_err q m e hbig h1
  rw [abs_of_nonneg h0] at h5 herr
  rw [if_neg (not_lt.mpr h0), one_mul] at h5
  have hn := nearestEven_nonneg (q / (2 : ℚ) ^ ulpExp q) (div_nonneg h0 (two_zpow_pos _).le)
  have hm : 0 ≤ m := by
    have hv : 0 ≤ (m : ℚ) * (2 : ℚ) ^ e := by
      rw [h5]
      exact mul_nonneg (by exact_mod_cast hn) (two_zpow_pos _).le
    by_contra hc
    have hm : (m : ℚ) < 0 := by exact_mod_cast (not_le.mp hc)
    have := mul_neg_of_neg_of_pos hm (two_zpow_pos e)
    linarith
  refine ⟨m, e, h1, hm, h2, h3, h5, ?_⟩
  by_cases hq : q = 0
  · rw [h5, hq]
    simp [nearestEven]
    positivity
  · have hpos : 0 < q := lt_of_le_of_ne h0 (Ne.symm hq)
    have := ulpExp_pow_le q E hpos hE hE1
    linarith

theorem milli_eq : F64.milli = F64.fin 4611686018427388 (-62) := by decide

/-- The scaling `t * 1E-3` truncated, for a tick count below `1000 * 2^43`. -/
theorem scale_exact (t : ℕ) (ht : t < 1000 * 2 ^ 43) :
    F64.toUInt64 (F64.mul (F64.ofNat t) F64.milli) = some (t / 1000) := by
  obtain ⟨mt, et, ht1, ht2⟩ := roundQ_nat t (by omega)
  rw [F64.ofNat_eq, ht1, milli_eq, F64.mul_fin, ht2]
  set p : ℚ := (t : ℚ) * (((4611686018427388 : ℤ) : ℚ) * (2 : ℚ) ^ (-62 : ℤ)) with hp
  have hdm := Nat.div_add_mod t 1000
  have hr : t % 1000 < 1000 := Nat.mod_lt _ (by norm_num)
  have hk : t / 1000 < 2 ^ 43 := by omega
  generalize t / 1000 = k at hdm hk ⊢
  generalize t % 1000 = r at hdm hr
  have hkQ : (k : ℚ) ≤ 8796093022207 := by
    have : k ≤ 8796093022207 := by omega
    exact_mod_cast this
  have hrQ : (r : ℚ) ≤ 999 := by
    have : r ≤ 999 := by omega
    exact_mod_cast this
  have hr0 : (0 : ℚ) ≤ (r : ℚ) := Nat.cast_nonneg _
  have hk0 : (0 : ℚ) ≤ (k : ℚ) := Nat.cast_nonneg _
  have htQ : (t : ℚ) = 1000 * (k : ℚ) + (r : ℚ) := by
    exact_mod_cast hdm.symm
  have hc : (((4611686018427388 : ℤ) : ℚ) * (2 : ℚ) ^ (-62 : ℤ)) =
      4611686018427388 / 4611686018427387904 := by norm_num
  have hlow : (k : ℚ) ≤ p := by
    rw [hp, hc, htQ]; linarith
  have hhigh : p < (k : ℚ) + 1 - 1 / 2048 := by
    rw [hp, hc, htQ]; linarith
  have hp0 : 0 ≤ p := le_trans hk0 hlow
  have hp43 : p < (2 : ℚ) ^ (43 : ℤ) := by
    have : (2 : ℚ) ^ (43 : ℤ) = 8796093022208 := by norm_num
    rw [this]; linarith
  obtain ⟨m, e, h1, hm0, _, _, h5, _⟩ := roundQ_nonneg p 43 hp0 hp43 (by norm_num) (by norm_num)
  rw [h1]
  by_cases hpz : p = 0
  · have hk0' : k = 0 := by
      have : (k : ℚ) ≤ 0 := by rw [← hpz]; exact hlow
      have : (k : ℚ) = 0 := le_antisymm this hk0
      exact_mod_cast this
    have hv : (m : ℚ) * (2 : ℚ) ^ e = ((0 : ℕ) : ℚ) := by
      rw [h5, hpz]; simp [nearestEven]
    rw [hk0']
    exact F64.toUInt64_nat m e 0 hv (by norm_num)
  have hppos : 0 < p := lt_of_le_of_ne hp0 (Ne.symm hpz)
  have hu : ulpExp p ≤ -10 := by
    have := ulpExp_le_of_lt p 43 hppos hp43 (by norm_num)
    omega
  -- the grid is finer than 2^(-10): write `2^(ulpExp p) = 1 / W` with `W ≥ 2^10`
  have hWu : (2 : ℚ) ^ ulpExp p = 1 / ((2 ^ (-ulpExp p).toNat : ℕ) : ℚ) := by
    have hs : ulpExp p = -((-ulpExp p).toNat : ℤ) := by
      rw [Int.toNat_of_nonneg (by omega)]; ring
    conv_lhs => rw [hs, zpow_neg, zpow_natCast]
    push_cast; ring
  have hW10 : 2 ^ 10 ≤ 2 ^ (-ulpExp p).toNat :=
    Nat.pow_le_pow_right (by norm_num) (by omega)
  generalize 2 ^ (-ulpExp p).toNat = W at hWu hW10
  have hW10Q : (1024 : ℚ) ≤ (W : ℚ) := by exact_mod_cast hW10
  have hWpos : (0 : ℚ) < (W : ℚ) := by linarith
  have hs : p / (2 : ℚ) ^ ulpExp p = p * W := by rw [hWu]; field_simp
  rw [hs, hWu] at h5
  have hnl : ((k * W : ℕ) : ℤ) ≤ nearestEven (p * W) := by
    apply nearestEven_mono_int
    push_cast
    exact mul_le_mul_of_nonneg_right hlow hWpos.le
  have hnu : (nearestEven (p * W) : ℚ) < ((k : ℚ) + 1) * W := by
    have herr := nearestEven_err (p * W)
    have h1 := (abs_le.mp herr).2
    have h2 : p * W < ((k : ℚ) + 1 - 1 / 2048) * W :=
      mul_lt_mul_of_pos_right hhigh hWpos
    nlinarith
  generalize nearestEven (p * W) = n at h5 hnl hnu
  have hv1 : (k : ℚ) ≤ (m : ℚ) * (2 : ℚ) ^ e := by
    rw [h5, mul_one_div, le_div_iff₀ hWpos]
    have := (Int.cast_le (R := ℚ)).mpr hnl
    push_cast at this
    exact this
  have hv2 : (m : ℚ) * (2 : ℚ) ^ e < (k : ℚ) + 1 := by
    rw [h5, mul_one_div, div_lt_iff₀ hWpos]; exact hnu
  rw [F64.toUInt64_fin m e hm0 (by
    have : (k : ℚ) + 1 ≤ (2 : ℚ) ^ (64 : ℕ) := by norm_num; linarith
    linarith)]
  have : ⌊(m : ℚ) * (2 : ℚ) ^ e⌋ = (k : ℤ) := by
    rw [Int.floor_eq_iff]
    constructor
    · exact_mod_cast hv1
    · exact_mod_cast hv2
  rw [this, Int.toNat_ofNat]


/-- The scaling `t * 1E-3` is in the range of `uint64_t` for every 64-bit tick
count, so the conversion is defined. -/
theorem scale_defined (t : ℕ) (ht : t < 2 ^ 64) :
    ∃ d, F64.toUInt64 (F64.mul (F64.ofNat t) F64.milli) = some d := by
  have ht0 : (0 : ℚ) ≤ (t : ℚ) := Nat.cast_nonneg t
  have htE : (t : ℚ) < (2 : ℚ) ^ (64 : ℤ) := by
    have : (2 : ℚ) ^ (64 : ℤ) = ((2 ^ 64 : ℕ) : ℚ) := by norm_num
    rw [this]; exact_mod_cast ht
  obtain ⟨mt, et, ht1, hmt0, _, _, _, herr⟩ :=
    roundQ_nonneg (t : ℚ) 64 ht0 htE (by norm_num) (by norm_num)
  rw [F64.ofNat_eq, ht1, milli_eq, F64.mul_fin]
  have hv0 : 0 ≤ (mt : ℚ) * (2 : ℚ) ^ et :=
    mul_nonneg (by exact_mod_cast hmt0) (two_zpow_pos et).le
  have hv1 : (mt : ℚ) * (2 : ℚ) ^ et ≤ 18446744073709552640 := by
    have h64 : (2 : ℚ) ^ (64 : ℤ) = 18446744073709551616 := by norm_num
    have h11 : (2 : ℚ) ^ ((64 : ℤ) - 53) = 2048 := by norm_num
    rw [h11] at herr
    rw [h64] at htE
    have := (abs_le.mp herr).2
    linarith
  have hc : (((4611686018427388 : ℤ) : ℚ) * (2 : ℚ) ^ (-62 : ℤ)) =
      4611686018427388 / 4611686018427387904 := by norm_num
  generalize (mt : ℚ) * (2 : ℚ) ^ et = v at hv0 hv1 ⊢
  rw [hc]
  have hp0 : 0 ≤ v * (4611686018427388 / 4611686018427387904) := by positivity
  have hp56 : v * (4611686018427388 / 4611686018427387904) < (2 : ℚ) ^ (56 : ℤ) := by
    have : (2 : ℚ) ^ (56 : ℤ) = 72057594037927936 := by norm_num
    rw [this]; linarith
  obtain ⟨m, e, h1, hm0, _, _, _, herr2⟩ :=
    roundQ_nonneg _ 56 hp0 hp56 (by norm_num) (by norm_num)
  rw [h1]
  refine ⟨_, F64.toUInt64_fin m e hm0 ?_⟩
  have h3 : (2 : ℚ) ^ ((56 : ℤ) - 53) = 8 := by norm_num
  have h56 : (2 : ℚ) ^ (56 : ℤ) = 72057594037927936 := by norm_num
  rw [h3] at herr2
  rw [h56] at hp56
  have := (abs_le.mp herr2).2
  have h64 : (2 : ℚ) ^ (64 : ℕ) = 18446744073709551616 := by norm_num
  rw [h64]
  linarith

theorem elapsed_of_le (now start : ℕ) (h : start ≤ now) (hn : now < 2 ^ 64) :
    elapsed now start = F64.toUInt64 (F64.mul (F64.ofNat (now - start)) F64.milli) := by
  unfold elapsed
  have : (now + 2 ^ 64 - start) % 2 ^ 64 = now - start := by omega
  rw [this]



namespace F64

theorem div_fin (m1 e1 m2 e2 : ℤ) (h2 : m2 ≠ 0) :
    div (fin m1 e1) (fin m2 e2) =
      roundQ ((m1 : ℚ) * (2 : ℚ) ^ e1 / ((m2 : ℚ) * (2 : ℚ) ^ e2)) := by
  have hp1 := two_zpow_pos e1
  have hp2 := two_zpow_pos e2
  have hm2 : (m2 : ℚ) ≠ 0 := by exact_mod_cast h2
  have hb : 0 < m2.natAbs := Int.natAbs_pos.mpr h2
  unfold div
  simp only [if_neg h2]
  rw [roundRat_eq _ _ _ _ hb]
  unfold roundQ
  have habs : ((m1.natAbs : ℕ) : ℚ) / ((m2.natAbs : ℕ) : ℚ) * (2 : ℚ) ^ (e1 - e2) =
      |(m1 : ℚ) * (2 : ℚ) ^ e1 / ((m2 : ℚ) * (2 : ℚ) ^ e2)| := by
    rw [abs_div, abs_mul, abs_mul, abs_of_pos hp1, abs_of_pos hp2, Nat.cast_natAbs,
      Nat.cast_natAbs, zpow_sub₀ (by norm_num : (2 : ℚ) ≠ 0)]
    push_cast
    field_simp
  rw [habs]
  by_cases h1 : m1 = 0
  · simp [h1, roundAbs]
  · congr 1
    have hm1 : (m1 : ℚ) ≠ 0 := by exact_mod_cast h1
    have hsign : ((m1 : ℚ) * (2 : ℚ) ^ e1 / ((m2 : ℚ) * (2 : ℚ) ^ e2) < 0) ↔
        ((m1 < 0) ≠ (m2 < 0)) := by
      have hq : (m1 : ℚ) * (2 : ℚ) ^ e1 / ((m2 : ℚ) * (2 : ℚ) ^ e2) =
          (m1 : ℚ) / (m2 : ℚ) * ((2 : ℚ) ^ e1 / (2 : ℚ) ^ e2) := by field_simp
      have hpos : (0 : ℚ) < (2 : ℚ) ^ e1 / (2 : ℚ) ^ e2 := div_pos hp1 hp2
      rw [hq, mul_neg_iff]
      simp only [hpos, not_lt.mpr hpos.le, and_true, and_false, false_or, or_false]
      rw [div_neg_iff]
      have a1 : (0 : ℚ) < (m1 : ℚ) ↔ ¬ (m1 < 0) := by
        rw [Int.cast_pos]; omega
      have a2 : (0 : ℚ) < (m2 : ℚ) ↔ ¬ (m2 < 0) := by
        rw [Int.cast_pos]; omega
      have b1 : (m1 : ℚ) < 0 ↔ m1 < 0 := Int.cast_lt_zero
      have b2 : (m2 : ℚ) < 0 ↔ m2 < 0 := Int.cast_lt_zero
      rw [a1, a2, b1, b2]
      by_cases c1 : m1 < 0 <;> by_cases c2 : m2 < 0 <;> simp [c1, c2]
    by_cases c1 : m1 < 0 <;> by_cases c2 : m2 < 0 <;> simp [c1, c2, hsign]

end F64

theorem ulpExp_rel (x : ℚ) (hx : (2 : ℚ) ^ (-1022 : ℤ) ≤ x) :
    (2 : ℚ) ^ ulpExp x ≤ x * (2 : ℚ) ^ (-52 : ℤ) := by
  have hpos : 0 < x := lt_of_lt_of_le (two_zpow_pos _) hx
  have hlog : -1022 ≤ Int.log 2 x := by
    rw [← Int.zpow_le_iff_le_log (by norm_num) hpos]; exact_mod_cast hx
  have hu : ulpExp x = Int.log 2 x - 52 := by
    unfold ulpExp
    apply max_eq_left; omega
  rw [hu, zpow_sub₀ (by norm_num : (2 : ℚ) ≠ 0), zpow_neg, div_eq_mul_inv]
  apply mul_le_mul_of_nonneg_right _ (by positivity)
  exact_mod_cast Int.zpow_log_le_self (R := ℚ) (b := 2) (by norm_num) hpos

/-- A rounding is a value of the format or an infinity. -/
theorem roundQ_canon (q : ℚ) :
    (∃ m e : ℤ, roundQ q = F64.fin m e ∧ |m| < 2 ^ 53 ∧ -1074 ≤ e) ∨
      ∃ s, roundQ q = F64.inf s := by
  unfold roundQ roundAbs
  by_cases h0 : |q| = 0
  · left
    exact ⟨0, -1074, by simp [h0], by norm_num, le_refl _⟩
  · rw [if_neg h0]
    have hpos : 0 < |q| := lt_of_le_of_ne (abs_nonneg q) (Ne.symm h0)
    have hs0 : 0 ≤ |q| / (2 : ℚ) ^ ulpExp |q| := div_nonneg hpos.le (two_zpow_pos _).le
    have hn0 := nearestEven_nonneg _ hs0
    have hn53 : nearestEven (|q| / (2 : ℚ) ^ ulpExp |q|) ≤ 2 ^ 53 := by
      apply nearestEven_le_int
      have := scaled_lt |q|
      push_cast
      exact this.le
    have hm : (nearestEven (|q| / (2 : ℚ) ^ ulpExp |q|)).toNat ≤ 2 ^ 53 := by
      have := Int.toNat_of_nonneg hn0
      omega
    have hu := ulpExp_ge |q|
    generalize (nearestEven (|q| / (2 : ℚ) ^ ulpExp |q|)).toNat = m at hm
    generalize ulpExp |q| = u at hu
    generalize decide (q < 0) = s
    unfold pack
    by_cases h53 : m = 2 ^ 53
    · simp only [h53, if_true]
      by_cases hov : 971 < u + 1
      · right; exact ⟨s, by simp [hov]⟩
      · left
        refine ⟨_, _, by rw [if_neg hov], ?_, by omega⟩
        cases s <;> simp
    · simp only [h53, if_false]
      have hlt : m < 2 ^ 53 := lt_of_le_of_ne hm h53
      by_cases hov : 971 < u
      · right; exact ⟨s, by simp [hov]⟩
      · left
        refine ⟨_, _, by rw [if_neg hov], ?_, hu⟩
        cases s
        · simp only [Bool.false_eq_true, if_false, Nat.abs_cast]; exact_mod_cast hlt
        · simp only [if_true, abs_neg, Nat.abs_cast]; exact_mod_cast hlt

/-- The accumulator of `std::accumulate` is a value of the format whenever it
is finite. -/
theorem accumulate_canon (xs : List ℕ) : ∀ (acc : F64),
    (∀ m e, acc = F64.fin m e → |m| < 2 ^ 53 ∧ -1074 ≤ e) →
    ∀ m e, accumulate xs acc = F64.fin m e → |m| < 2 ^ 53 ∧ -1074 ≤ e := by
  induction xs with
  | nil => intro acc h m e hm; exact h m e (by simpa [accumulate] using hm)
  | cons x xs ih =>
    intro acc _ m e hm
    apply ih (F64.add acc (F64.ofNat x)) _ m e (by simpa [accumulate] using hm)
    intro m1 e1 h1
    have hx := roundQ_canon (x : ℚ)
    rw [← F64.ofNat_eq] at hx
    cases acc with
    | nan => simp [F64.add] at h1
    | inf s =>
      rcases hx with ⟨mx, ex, hx1, _⟩ | ⟨sx, hx1⟩
      · rw [hx1] at h1; simp [F64.add] at h1
      · rw [hx1] at h1; simp only [F64.add] at h1; split at h1 <;> simp at h1
    | fin ma ea =>
      rcases hx with ⟨mx, ex, hx1, _⟩ | ⟨sx, hx1⟩
      · rw [hx1, F64.add_fin] at h1
        rcases roundQ_canon ((ma : ℚ) * (2 : ℚ) ^ ea + (mx : ℚ) * (2 : ℚ) ^ ex) with
          ⟨m2, e2, h2, h3, h4⟩ | ⟨s2, h2⟩
        · rw [h2] at h1
          injection h1 with ha hb
          subst ha hb
          exact ⟨h3, h4⟩
        · rw [h2] at h1; simp at h1
      · rw [hx1] at h1; simp [F64.add] at h1


/-! ## Values of the operations -/

theorem roundQ_isVal (q : ℚ) (h : |q| < (2 : ℚ) ^ (1023 : ℤ)) : IsVal (roundQ q) (roundVal q) := by
  obtain ⟨m, e, h1, h2, h3, _, h5⟩ := roundQ_spec q h
  exact ⟨m, e, h1, h2, h3, h5⟩

theorem IsVal.unique {x : F64} {v w : ℚ} (h1 : IsVal x v) (h2 : IsVal x w) : v = w := by
  obtain ⟨m, e, hx, _, _, hv⟩ := h1
  obtain ⟨m', e', hx', _, _, hw⟩ := h2
  rw [hx] at hx'
  injection hx' with a b
  subst a b
  rw [← hv, ← hw]

theorem IsVal.representable {x : F64} {v : ℚ} (h : IsVal x v) : Representable v := by
  obtain ⟨m, e, _, hm, he, hv⟩ := h
  exact ⟨m, e, hm, he, hv.symm⟩

theorem roundVal_err (q : ℚ) : |roundVal q - q| ≤ (2 : ℚ) ^ ulpExp |q| / 2 := by
  have hu := two_zpow_pos (ulpExp |q|)
  have herr := nearestEven_err (|q| / (2 : ℚ) ^ ulpExp |q|)
  have hqa := sign_mul_abs q
  have hs : |(if q < 0 then (-1 : ℚ) else 1)| = 1 := by split <;> simp
  unfold roundVal
  generalize ulpExp |q| = u at hu herr ⊢
  generalize nearestEven (|q| / (2 : ℚ) ^ u) = n at herr ⊢
  generalize (if q < 0 then (-1 : ℚ) else 1) = σ at hqa hs ⊢
  generalize |q| = a at hqa herr ⊢
  have hk : σ * (n : ℚ) * (2 : ℚ) ^ u - q = σ * ((n : ℚ) - a / (2 : ℚ) ^ u) * (2 : ℚ) ^ u := by
    rw [hqa]
    field_simp
    ring
  rw [hk, abs_mul, abs_mul, hs, one_mul, abs_of_pos hu]
  calc |(n : ℚ) - a / (2 : ℚ) ^ u| * (2 : ℚ) ^ u ≤ 1 / 2 * (2 : ℚ) ^ u :=
        mul_le_mul_of_nonneg_right herr hu.le
    _ = (2 : ℚ) ^ u / 2 := by ring

theorem roundVal_zero : roundVal 0 = 0 := by
  simp [roundVal, nearestEven]

theorem roundVal_nonneg (q : ℚ) (h : 0 ≤ q) : 0 ≤ roundVal q := by
  unfold roundVal
  rw [if_neg (not_lt.mpr h), one_mul]
  have := nearestEven_nonneg (|q| / (2 : ℚ) ^ ulpExp |q|)
    (div_nonneg (abs_nonneg q) (two_zpow_pos _).le)
  exact mul_nonneg (by exact_mod_cast this) (two_zpow_pos _).le

theorem roundVal_neg (q : ℚ) : roundVal (-q) = -roundVal q := by
  by_cases h0 : q = 0
  · simp [h0, roundVal_zero]
  unfold roundVal
  rw [abs_neg]
  rcases lt_or_gt_of_ne h0 with h | h
  · have : ¬ (-q < 0) := by linarith
    rw [if_neg this, if_pos h]; ring
  · have : ¬ (q < 0) := by linarith
    rw [if_pos (by linarith : -q < 0), if_neg this]; ring

theorem roundVal_exact (q : ℚ) (hrep : Representable q) : roundVal q = q := by
  obtain ⟨M, U, hM, hU, hq⟩ := hrep
  have hgrid : ∃ k : ℤ, |q| / (2 : ℚ) ^ ulpExp |q| = (k : ℚ) := by
    by_cases hM0 : M = 0
    · refine ⟨0, ?_⟩
      simp [hq, hM0]
    · have habs : |q| = (|M| : ℤ) * (2 : ℚ) ^ U := by
        rw [hq, abs_mul, abs_of_pos (two_zpow_pos U)]; push_cast; rfl
      have hpos : 0 < |q| := by
        rw [habs]
        have : (0 : ℚ) < ((|M| : ℤ) : ℚ) := by exact_mod_cast abs_pos.mpr hM0
        exact mul_pos this (two_zpow_pos U)
      have hlt : |q| < (2 : ℚ) ^ (53 + U) := by
        rw [habs, zpow_add₀ (by norm_num : (2 : ℚ) ≠ 0)]
        apply mul_lt_mul_of_pos_right _ (two_zpow_pos U)
        exact_mod_cast hM
      have hu := ulpExp_le_of_lt |q| (53 + U) hpos hlt (by omega)
      refine ⟨|M| * 2 ^ (U - ulpExp |q|).toNat, ?_⟩
      have hd : (2 : ℚ) ^ U / (2 : ℚ) ^ ulpExp |q| = (2 : ℚ) ^ (U - ulpExp |q|).toNat := by
        rw [← zpow_sub₀ (by norm_num : (2 : ℚ) ≠ 0), ← zpow_natCast,
          Int.toNat_of_nonneg (by omega)]
      generalize ulpExp |q| = u at hu hd ⊢
      rw [habs, mul_div_assoc, hd]
      push_cast
      rfl
  obtain ⟨k, hk⟩ := hgrid
  unfold roundVal
  rw [hk, nearestEven_int, ← hk, mul_assoc, div_mul_cancel₀ _ (two_zpow_pos _).ne',
    ← sign_mul_abs]

/-- The relative error of a rounding in the normal range is at most `eps`. -/
theorem roundVal_rel (q : ℚ) (h : q = 0 ∨ (2 : ℚ) ^ (-1022 : ℤ) ≤ |q|) :
    |roundVal q - q| ≤ eps * |q| := by
  rcases h with h | h
  · rw [h, roundVal_zero]; simp
  · have h1 := roundVal_err q
    have h2 := ulpExp_rel |q| h
    have h3 : (2 : ℚ) ^ (-52 : ℤ) = 2 * eps := by unfold eps; norm_num
    rw [h3] at h2
    linarith

namespace F64

theorem ofNat_isVal (n : ℕ) (h : n ≤ 2 ^ 64) : IsVal (ofNat n) (roundVal n) := by
  rw [ofNat_eq]
  exact roundQ_isVal _ (nat_lt_big n h)

theorem add_isVal {x y : F64} {a b : ℚ} (hx : IsVal x a) (hy : IsVal y b)
    (h : |a + b| < (2 : ℚ) ^ (1023 : ℤ)) : IsVal (add x y) (roundVal (a + b)) := by
  obtain ⟨m1, e1, rfl, _, _, h1⟩ := hx
  obtain ⟨m2, e2, rfl, _, _, h2⟩ := hy
  rw [add_fin, h1, h2]
  exact roundQ_isVal _ h

theorem neg_isVal {x : F64} {a : ℚ} (hx : IsVal x a) : IsVal (neg x) (-a) := by
  obtain ⟨m1, e1, rfl, h1, h2, h3⟩ := hx
  refine ⟨-m1, e1, rfl, by rwa [abs_neg], h2, ?_⟩
  push_cast
  rw [neg_mul, h3]

theorem sub_isVal {x y : F64} {a b : ℚ} (hx : IsVal x a) (hy : IsVal y b)
    (h : |a - b| < (2 : ℚ) ^ (1023 : ℤ)) : IsVal (sub x y) (roundVal (a - b)) := by
  unfold sub
  rw [sub_eq_add_neg] at h ⊢
  exact add_isVal hx (neg_isVal hy) h

theorem mul_isVal {x y : F64} {a b : ℚ} (hx : IsVal x a) (hy : IsVal y b)
    (h : |a * b| < (2 : ℚ) ^ (1023 : ℤ)) : IsVal (mul x y) (roundVal (a * b)) := by
  obtain ⟨m1, e1, rfl, _, _, h1⟩ := hx
  obtain ⟨m2, e2, rfl, _, _, h2⟩ := hy
  rw [mul_fin, h1, h2]
  exact roundQ_isVal _ h

theorem div_isVal {x y : F64} {a b : ℚ} (hx : IsVal x a) (hy : IsVal y b) (hb : b ≠ 0)
    (h : |a / b| < (2 : ℚ) ^ (1023 : ℤ)) : IsVal (div x y) (roundVal (a / b)) := by
  obtain ⟨m1, e1, rfl, _, _, h1⟩ := hx
  obtain ⟨m2, e2, rfl, _, _, h2⟩ := hy
  have hm2 : m2 ≠ 0 := by
    rintro rfl
    apply hb
    rw [← h2]; simp
  rw [div_fin _ _ _ _ hm2, h1, h2]
  exact roundQ_isVal _ h

theorem zero_isVal : IsVal zero 0 :=
  ⟨0, -1074, rfl, by norm_num, le_refl _, by simp⟩

end F64


theorem IsVal.toRat_eq {x : F64} {v : ℚ} (h : IsVal x v) : x.toRat = v ∧ x.isFinite = true := by
  obtain ⟨m, e, rfl, _, _, hv⟩ := h
  exact ⟨hv, rfl⟩

theorem toUInt64_representable (m e : ℤ) (T : ℕ) (hm : |m| < 2 ^ 53) (he : -1074 ≤ e)
    (h : F64.toUInt64 (F64.fin m e) = some T) : Representable (T : ℚ) ∧ T < 2 ^ 64 := by
  by_cases he0 : 0 ≤ e
  · simp only [F64.toUInt64, if_pos he0] at h
    split at h
    · rename_i hc
      obtain ⟨hc0, hc1⟩ := hc
      injection h with hT
      refine ⟨⟨m, e, hm, he, ?_⟩, by omega⟩
      have h1 : ((T : ℤ) : ℚ) = ((m * ((2 ^ e.toNat : ℕ) : ℤ) : ℤ) : ℚ) := by
        congr 1
        rw [← hT, Int.toNat_of_nonneg hc0]
      rw [Int.cast_natCast] at h1
      rw [h1]
      push_cast
      rw [← zpow_natCast, Int.toNat_of_nonneg he0]
    · simp at h
  · simp only [F64.toUInt64, if_neg he0] at h
    split at h
    · rename_i hc
      obtain ⟨hc0, hc1⟩ := hc
      injection h with hT
      refine ⟨?_, by omega⟩
      apply representable_nat
      have h1 := Int.natAbs_tdiv m ((2 ^ (-e).toNat : ℕ) : ℤ)
      have h2 : (Int.tdiv m ((2 ^ (-e).toNat : ℕ) : ℤ)).natAbs ≤ m.natAbs := by
        rw [h1]; exact Nat.div_le_self _ _
      have h3 : m.natAbs < 2 ^ 53 := by
        have : ((m.natAbs : ℕ) : ℤ) < 2 ^ 53 := by rw [Int.natCast_natAbs]; exact hm
        exact_mod_cast this
      have h4 : T = (Int.tdiv m ((2 ^ (-e).toNat : ℕ) : ℤ)).natAbs := by
        rw [← hT]
        omega
      omega
    · simp at h

theorem accumulate_total (xs : List ℕ) (T : ℕ)
    (hT : F64.toUInt64 (accumulate xs F64.zero) = some T) :
    Representable (T : ℚ) ∧ T < 2 ^ 64 := by
  cases hacc : accumulate xs F64.zero with
  | nan => rw [hacc] at hT; simp [F64.toUInt64] at hT
  | inf s => rw [hacc] at hT; simp [F64.toUInt64] at hT
  | fin m e =>
    have hz : ∀ m e, F64.zero = F64.fin m e → |m| < 2 ^ 53 ∧ -1074 ≤ e := by
      intro m e h
      unfold F64.zero at h
      injection h with a b
      subst a b
      exact ⟨by norm_num, le_refl _⟩
    obtain ⟨h1, h2⟩ := accumulate_canon xs F64.zero hz m e hacc
    rw [hacc] at hT
    exact toUInt64_representable m e T h1 h2 hT

theorem nat_isVal (n : ℕ) (h : Representable (n : ℚ)) (hn : n < 2 ^ 64) :
    IsVal (F64.ofNat n) (n : ℚ) := by
  have := F64.ofNat_isVal n hn.le
  rwa [roundVal_exact _ h] at this

theorem div_nat_bound (T n : ℕ) (hT : T < 2 ^ 64) :
    |(T : ℚ) / (n : ℚ)| < (2 : ℚ) ^ (1023 : ℤ) := by
  have h0 : (0 : ℚ) ≤ (T : ℚ) / (n : ℚ) := by positivity
  rw [abs_of_nonneg h0]
  have h1 : (T : ℚ) / (n : ℚ) ≤ T := by
    rcases Nat.eq_zero_or_pos n with h | h
    · simp [h]
    · apply div_le_self (Nat.cast_nonneg T)
      exact_mod_cast h
  have h2 := nat_lt_big T hT.le
  rw [abs_of_nonneg (Nat.cast_nonneg T)] at h2
  linarith

/-- The `mean` member: the rounding of the quotient of the members `total` and
`count`. -/
theorem mean_isVal (xs : List ℕ) (T : ℕ) (hne : xs ≠ []) (hn : xs.length ≤ 2 ^ 53)
    (hT : (stats.stats xs).total = some T) :
    ∃ x, (stats.stats xs).mean = some x ∧ IsVal x (roundVal ((T : ℚ) / (xs.length : ℚ))) := by
  have hT' : F64.toUInt64 (accumulate xs F64.zero) = some T := hT
  obtain ⟨hrep, hlt⟩ := accumulate_total xs T hT'
  have hlen : 0 < xs.length := List.length_pos.mpr hne
  have hx := nat_isVal T hrep hlt
  have hy := nat_isVal xs.length (representable_nat _ hn) (by omega)
  have hnz : (xs.length : ℚ) ≠ 0 := by exact_mod_cast hlen.ne'
  refine ⟨F64.div (F64.ofNat T) (F64.ofNat xs.length), ?_, ?_⟩
  · show Option.map _ (F64.toUInt64 (accumulate xs F64.zero)) = _
    rw [hT']
    rfl
  · exact F64.div_isVal hx hy hnz (div_nat_bound T xs.length hlt)


theorem nearestEven_nearest (s : ℚ) (j : ℤ) : |(nearestEven s : ℚ) - s| ≤ |(j : ℚ) - s| := by
  have h := nearestEven_err s
  by_cases hj : j = nearestEven s
  · rw [hj]
  · have h1 : (1 : ℤ) ≤ |j - nearestEven s| := by
      have : j - nearestEven s ≠ 0 := sub_ne_zero.mpr hj
      exact Int.one_le_abs this
    have h2 : (1 : ℚ) ≤ |(j : ℚ) - (nearestEven s : ℚ)| := by
      have := (Int.cast_le (R := ℚ)).mpr h1
      push_cast at this
      exact this
    have h3 : |(j : ℚ) - (nearestEven s : ℚ)| ≤ |(j : ℚ) - s| + |(nearestEven s : ℚ) - s| := by
      have := abs_sub_le (j : ℚ) s (nearestEven s : ℚ)
      rwa [abs_sub_comm s] at this
    linarith

theorem Representable.neg {y : ℚ} (h : Representable y) : Representable (-y) := by
  obtain ⟨M, U, hM, hU, hy⟩ := h
  exact ⟨-M, U, by rwa [abs_neg], hU, by rw [hy]; push_cast; ring⟩

theorem roundVal_nearest_nonneg (a : ℚ) (ha : 0 ≤ a) (y : ℚ) (hy : Representable y) :
    |roundVal a - a| ≤ |y - a| := by
  by_cases ha0 : a = 0
  · rw [ha0, roundVal_zero]; simp
  have hpos : 0 < a := lt_of_le_of_ne ha (Ne.symm ha0)
  have hu := two_zpow_pos (ulpExp a)
  have hval : roundVal a = (nearestEven (a / (2 : ℚ) ^ ulpExp a) : ℚ) * (2 : ℚ) ^ ulpExp a := by
    unfold roundVal
    rw [if_neg (not_lt.mpr ha), one_mul, abs_of_nonneg ha]
  have hgrid : ∀ j : ℤ, |roundVal a - a| ≤ |(j : ℚ) * (2 : ℚ) ^ ulpExp a - a| := by
    intro j
    have h1 := nearestEven_nearest (a / (2 : ℚ) ^ ulpExp a) j
    have e1 : roundVal a - a =
        ((nearestEven (a / (2 : ℚ) ^ ulpExp a) : ℚ) - a / (2 : ℚ) ^ ulpExp a) *
          (2 : ℚ) ^ ulpExp a := by
      rw [hval]; field_simp
    have e2 : (j : ℚ) * (2 : ℚ) ^ ulpExp a - a =
        ((j : ℚ) - a / (2 : ℚ) ^ ulpExp a) * (2 : ℚ) ^ ulpExp a := by
      field_simp
    rw [e1, e2, abs_mul, abs_mul, abs_of_pos hu]
    exact mul_le_mul_of_nonneg_right h1 hu.le
  obtain ⟨M, U, hM, hU, hyM⟩ := hy
  by_cases hUu : ulpExp a ≤ U
  · have hd : (2 : ℚ) ^ U = ((2 ^ (U - ulpExp a).toNat : ℤ) : ℚ) * (2 : ℚ) ^ ulpExp a := by
      push_cast
      rw [← zpow_natCast, Int.toNat_of_nonneg (by omega),
        ← zpow_add₀ (by norm_num : (2 : ℚ) ≠ 0)]
      congr 1
      ring
    have := hgrid (M * 2 ^ (U - ulpExp a).toNat)
    rw [hyM, hd]
    push_cast at this ⊢
    rw [← mul_assoc]
    exact this
  · have hUlt : U < ulpExp a := not_le.mp hUu
    have hlog : ulpExp a = Int.log 2 a - 52 := by
      unfold ulpExp at hUlt ⊢
      apply max_eq_left
      by_contra hc
      rw [max_eq_right (by omega)] at hUlt
      omega
    have hg : (2 : ℚ) ^ Int.log 2 a ≤ a := by
      exact_mod_cast Int.zpow_log_le_self (R := ℚ) (b := 2) (by norm_num) hpos
    have hgu : (2 : ℚ) ^ Int.log 2 a = ((2 ^ 52 : ℤ) : ℚ) * (2 : ℚ) ^ ulpExp a := by
      rw [hlog, zpow_sub₀ (by norm_num : (2 : ℚ) ≠ 0)]
      have : (2 : ℚ) ^ (52 : ℤ) = ((2 ^ 52 : ℤ) : ℚ) := by norm_num
      rw [this]
      field_simp
    have hylt : y < (2 : ℚ) ^ Int.log 2 a := by
      have h1 : y ≤ |(M : ℚ)| * (2 : ℚ) ^ U := by
        rw [hyM]
        exact mul_le_mul_of_nonneg_right (le_abs_self _) (two_zpow_pos U).le
      have h2 : |(M : ℚ)| < (2 : ℚ) ^ (53 : ℤ) := by
        have : ((|M| : ℤ) : ℚ) < ((2 ^ 53 : ℤ) : ℚ) := by exact_mod_cast hM
        push_cast at this
        have e : (2 : ℚ) ^ (53 : ℤ) = 2 ^ 53 := by norm_num
        rw [e]; exact this
      have h3 : |(M : ℚ)| * (2 : ℚ) ^ U < (2 : ℚ) ^ (53 : ℤ) * (2 : ℚ) ^ U :=
        mul_lt_mul_of_pos_right h2 (two_zpow_pos U)
      have h4 : (2 : ℚ) ^ (53 : ℤ) * (2 : ℚ) ^ U ≤ (2 : ℚ) ^ Int.log 2 a := by
        rw [← zpow_add₀ (by norm_num : (2 : ℚ) ≠ 0)]
        apply zpow_le_zpow_right₀ (by norm_num)
        omega
      linarith
    have h5 := hgrid (2 ^ 52)
    rw [← hgu] at h5
    rw [abs_of_nonpos (by linarith : (2 : ℚ) ^ Int.log 2 a - a ≤ 0)] at h5
    rw [abs_of_nonpos (by linarith : y - a ≤ 0)]
    linarith

/-- The rounding of `q` is a value of the format nearest to `q`. -/
theorem roundVal_nearest (q : ℚ) (y : ℚ) (hy : Representable y) :
    |roundVal q - q| ≤ |y - q| := by
  rcases le_or_lt 0 q with h | h
  · exact roundVal_nearest_nonneg q h y hy
  · have := roundVal_nearest_nonneg (-q) (by linarith) (-y) hy.neg
    rw [roundVal_neg] at this
    have e1 : -roundVal q - -q = -(roundVal q - q) := by ring
    have e2 : -y - -q = -(y - q) := by ring
    rwa [e1, e2, abs_neg, abs_neg] at this


/-! ## Monotonicity against values of the format, and sums without underflow -/

theorem roundVal_le_rep (q g : ℚ) (hg : Representable g) (h : q ≤ g) : roundVal q ≤ g := by
  by_contra hc
  have hlt : g < roundVal q := not_le.mp hc
  have h1 := roundVal_nearest q g hg
  rw [abs_of_pos (by linarith : 0 < roundVal q - q), abs_of_nonneg (by linarith : 0 ≤ g - q)] at h1
  linarith

theorem roundVal_ge_rep (q g : ℚ) (hg : Representable g) (h : g ≤ q) : g ≤ roundVal q := by
  by_contra hc
  have hlt : roundVal q < g := not_le.mp hc
  have h1 := roundVal_nearest q g hg
  rw [abs_of_neg (by linarith : roundVal q - q < 0), abs_of_nonpos (by linarith : g - q ≤ 0)] at h1
  linarith

theorem representable_two_zpow (k : ℤ) (hk : -1074 ≤ k) : Representable ((2 : ℚ) ^ k) :=
  ⟨1, k, by norm_num, hk, by simp⟩

theorem representable_zero : Representable 0 :=
  ⟨0, 0, by norm_num, by norm_num, by simp⟩

/-- A value of the format is an integer multiple of `2^-1074`. -/
theorem Representable.grid {y : ℚ} (h : Representable y) :
    ∃ K : ℤ, y = (K : ℚ) * (2 : ℚ) ^ (-1074 : ℤ) := by
  obtain ⟨M, U, _, hU, hy⟩ := h
  refine ⟨M * 2 ^ (U + 1074).toNat, ?_⟩
  rw [hy]
  push_cast
  rw [mul_assoc, ← zpow_natCast, Int.toNat_of_nonneg (by omega),
    ← zpow_add₀ (by norm_num : (2 : ℚ) ≠ 0)]
  congr 2
  ring

/-- Sums and differences of values of the format do not underflow: the rounding
of the sum has relative error at most `eps`. -/
theorem roundVal_rel_add (a b : ℚ) (ha : Representable a) (hb : Representable b) :
    |roundVal (a + b) - (a + b)| ≤ eps * |a + b| := by
  by_cases hbig : (2 : ℚ) ^ (-1022 : ℤ) ≤ |a + b|
  · exact roundVal_rel _ (Or.inr hbig)
  · obtain ⟨K1, h1⟩ := ha.grid
    obtain ⟨K2, h2⟩ := hb.grid
    have hsum : a + b = ((K1 + K2 : ℤ) : ℚ) * (2 : ℚ) ^ (-1074 : ℤ) := by
      rw [h1, h2]; push_cast; ring
    have hp := two_zpow_pos (-1074)
    have hK : |K1 + K2| < 2 ^ 53 := by
      have h3 : |a + b| < (2 : ℚ) ^ (-1022 : ℤ) := not_le.mp hbig
      rw [hsum, abs_mul, abs_of_pos hp] at h3
      have h4 : (2 : ℚ) ^ (-1022 : ℤ) = (2 : ℚ) ^ (52 : ℤ) * (2 : ℚ) ^ (-1074 : ℤ) := by
        rw [← zpow_add₀ (by norm_num : (2 : ℚ) ≠ 0)]; norm_num
      rw [h4] at h3
      have h5 : |((K1 + K2 : ℤ) : ℚ)| < (2 : ℚ) ^ (52 : ℤ) := lt_of_mul_lt_mul_right h3 hp.le
      have h6 : ((|K1 + K2| : ℤ) : ℚ) < ((2 ^ 52 : ℤ) : ℚ) := by
        rw [Int.cast_abs]
        have e : (((2 : ℤ) ^ 52 : ℤ) : ℚ) = (2 : ℚ) ^ (52 : ℤ) := by norm_num
        rw [e]
        exact h5
      have h7 : |K1 + K2| < 2 ^ 52 := by exact_mod_cast h6
      omega
    have hrep : Representable (a + b) := ⟨K1 + K2, -1074, hK, le_refl _, hsum⟩
    rw [roundVal_exact _ hrep]
    simp
    exact mul_nonneg (by unfold eps; positivity) (abs_nonneg _)

/-! ## Accumulated relative error -/

theorem eps_pos : 0 < eps := by unfold eps; positivity

theorem eps_lt_one : eps < 1 := by unfold eps; norm_num

theorem Near.refl (a : ℚ) : Near 0 a a := by
  unfold Near; simp

theorem Near.nonneg {k : ℕ} {a x : ℚ} (h : Near k a x) (ha : 0 ≤ a) : 0 ≤ x := by
  have h1 : (0 : ℚ) ≤ (1 - eps) ^ k := pow_nonneg (by linarith [eps_lt_one]) k
  exact le_trans (mul_nonneg ha h1) h.1

theorem Near.mono {k l : ℕ} {a x : ℚ} (h : Near k a x) (ha : 0 ≤ a) (hkl : k ≤ l) :
    Near l a x := by
  have h0 : (0 : ℚ) ≤ 1 - eps := by linarith [eps_lt_one]
  have h1 : (1 - eps) ^ l ≤ (1 - eps) ^ k :=
    pow_le_pow_of_le_one h0 (by linarith [eps_pos]) hkl
  have h2 : (1 + eps) ^ k ≤ (1 + eps) ^ l :=
    pow_le_pow_right₀ (by linarith [eps_pos]) hkl
  exact ⟨le_trans (mul_le_mul_of_nonneg_left h1 ha) h.1,
    le_trans h.2 (mul_le_mul_of_nonneg_left h2 ha)⟩

theorem Near.add {k : ℕ} {a b x y : ℚ} (h1 : Near k a x) (h2 : Near k b y) :
    Near k (a + b) (x + y) := by
  unfold Near at *
  constructor
  · rw [add_mul]; linarith [h1.1, h2.1]
  · rw [add_mul]; linarith [h1.2, h2.2]

theorem Near.mul {j k : ℕ} {a b x y : ℚ} (h1 : Near j a x) (h2 : Near k b y)
    (ha : 0 ≤ a) (hb : 0 ≤ b) : Near (j + k) (a * b) (x * y) := by
  have h0 : (0 : ℚ) ≤ 1 - eps := by linarith [eps_lt_one]
  have hx := h1.nonneg ha
  have hy := h2.nonneg hb
  constructor
  · calc a * b * (1 - eps) ^ (j + k) = (a * (1 - eps) ^ j) * (b * (1 - eps) ^ k) := by
          rw [pow_add]; ring
      _ ≤ x * y := mul_le_mul h1.1 h2.1 (mul_nonneg hb (pow_nonneg h0 k)) hx
  · calc x * y ≤ (a * (1 + eps) ^ j) * (b * (1 + eps) ^ k) :=
          mul_le_mul h1.2 h2.2 hy (le_trans hx h1.2)
      _ = a * b * (1 + eps) ^ (j + k) := by rw [pow_add]; ring

theorem Near.mul_const {k : ℕ} {a x : ℚ} (h : Near k a x) (c : ℚ) (hc : 0 ≤ c) :
    Near k (a * c) (x * c) := by
  unfold Near at *
  constructor
  · calc a * c * (1 - eps) ^ k = a * (1 - eps) ^ k * c := by ring
      _ ≤ x * c := mul_le_mul_of_nonneg_right h.1 hc
  · calc x * c ≤ a * (1 + eps) ^ k * c := mul_le_mul_of_nonneg_right h.2 hc
      _ = a * c * (1 + eps) ^ k := by ring

theorem Near.div_const {k : ℕ} {a x : ℚ} (h : Near k a x) (c : ℚ) (hc : 0 < c) :
    Near k (a / c) (x / c) := by
  unfold Near at *
  constructor
  · rw [div_mul_eq_mul_div]; exact div_le_div_of_nonneg_right h.1 hc.le
  · rw [div_mul_eq_mul_div]; exact div_le_div_of_nonneg_right h.2 hc.le

theorem Near.trans {j k : ℕ} {a x y : ℚ} (h1 : Near j a x) (h2 : Near k x y) (ha : 0 ≤ a) :
    Near (j + k) a y := by
  have h0 : (0 : ℚ) ≤ 1 - eps := by linarith [eps_lt_one]
  have hx := h1.nonneg ha
  constructor
  · calc a * (1 - eps) ^ (j + k) = (a * (1 - eps) ^ j) * (1 - eps) ^ k := by
          rw [pow_add]; ring
      _ ≤ x * (1 - eps) ^ k := mul_le_mul_of_nonneg_right h1.1 (pow_nonneg h0 k)
      _ ≤ y := h2.1
  · calc y ≤ x * (1 + eps) ^ k := h2.2
      _ ≤ (a * (1 + eps) ^ j) * (1 + eps) ^ k :=
          mul_le_mul_of_nonneg_right h1.2 (pow_nonneg (by linarith [eps_pos]) k)
      _ = a * (1 + eps) ^ (j + k) := by rw [pow_add]; ring

/-- One rounding with relative error at most `eps`. -/
theorem Near.of_rel {q r : ℚ} (hq : 0 ≤ q) (h : |r - q| ≤ eps * |q|) : Near 1 q r := by
  rw [abs_of_nonneg hq] at h
  have := abs_le.mp h
  unfold Near
  constructor <;> nlinarith [this.1, this.2]

/-- The square of a signed rounding with relative error at most `eps`. -/
theorem Near.sq_of_rel {d t : ℚ} (h : |t - d| ≤ eps * |d|) : Near 2 (d ^ 2) (t ^ 2) := by
  have h0 : (0 : ℚ) ≤ 1 - eps := by linarith [eps_lt_one]
  have hd := abs_nonneg d
  have h1 : |t| ≤ |d| * (1 + eps) := by
    have := abs_sub_abs_le_abs_sub t d
    linarith
  have h2 : |d| * (1 - eps) ≤ |t| := by
    have := abs_sub_abs_le_abs_sub d t
    rw [abs_sub_comm d t] at this
    linarith
  have h3 : |d| ^ 2 = d ^ 2 := sq_abs d
  have h4 : |t| ^ 2 = t ^ 2 := sq_abs t
  unfold Near
  rw [← h3, ← h4]
  constructor
  · calc |d| ^ 2 * (1 - eps) ^ 2 = (|d| * (1 - eps)) ^ 2 := by ring
      _ ≤ |t| ^ 2 := pow_le_pow_left₀ (mul_nonneg hd h0) h2 2
  · calc |t| ^ 2 ≤ (|d| * (1 + eps)) ^ 2 := pow_le_pow_left₀ (abs_nonneg t) h1 2
      _ = |d| ^ 2 * (1 + eps) ^ 2 := by ring

theorem one_add_pow_mul_le (x : ℚ) (hx : 0 ≤ x) (k : ℕ) : (1 + x) ^ k * (1 - k * x) ≤ 1 := by
  induction k with
  | zero => simp
  | succ k ih =>
    have hp : (0 : ℚ) ≤ (1 + x) ^ k := pow_nonneg (by linarith) k
    have hstep : (1 + x) * (1 - ((k + 1 : ℕ) : ℚ) * x) ≤ 1 - (k : ℚ) * x := by
      push_cast
      nlinarith [mul_nonneg hx hx, mul_nonneg (Nat.cast_nonneg k : (0 : ℚ) ≤ k) (mul_nonneg hx hx)]
    calc (1 + x) ^ (k + 1) * (1 - ((k + 1 : ℕ) : ℚ) * x)
        = (1 + x) ^ k * ((1 + x) * (1 - ((k + 1 : ℕ) : ℚ) * x)) := by rw [pow_succ]; ring
      _ ≤ (1 + x) ^ k * (1 - (k : ℚ) * x) := mul_le_mul_of_nonneg_left hstep hp
      _ ≤ 1 := ih

theorem one_add_eps_pow_le_two (k : ℕ) (hk : k ≤ 2 ^ 52) : (1 + eps) ^ k ≤ 2 := by
  have h := one_add_pow_mul_le eps eps_pos.le k
  have hp : (0 : ℚ) ≤ (1 + eps) ^ k := pow_nonneg (by linarith [eps_pos]) k
  have hkQ : (k : ℚ) ≤ 4503599627370496 := by exact_mod_cast hk
  have e : (1 : ℚ) / 2 ≤ 1 - (k : ℚ) * eps := by
    unfold eps
    have : (k : ℚ) * (1 / 2 ^ 53) ≤ 4503599627370496 * (1 / 2 ^ 53) :=
      mul_le_mul_of_nonneg_right hkQ (by positivity)
    norm_num at this ⊢
    linarith
  generalize (1 + eps) ^ k = P at h hp
  nlinarith

/-- The accumulated factor stays below 8 for up to `3 * 2^52` roundings. -/
theorem one_add_eps_pow_le (k : ℕ) (hk : k ≤ 3 * 2 ^ 52) : (1 + eps) ^ k ≤ 8 := by
  have hsplit : ∃ a b c : ℕ, k = a + b + c ∧ a ≤ 2 ^ 52 ∧ b ≤ 2 ^ 52 ∧ c ≤ 2 ^ 52 := by
    refine ⟨min k (2 ^ 52), min (k - 2 ^ 52) (2 ^ 52), k - 2 ^ 52 - 2 ^ 52, ?_, ?_, ?_, ?_⟩ <;>
      omega
  obtain ⟨a, b, c, rfl, ha, hb, hc⟩ := hsplit
  have h1 := one_add_eps_pow_le_two a ha
  have h2 := one_add_eps_pow_le_two b hb
  have h3 := one_add_eps_pow_le_two c hc
  have p1 : (0 : ℚ) ≤ (1 + eps) ^ a := pow_nonneg (by linarith [eps_pos]) a
  have p2 : (0 : ℚ) ≤ (1 + eps) ^ b := pow_nonneg (by linarith [eps_pos]) b
  have p3 : (0 : ℚ) ≤ (1 + eps) ^ c := pow_nonneg (by linarith [eps_pos]) c
  rw [pow_add, pow_add]
  calc (1 + eps) ^ a * (1 + eps) ^ b * (1 + eps) ^ c ≤ 2 * 2 * 2 :=
        mul_le_mul (mul_le_mul h1 h2 p2 (by norm_num)) h3 p3 (by norm_num)
    _ = 8 := by norm_num


/-! ## The square root -/

theorem isqrtAux_spec (n : ℕ) : ∀ (i acc : ℕ), acc * acc ≤ n →
    n < (acc + 2 ^ i) * (acc + 2 ^ i) →
    F64.isqrtAux n i acc * F64.isqrtAux n i acc ≤ n ∧
      n < (F64.isqrtAux n i acc + 1) * (F64.isqrtAux n i acc + 1) := by
  intro i
  induction i with
  | zero =>
    intro acc h1 h2
    simpa [F64.isqrtAux] using ⟨h1, h2⟩
  | succ i ih =>
    intro acc h1 h2
    unfold F64.isqrtAux
    simp only
    split
    · rename_i hc
      apply ih _ hc
      have : acc + 2 ^ i + 2 ^ i = acc + 2 ^ (i + 1) := by rw [pow_succ]; ring
      rw [this]; exact h2
    · rename_i hc
      exact ih _ h1 (Nat.lt_of_not_le hc)

/-- The integer part `r` of the root of `N`, extended with the sticky bit, is
within one rounding of the root: `(r + sticky / 2)^2` against `N`. -/
theorem sticky_near (N r : ℕ) (h1 : r * r ≤ N) (h2 : N < (r + 1) * (r + 1))
    (hr : 2 ^ 58 ≤ r) :
    Near 1 (N : ℚ) ((((2 * r + (if r * r = N then 0 else 1) : ℕ) : ℚ)) ^ 2 / 4) := by
  have hrQ : (288230376151711744 : ℚ) ≤ (r : ℚ) := by exact_mod_cast hr
  have h1Q : (r : ℚ) * r ≤ N := by exact_mod_cast h1
  have h2Q : (N : ℚ) < ((r : ℚ) + 1) * ((r : ℚ) + 1) := by exact_mod_cast h2
  unfold Near eps
  split
  · rename_i heq
    have : (N : ℚ) = (r : ℚ) * r := by exact_mod_cast heq.symm
    push_cast
    rw [this]
    constructor <;> nlinarith [mul_nonneg (le_trans (by norm_num) hrQ) (le_trans (by norm_num) hrQ)]
  · rename_i hne
    have hlt : r * r + 1 ≤ N := by
      have := lt_of_le_of_ne h1 hne
      omega
    have hltQ : (r : ℚ) * r + 1 ≤ N := by exact_mod_cast hlt
    have hupQ : (N : ℚ) ≤ (r : ℚ) * r + 2 * r := by
      have : N ≤ r * r + 2 * r := by nlinarith
      exact_mod_cast this
    have hbig : 32 * (r : ℚ) ≤ (r : ℚ) * r / 2 ^ 53 := by
      rw [le_div_iff₀ (by positivity)]
      nlinarith
    have hN : (r : ℚ) * r / 2 ^ 53 ≤ (N : ℚ) / 2 ^ 53 :=
      div_le_div_of_nonneg_right h1Q (by positivity)
    push_cast
    constructor
    · have : (N : ℚ) * (1 - 1 / 2 ^ 53) ^ 1 = N - N / 2 ^ 53 := by ring
      rw [this]
      nlinarith
    · have : (N : ℚ) * (1 + 1 / 2 ^ 53) ^ 1 = N + N / 2 ^ 53 := by ring
      rw [this]
      nlinarith


namespace F64

theorem sqrt_isVal {x : F64} {v : ℚ} (hx : IsVal x v) (hv : 0 < v)
    (hlt : v < (2 : ℚ) ^ (1023 : ℤ)) :
    ∃ w, IsVal (sqrt x) w ∧ 0 ≤ w ∧ Near 3 v (w ^ 2) := by
  obtain ⟨m, e, rfl, hm, he, hval⟩ := hx
  have hmpos : 0 < m := by
    by_contra hc
    have : (m : ℚ) ≤ 0 := by exact_mod_cast (not_lt.mp hc)
    have := mul_nonpos_of_nonpos_of_nonneg this (two_zpow_pos e).le
    linarith
  have hm1 : (1 : ℚ) ≤ (m : ℚ) := by exact_mod_cast hmpos
  have he_hi : e < 1023 := by
    by_contra hc
    have h1 : (2 : ℚ) ^ (1023 : ℤ) ≤ (2 : ℚ) ^ e :=
      zpow_le_zpow_right₀ (by norm_num) (not_lt.mp hc)
    have h2 : (2 : ℚ) ^ e ≤ (m : ℚ) * (2 : ℚ) ^ e :=
      le_mul_of_one_le_left (two_zpow_pos e).le hm1
    linarith
  unfold sqrt
  simp only [if_neg (not_lt.mpr hmpos.le), if_neg hmpos.ne']
  have hpar : e % 2 = 0 ∨ e % 2 = 1 := Int.emod_two_eq_zero_or_one e
  obtain ⟨s, hs, hs1, hs2, hs3⟩ : ∃ s : ℕ, 116 + (e % 2).toNat = s ∧ 116 ≤ s ∧ s ≤ 117 ∧
      (e - (s : ℤ)) % 2 = 0 := by
    refine ⟨116 + (e % 2).toNat, rfl, by omega, by omega, ?_⟩
    push_cast
    omega
  rw [hs]
  obtain ⟨M, hM, hMm⟩ : ∃ M : ℕ, m.toNat = M ∧ (M : ℤ) = m :=
    ⟨m.toNat, rfl, Int.toNat_of_nonneg hmpos.le⟩
  rw [hM]
  have hM1 : 1 ≤ M := by omega
  have hM53 : M < 2 ^ 53 := by
    have := abs_lt.mp hm
    omega
  have hN_lo : 2 ^ 116 ≤ M * 2 ^ s :=
    calc 2 ^ 116 ≤ 2 ^ s := Nat.pow_le_pow_right (by norm_num) hs1
      _ = 1 * 2 ^ s := (one_mul _).symm
      _ ≤ M * 2 ^ s := Nat.mul_le_mul_right _ hM1
  have hN_hi : M * 2 ^ s < 2 ^ 170 :=
    calc M * 2 ^ s < 2 ^ 53 * 2 ^ s := Nat.mul_lt_mul_of_pos_right hM53 (by positivity)
      _ ≤ 2 ^ 53 * 2 ^ 117 := Nat.mul_le_mul_left _ (Nat.pow_le_pow_right (by norm_num) hs2)
      _ = 2 ^ 170 := by norm_num
  have hNv : ((M * 2 ^ s : ℕ) : ℚ) * (2 : ℚ) ^ (e - (s : ℤ)) = v := by
    rw [← hval, ← hMm]
    push_cast
    rw [mul_assoc, ← zpow_natCast, ← zpow_add₀ (by norm_num : (2 : ℚ) ≠ 0)]
    congr 2
    ring
  generalize M * 2 ^ s = N at hN_lo hN_hi hNv ⊢
  have hisq := isqrtAux_spec N 128 0 (by simp) (by
    have : N < 2 ^ 128 * 2 ^ 128 := lt_of_lt_of_le hN_hi (by norm_num)
    simpa using this)
  generalize isqrtAux N 128 0 = r at hisq ⊢
  have hr_lo : 2 ^ 58 ≤ r := by
    by_contra hc
    have h1 : r + 1 ≤ 2 ^ 58 := by omega
    have h2 : (r + 1) * (r + 1) ≤ 2 ^ 58 * 2 ^ 58 := Nat.mul_le_mul h1 h1
    have h3 : (2 : ℕ) ^ 58 * 2 ^ 58 = 2 ^ 116 := by norm_num
    omega
  have hr_hi : r < 2 ^ 85 := by
    by_contra hc
    have h1 : 2 ^ 85 ≤ r := by omega
    have h2 : 2 ^ 85 * 2 ^ 85 ≤ r * r := Nat.mul_le_mul h1 h1
    have h3 : (2 : ℕ) ^ 85 * 2 ^ 85 = 2 ^ 170 := by norm_num
    omega
  have hst := sticky_near N r hisq.1 hisq.2 hr_lo
  have hnum_lo : 2 ^ 59 ≤ 2 * r + (if r * r = N then 0 else 1) := by
    split <;> omega
  have hnum_hi : 2 * r + (if r * r = N then 0 else 1) < 2 ^ 87 := by
    split <;> omega
  generalize 2 * r + (if r * r = N then 0 else 1) = num at hst hnum_lo hnum_hi ⊢
  obtain ⟨h, hh⟩ : ∃ h : ℤ, e - (s : ℤ) = 2 * h := ⟨(e - (s : ℤ)) / 2, by omega⟩
  have hexp : (e - (s : ℤ)) / 2 - 1 = h - 1 := by omega
  rw [hexp, roundDyadic_eq]
  have hh_lo : -596 ≤ h := by omega
  have hh_hi : h ≤ 453 := by omega
  have hnumQ_lo : (2 : ℚ) ^ (59 : ℤ) ≤ ((num : ℤ) : ℚ) := by
    have : ((2 ^ 59 : ℕ) : ℚ) ≤ (num : ℚ) := by exact_mod_cast hnum_lo
    norm_num at this ⊢
    exact this
  have hnumQ_hi : ((num : ℤ) : ℚ) < (2 : ℚ) ^ (87 : ℤ) := by
    have : (num : ℚ) < ((2 ^ 87 : ℕ) : ℚ) := by exact_mod_cast hnum_hi
    norm_num at this ⊢
    exact this
  have hp := two_zpow_pos (h - 1)
  have hy_lo : (2 : ℚ) ^ (-1022 : ℤ) ≤ ((num : ℤ) : ℚ) * (2 : ℚ) ^ (h - 1) :=
    calc (2 : ℚ) ^ (-1022 : ℤ) ≤ (2 : ℚ) ^ (59 + (h - 1)) :=
          zpow_le_zpow_right₀ (by norm_num) (by omega)
      _ = (2 : ℚ) ^ (59 : ℤ) * (2 : ℚ) ^ (h - 1) := zpow_add₀ (by norm_num) _ _
      _ ≤ ((num : ℤ) : ℚ) * (2 : ℚ) ^ (h - 1) := mul_le_mul_of_nonneg_right hnumQ_lo hp.le
  have hy_hi : ((num : ℤ) : ℚ) * (2 : ℚ) ^ (h - 1) < (2 : ℚ) ^ (1023 : ℤ) :=
    calc ((num : ℤ) : ℚ) * (2 : ℚ) ^ (h - 1) < (2 : ℚ) ^ (87 : ℤ) * (2 : ℚ) ^ (h - 1) :=
          mul_lt_mul_of_pos_right hnumQ_hi hp
      _ = (2 : ℚ) ^ (87 + (h - 1)) := (zpow_add₀ (by norm_num) _ _).symm
      _ ≤ (2 : ℚ) ^ (1023 : ℤ) := zpow_le_zpow_right₀ (by norm_num) (by omega)
  have hy0 : 0 ≤ ((num : ℤ) : ℚ) * (2 : ℚ) ^ (h - 1) :=
    le_trans (two_zpow_pos _).le hy_lo
  have hA : Near 1 v ((((num : ℤ) : ℚ) * (2 : ℚ) ^ (h - 1)) ^ 2) := by
    have h1 := hst.mul_const ((2 : ℚ) ^ (e - (s : ℤ))) (two_zpow_pos _).le
    rw [hNv] at h1
    have e2 : (((num : ℤ) : ℚ) * (2 : ℚ) ^ (h - 1)) ^ 2 =
        ((num : ℚ)) ^ 2 / 4 * (2 : ℚ) ^ (e - (s : ℤ)) := by
      rw [hh, mul_pow, ← zpow_natCast ((2 : ℚ) ^ (h - 1)) 2, ← zpow_mul,
        show (h - 1) * ((2 : ℕ) : ℤ) = 2 * h + (-2) by push_cast; ring,
        zpow_add₀ (by norm_num : (2 : ℚ) ≠ 0)]
      norm_num
      ring
    rw [e2]
    exact h1
  have hB : Near 2 ((((num : ℤ) : ℚ) * (2 : ℚ) ^ (h - 1)) ^ 2)
      ((roundVal (((num : ℤ) : ℚ) * (2 : ℚ) ^ (h - 1))) ^ 2) :=
    Near.sq_of_rel (roundVal_rel _ (Or.inr (by rwa [abs_of_nonneg hy0])))
  refine ⟨roundVal (((num : ℤ) : ℚ) * (2 : ℚ) ^ (h - 1)),
    roundQ_isVal _ (by rwa [abs_of_nonneg hy0]), roundVal_nonneg _ hy0, ?_⟩
  exact hA.trans hB hv.le

theorem sqrt_of_zero {x : F64} (hx : IsVal x 0) : sqrt x = zero := by
  obtain ⟨m, e, rfl, _, _, hval⟩ := hx
  have hm : m = 0 := by
    rcases mul_eq_zero.mp hval with h | h
    · exact_mod_cast h
    · exact absurd h (two_zpow_pos e).ne'
  simp [sqrt, hm]

end F64


/-! ## The loop of `devest` -/

theorem two53_rep : Representable ((2 : ℚ) ^ (53 : ℤ)) := representable_two_zpow 53 (by norm_num)

/-- One squared deviation `tmp * tmp` of the loop of `devest`, for a sample
`x ≤ 2^53` and a mean `μ` in `[0, 2^53]` on the grid `2^-106`. -/
theorem sq_step (mean : F64) (μ : ℚ) (j : ℤ) (x : ℕ) (hmean : IsVal mean μ) (hμ0 : 0 ≤ μ)
    (hμ1 : μ ≤ (2 : ℚ) ^ (53 : ℤ)) (hgrid : μ = (j : ℚ) * (2 : ℚ) ^ (-106 : ℤ))
    (hx : x ≤ 2 ^ 53) :
    ∃ sv, IsVal (F64.mul (F64.sub (F64.ofNat x) mean) (F64.sub (F64.ofNat x) mean)) sv ∧
      Near 3 (((x : ℚ) - μ) ^ 2) sv ∧ (sv = 0 ∨ (2 : ℚ) ^ (-213 : ℤ) ≤ sv) ∧
      sv ≤ (2 : ℚ) ^ (106 : ℤ) ∧ ((x : ℚ) - μ) ^ 2 ≤ (2 : ℚ) ^ (106 : ℤ) := by
  have h53 : (2 : ℚ) ^ (53 : ℤ) = 9007199254740992 := by norm_num
  have h106 : (2 : ℚ) ^ (106 : ℤ) = 9007199254740992 * 9007199254740992 := by norm_num
  have hbig : (2 : ℚ) ^ (106 : ℤ) < (2 : ℚ) ^ (1023 : ℤ) :=
    zpow_lt_zpow_right₀ (by norm_num) (by norm_num)
  have hxrep := representable_nat x hx
  have hxv := nat_isVal x hxrep (lt_of_le_of_lt hx (by norm_num))
  have hx0 : (0 : ℚ) ≤ (x : ℚ) := Nat.cast_nonneg x
  have hx1 : (x : ℚ) ≤ (2 : ℚ) ^ (53 : ℤ) := by
    rw [h53]; exact_mod_cast hx
  set d : ℚ := (x : ℚ) - μ with hd
  have hdabs : |d| ≤ (2 : ℚ) ^ (53 : ℤ) := by
    rw [abs_le]; constructor <;> linarith
  have hdsq : d ^ 2 ≤ (2 : ℚ) ^ (106 : ℤ) := by
    have := abs_le.mp hdabs
    rw [h53] at this
    rw [h106]
    nlinarith [this.1, this.2]
  -- tmp
  have htv : IsVal (F64.sub (F64.ofNat x) mean) (roundVal d) :=
    F64.sub_isVal hxv hmean (lt_of_le_of_lt hdabs
      (zpow_lt_zpow_right₀ (by norm_num) (by norm_num)))
  have htrel : |roundVal d - d| ≤ eps * |d| := by
    have := roundVal_rel_add (x : ℚ) (-μ) hxrep hmean.representable.neg
    rwa [← sub_eq_add_neg] at this
  have ht_hi : roundVal d ≤ (2 : ℚ) ^ (53 : ℤ) :=
    roundVal_le_rep d _ two53_rep (le_trans (le_abs_self d) hdabs)
  have ht_lo : -(2 : ℚ) ^ (53 : ℤ) ≤ roundVal d :=
    roundVal_ge_rep d _ two53_rep.neg (by have := (abs_le.mp hdabs).1; linarith)
  set t : ℚ := roundVal d with ht
  have htsq : t * t ≤ (2 : ℚ) ^ (106 : ℤ) := by
    rw [h53] at ht_hi ht_lo
    rw [h106]
    nlinarith
  have htsq0 : 0 ≤ t * t := mul_self_nonneg t
  have hsv : IsVal (F64.mul (F64.sub (F64.ofNat x) mean) (F64.sub (F64.ofNat x) mean))
      (roundVal (t * t)) :=
    F64.mul_isVal htv htv (by rw [abs_of_nonneg htsq0]; linarith)
  have hsv_hi : roundVal (t * t) ≤ (2 : ℚ) ^ (106 : ℤ) :=
    roundVal_le_rep _ _ (representable_two_zpow 106 (by norm_num)) htsq
  have hN2 : Near 2 (d ^ 2) (t ^ 2) := Near.sq_of_rel htrel
  have htt : d ≠ 0 → (2 : ℚ) ^ (-212 : ℤ) ≤ t * t := by
    intro hd0
    have hK : ∃ K : ℤ, d = (K : ℚ) * (2 : ℚ) ^ (-106 : ℤ) := by
      refine ⟨(x : ℤ) * 2 ^ 106 - j, ?_⟩
      rw [hd, hgrid]
      push_cast
      have : (2 : ℚ) ^ (106 : ℕ) * (2 : ℚ) ^ (-106 : ℤ) = 1 := by norm_num
      linear_combination (-(x : ℚ)) * this
    obtain ⟨K, hKd⟩ := hK
    have hp := two_zpow_pos (-106)
    have hg106 : Representable ((2 : ℚ) ^ (-106 : ℤ)) :=
      representable_two_zpow _ (by norm_num)
    have htabs : (2 : ℚ) ^ (-106 : ℤ) ≤ |t| := by
      rcases lt_or_gt_of_ne hd0 with hneg | hpos
      · have hK1 : K ≤ -1 := by
          by_contra hc
          have : (0 : ℚ) ≤ (K : ℚ) := by exact_mod_cast (by omega : 0 ≤ K)
          have := mul_nonneg this hp.le
          linarith
        have hKQ : (K : ℚ) ≤ -1 := by exact_mod_cast hK1
        have hdle : d ≤ -(2 : ℚ) ^ (-106 : ℤ) := by
          rw [hKd]; nlinarith
        have := roundVal_le_rep d _ hg106.neg hdle
        rw [abs_of_nonpos (by linarith)]
        linarith
      · have hK1 : 1 ≤ K := by
          by_contra hc
          have : (K : ℚ) ≤ 0 := by exact_mod_cast (by omega : K ≤ 0)
          have := mul_nonpos_of_nonpos_of_nonneg this hp.le
          linarith
        have hKQ : (1 : ℚ) ≤ (K : ℚ) := by exact_mod_cast hK1
        have hdge : (2 : ℚ) ^ (-106 : ℤ) ≤ d := by
          rw [hKd]; nlinarith
        have := roundVal_ge_rep d _ hg106 hdge
        rw [abs_of_nonneg (by linarith)]
        exact this
    have htt : (2 : ℚ) ^ (-212 : ℤ) ≤ t * t := by
      have e : (2 : ℚ) ^ (-212 : ℤ) = (2 : ℚ) ^ (-106 : ℤ) * (2 : ℚ) ^ (-106 : ℤ) := by
        rw [← zpow_add₀ (by norm_num : (2 : ℚ) ≠ 0)]; norm_num
      rw [e, ← abs_mul_abs_self t]
      exact mul_le_mul htabs htabs hp.le (abs_nonneg t)
    exact htt
  refine ⟨roundVal (t * t), hsv, ?_, ?_, hsv_hi, hdsq⟩
  · -- accuracy
    by_cases hd0 : d = 0
    · have ht0 : t = 0 := by rw [ht, hd0, roundVal_zero]
      rw [hd0, ht0]
      simp [roundVal_zero, Near]
    · have hrel : |roundVal (t * t) - t * t| ≤ eps * |t * t| := by
        apply roundVal_rel
        right
        rw [abs_of_nonneg htsq0]
        exact le_trans (zpow_le_zpow_right₀ (by norm_num) (by norm_num)) (htt hd0)
      have hN1 : Near 1 (t ^ 2) (roundVal (t * t)) := by
        rw [sq]; exact Near.of_rel htsq0 hrel
      exact hN2.trans hN1 (sq_nonneg d)
  · -- zero or well above the subnormal range
    by_cases hd0 : d = 0
    · left
      have ht0 : t = 0 := by rw [ht, hd0, roundVal_zero]
      rw [ht0]; simp [roundVal_zero]
    · right
      have := roundVal_ge_rep (t * t) _ (representable_two_zpow (-212) (by norm_num)) (htt hd0)
      exact le_trans (zpow_le_zpow_right₀ (by norm_num) (by norm_num)) this


/-- The loop of `devest` from an accumulator `out` that holds `c` squared
deviations: the final accumulator is finite and within `c + length + 3`
roundings of the exact sum of squared deviations. -/
theorem devest_loop (mean : F64) (μ : ℚ) (j : ℤ) (hmean : IsVal mean μ) (hμ0 : 0 ≤ μ)
    (hμ1 : μ ≤ (2 : ℚ) ^ (53 : ℤ)) (hgrid : μ = (j : ℚ) * (2 : ℚ) ^ (-106 : ℤ))
    (ys : List ℕ) : ∀ (out : F64) (a A : ℚ) (c : ℕ),
    IsVal out a → Near (c + 3) A a → 0 ≤ A → A ≤ (c : ℚ) * (2 : ℚ) ^ (106 : ℤ) →
    (a = 0 ∨ (2 : ℚ) ^ (-213 : ℤ) ≤ a) → c + ys.length ≤ 2 ^ 53 →
    (∀ y ∈ ys, y ≤ 2 ^ 53) →
    ∃ b, IsVal (ys.foldl (fun out x =>
          F64.add out (F64.mul (F64.sub (F64.ofNat x) mean) (F64.sub (F64.ofNat x) mean))) out) b ∧
      Near (c + ys.length + 3) (A + (ys.map (fun y : ℕ => ((y : ℚ) - μ) ^ 2)).sum) b ∧
      (b = 0 ∨ (2 : ℚ) ^ (-213 : ℤ) ≤ b) ∧
      A + (ys.map (fun y : ℕ => ((y : ℚ) - μ) ^ 2)).sum ≤
        ((c + ys.length : ℕ) : ℚ) * (2 : ℚ) ^ (106 : ℤ) := by
  induction ys with
  | nil =>
    intro out a A c hout hnear _ hA1 hlow _ _
    exact ⟨a, by simpa using hout, by simpa using hnear, hlow, by simpa using hA1⟩
  | cons x ys ih =>
    intro out a A c hout hnear hA0 hA1 hlow hc hall
    have hx : x ≤ 2 ^ 53 := hall x (by simp)
    obtain ⟨sv, hsv, hsvN, hsvlow, hsvhi, hdsq⟩ := sq_step mean μ j x hmean hμ0 hμ1 hgrid hx
    have hd0 : 0 ≤ ((x : ℚ) - μ) ^ 2 := sq_nonneg _
    have ha0 : 0 ≤ a := hnear.nonneg hA0
    have hsv0 : 0 ≤ sv := hsvN.nonneg hd0
    have hlen : (x :: ys).length = ys.length + 1 := rfl
    rw [hlen] at hc
    -- the accumulator is far below the overflow threshold
    have h106 : (2 : ℚ) ^ (106 : ℤ) = 81129638414606681695789005144064 := by norm_num
    have hcQ : (c : ℚ) ≤ 9007199254740992 := by
      have : c ≤ 2 ^ 53 := by omega
      exact_mod_cast this
    have hpow : (1 + eps) ^ (c + 3) ≤ 8 := one_add_eps_pow_le _ (by omega)
    have ha_hi : a ≤ 9007199254740992 * 81129638414606681695789005144064 * 8 := by
      have h1 : a ≤ A * (1 + eps) ^ (c + 3) := hnear.2
      have h2 : A ≤ 9007199254740992 * 81129638414606681695789005144064 := by
        rw [h106] at hA1
        nlinarith
      have h3 : (0 : ℚ) ≤ (1 + eps) ^ (c + 3) := pow_nonneg (by linarith [eps_pos]) _
      nlinarith
    have hq_big : |a + sv| < (2 : ℚ) ^ (1023 : ℤ) := by
      rw [abs_of_nonneg (add_nonneg ha0 hsv0)]
      have h1 : a + sv < (2 : ℚ) ^ (200 : ℤ) := by
        have : (2 : ℚ) ^ (200 : ℤ) =
            1606938044258990275541962092341162602522202993782792835301376 := by norm_num
        rw [this]
        rw [h106] at hsvhi
        linarith
      exact lt_trans h1 (zpow_lt_zpow_right₀ (by norm_num) (by norm_num))
    have hb1 : IsVal (F64.add out (F64.mul (F64.sub (F64.ofNat x) mean)
        (F64.sub (F64.ofNat x) mean))) (roundVal (a + sv)) := F64.add_isVal hout hsv hq_big
    have hrel := roundVal_rel_add a sv hout.representable hsv.representable
    have hN1 : Near 1 (a + sv) (roundVal (a + sv)) :=
      Near.of_rel (add_nonneg ha0 hsv0) hrel
    have hNsum : Near (c + 3) (A + ((x : ℚ) - μ) ^ 2) (a + sv) :=
      hnear.add (hsvN.mono hd0 (by omega))
    have hNb : Near (c + 1 + 3) (A + ((x : ℚ) - μ) ^ 2) (roundVal (a + sv)) := by
      have := hNsum.trans hN1 (add_nonneg hA0 hd0)
      rwa [show c + 3 + 1 = c + 1 + 3 by ring] at this
    have hA1' : A + ((x : ℚ) - μ) ^ 2 ≤ ((c + 1 : ℕ) : ℚ) * (2 : ℚ) ^ (106 : ℤ) := by
      push_cast
      linarith
    have hlow' : roundVal (a + sv) = 0 ∨ (2 : ℚ) ^ (-213 : ℤ) ≤ roundVal (a + sv) := by
      rcases hlow with ha | ha
      · rcases hsvlow with hs | hs
        · left; rw [ha, hs]; simp [roundVal_zero]
        · right
          exact roundVal_ge_rep _ _ (representable_two_zpow (-213) (by norm_num))
            (by linarith)
      · right
        exact roundVal_ge_rep _ _ (representable_two_zpow (-213) (by norm_num))
          (by linarith)
    obtain ⟨b, hb, hbN, hblow, hbsum⟩ := ih _ (roundVal (a + sv)) (A + ((x : ℚ) - μ) ^ 2) (c + 1)
      hb1 hNb (add_nonneg hA0 hd0) hA1' hlow' (by omega)
      (fun y hy => hall y (by simp [hy]))
    refine ⟨b, by simpa using hb, ?_, hblow, ?_⟩
    swap
    · have e3 : A + (List.map (fun y : ℕ => ((y : ℚ) - μ) ^ 2) (x :: ys)).sum =
          A + ((x : ℚ) - μ) ^ 2 + (List.map (fun y : ℕ => ((y : ℚ) - μ) ^ 2) ys).sum := by
        simp [add_assoc]
      rw [e3, hlen, show c + (ys.length + 1) = c + 1 + ys.length by ring]
      exact hbsum
    have e1 : c + (ys.length + 1) + 3 = c + 1 + ys.length + 3 := by ring
    have e2 : A + (List.map (fun y : ℕ => ((y : ℚ) - μ) ^ 2) (x :: ys)).sum =
        A + ((x : ℚ) - μ) ^ 2 + (List.map (fun y : ℕ => ((y : ℚ) - μ) ^ 2) ys).sum := by
      simp [add_assoc]
    rw [hlen, e1, e2]
    exact hbN


theorem le_sum_of_mem (xs : List ℕ) (x : ℕ) (h : x ∈ xs) : x ≤ xs.sum := by
  induction xs with
  | nil => simp at h
  | cons y ys ih =>
    rcases List.mem_cons.mp h with h | h
    · subst h; simp
    · have := ih h
      simp only [List.sum_cons]
      omega

theorem sum_sq_nonneg (xs : List ℕ) (μ : ℚ) :
    0 ≤ (xs.map (fun y : ℕ => ((y : ℚ) - μ) ^ 2)).sum := by
  apply List.sum_nonneg
  intro z hz
  obtain ⟨y, _, rfl⟩ := List.mem_map.mp hz
  exact sq_nonneg _

/-- The member function `devest`: a finite non-negative double whose square
times the number of samples is within `length + 7` roundings of the exact sum
of squared deviations from `mean`. -/
theorem devest_spec (mean : F64) (μ : ℚ) (j : ℤ) (hmean : IsVal mean μ) (hμ0 : 0 ≤ μ)
    (hμ1 : μ ≤ (2 : ℚ) ^ (53 : ℤ)) (hgrid : μ = (j : ℚ) * (2 : ℚ) ^ (-106 : ℤ))
    (xs : List ℕ) (hne : xs ≠ []) (hn : xs.length ≤ 2 ^ 53) (hall : ∀ y ∈ xs, y ≤ 2 ^ 53) :
    ∃ w, IsVal (stats.devest xs mean) w ∧ 0 ≤ w ∧
      Near (xs.length + 7) ((xs.map (fun y : ℕ => ((y : ℚ) - μ) ^ 2)).sum)
        (w ^ 2 * (xs.length : ℚ)) := by
  have hdef : stats.devest xs mean = F64.sqrt (F64.div (xs.foldl (fun out x =>
      F64.add out (F64.mul (F64.sub (F64.ofNat x) mean) (F64.sub (F64.ofNat x) mean)))
      F64.zero) (F64.ofNat xs.length)) := rfl
  obtain ⟨b, hb, hbN, hblow, hS⟩ := devest_loop mean μ j hmean hμ0 hμ1 hgrid xs F64.zero 0 0 0
    F64.zero_isVal (by simp [Near]) (le_refl _) (by simp) (Or.inl rfl) (by simpa using hn) hall
  simp only [zero_add] at hbN hS
  set S : ℚ := (xs.map (fun y : ℕ => ((y : ℚ) - μ) ^ 2)).sum with hSdef
  have hS0 : 0 ≤ S := sum_sq_nonneg xs μ
  have hlen : 0 < xs.length := List.length_pos.mpr hne
  have hnQ : (0 : ℚ) < (xs.length : ℚ) := by exact_mod_cast hlen
  have hn1 : (1 : ℚ) ≤ (xs.length : ℚ) := by exact_mod_cast hlen
  have hnhi : (xs.length : ℚ) ≤ 9007199254740992 := by exact_mod_cast hn
  have h106 : (2 : ℚ) ^ (106 : ℤ) = 81129638414606681695789005144064 := by norm_num
  rw [h106] at hS
  have hb0 : 0 ≤ b := hbN.nonneg hS0
  have hSn : S / (xs.length : ℚ) ≤ 81129638414606681695789005144064 := by
    rw [div_le_iff₀ hnQ]; linarith
  have hSn0 : 0 ≤ S / (xs.length : ℚ) := div_nonneg hS0 hnQ.le
  -- the quotient by the number of samples
  have hNq : Near (xs.length + 3) (S / (xs.length : ℚ)) (b / (xs.length : ℚ)) :=
    hbN.div_const _ hnQ
  have hq0 : 0 ≤ b / (xs.length : ℚ) := div_nonneg hb0 hnQ.le
  have hpow3 : (1 + eps) ^ (xs.length + 3) ≤ 8 := one_add_eps_pow_le _ (by omega)
  have hpow4 : (1 + eps) ^ (xs.length + 4) ≤ 8 := one_add_eps_pow_le _ (by omega)
  have hq_hi : b / (xs.length : ℚ) ≤ 81129638414606681695789005144064 * 8 := by
    have h1 := hNq.2
    have h3 : (0 : ℚ) ≤ (1 + eps) ^ (xs.length + 3) := pow_nonneg (by linarith [eps_pos]) _
    nlinarith
  have h200 : (2 : ℚ) ^ (200 : ℤ) =
      1606938044258990275541962092341162602522202993782792835301376 := by norm_num
  have h200big : (2 : ℚ) ^ (200 : ℤ) < (2 : ℚ) ^ (1023 : ℤ) :=
    zpow_lt_zpow_right₀ (by norm_num) (by norm_num)
  have hnv := nat_isVal xs.length (representable_nat _ hn) (by omega)
  have hv : IsVal (F64.div (xs.foldl (fun out x =>
      F64.add out (F64.mul (F64.sub (F64.ofNat x) mean) (F64.sub (F64.ofNat x) mean)))
      F64.zero) (F64.ofNat xs.length)) (roundVal (b / (xs.length : ℚ))) :=
    F64.div_isVal hb hnv hnQ.ne' (by
      rw [abs_of_nonneg hq0]
      rw [h200] at h200big
      linarith)
  have hrel : |roundVal (b / (xs.length : ℚ)) - b / (xs.length : ℚ)| ≤
      eps * |b / (xs.length : ℚ)| := by
    apply roundVal_rel
    rcases hblow with hb' | hb'
    · left; rw [hb']; simp
    · right
      rw [abs_of_nonneg hq0, le_div_iff₀ hnQ]
      have e : (2 : ℚ) ^ (-1022 : ℤ) * 9007199254740992 ≤ (2 : ℚ) ^ (-213 : ℤ) := by
        have : (9007199254740992 : ℚ) = (2 : ℚ) ^ (53 : ℤ) := by norm_num
        rw [this, ← zpow_add₀ (by norm_num : (2 : ℚ) ≠ 0)]
        exact zpow_le_zpow_right₀ (by norm_num) (by norm_num)
      have hp := two_zpow_pos (-1022)
      nlinarith
  have hNv : Near (xs.length + 4) (S / (xs.length : ℚ)) (roundVal (b / (xs.length : ℚ))) := by
    have := hNq.trans (Near.of_rel hq0 hrel) hSn0
    rwa [show xs.length + 3 + 1 = xs.length + 4 by ring] at this
  have hv0 : 0 ≤ roundVal (b / (xs.length : ℚ)) := roundVal_nonneg _ hq0
  rw [hdef]
  by_cases hvz : roundVal (b / (xs.length : ℚ)) = 0
  · rw [hvz] at hv hNv
    refine ⟨0, ?_, le_refl _, ?_⟩
    · rw [F64.sqrt_of_zero hv]; exact F64.zero_isVal
    · have hpos : (0 : ℚ) < (1 - eps) ^ (xs.length + 4) :=
        pow_pos (by linarith [eps_lt_one]) _
      have h1 := hNv.1
      have hSz : S / (xs.length : ℚ) ≤ 0 := by
        by_contra hc
        have := mul_pos (not_le.mp hc) hpos
        linarith
      have hS' : S = 0 := by
        have : S ≤ 0 := by
          rw [div_le_iff₀ hnQ] at hSz
          linarith
        linarith
      rw [hS']
      simp [Near]
  · have hvpos : 0 < roundVal (b / (xs.length : ℚ)) := lt_of_le_of_ne hv0 (Ne.symm hvz)
    have hvhi : roundVal (b / (xs.length : ℚ)) < (2 : ℚ) ^ (1023 : ℤ) := by
      have h1 := hNv.2
      have h3 : (0 : ℚ) ≤ (1 + eps) ^ (xs.length + 4) := pow_nonneg (by linarith [eps_pos]) _
      rw [h200] at h200big
      nlinarith
    obtain ⟨w, hw, hw0, hwN⟩ := F64.sqrt_isVal hv hvpos hvhi
    refine ⟨w, hw, hw0, ?_⟩
    have h1 := (hNv.trans hwN hSn0).mul_const (xs.length : ℚ) hnQ.le
    rw [div_mul_cancel₀ _ hnQ.ne'] at h1
    rwa [show xs.length + 4 + 3 = xs.length + 7 by ring] at h1


theorem stats_total_exact (xs : List ℕ) (hsum : xs.sum ≤ 2 ^ 53) :
    (stats.stats xs).total = some xs.sum := by
  obtain ⟨m, e, h1, h2⟩ :=
    accumulate_exact xs F64.zero 0 (-1074) 0 rfl (by simp) (by simpa using hsum)
  show F64.toUInt64 (accumulate xs F64.zero) = some xs.sum
  rw [h1]
  apply F64.toUInt64_nat m e xs.sum (by simpa using h2)
  exact lt_of_le_of_lt hsum (by norm_num)

/-- The mean of a non-empty series with sum at most `2^53`: a finite value in
`[0, 2^53]` on the grid `2^-106`. -/
theorem mean_facts (xs : List ℕ) (hne : xs ≠ []) (hn : xs.length ≤ 2 ^ 53)
    (hsum : xs.sum ≤ 2 ^ 53) :
    ∃ (mean : F64) (μ : ℚ) (j : ℤ), (stats.stats xs).mean = some mean ∧ IsVal mean μ ∧
      0 ≤ μ ∧ μ ≤ (2 : ℚ) ^ (53 : ℤ) ∧ μ = (j : ℚ) * (2 : ℚ) ^ (-106 : ℤ) := by
  obtain ⟨mean, hmean, hv⟩ := mean_isVal xs xs.sum hne hn (stats_total_exact xs hsum)
  have hlen : 0 < xs.length := List.length_pos.mpr hne
  have hnQ : (0 : ℚ) < (xs.length : ℚ) := by exact_mod_cast hlen
  have hn1 : (1 : ℚ) ≤ (xs.length : ℚ) := by exact_mod_cast hlen
  have hnhi : (xs.length : ℚ) ≤ 9007199254740992 := by exact_mod_cast hn
  have hT0 : (0 : ℚ) ≤ (xs.sum : ℚ) := Nat.cast_nonneg _
  have hThi : (xs.sum : ℚ) ≤ 9007199254740992 := by exact_mod_cast hsum
  have h53 : (2 : ℚ) ^ (53 : ℤ) = 9007199254740992 := by norm_num
  have hq0 : (0 : ℚ) ≤ (xs.sum : ℚ) / (xs.length : ℚ) := div_nonneg hT0 hnQ.le
  have hqhi : (xs.sum : ℚ) / (xs.length : ℚ) ≤ (2 : ℚ) ^ (53 : ℤ) := by
    rw [h53, div_le_iff₀ hnQ]; nlinarith
  refine ⟨mean, roundVal ((xs.sum : ℚ) / (xs.length : ℚ)), ?_⟩
  have hμ0 := roundVal_nonneg _ hq0
  have hμ1 := roundVal_le_rep _ _ two53_rep hqhi
  suffices hj : ∃ j : ℤ, roundVal ((xs.sum : ℚ) / (xs.length : ℚ)) =
      (j : ℚ) * (2 : ℚ) ^ (-106 : ℤ) by
    obtain ⟨j, hj⟩ := hj
    exact ⟨j, hmean, hv, hμ0, hμ1, hj⟩
  rcases Nat.eq_zero_or_pos xs.sum with hz | hpos
  · refine ⟨0, ?_⟩
    rw [hz]; simp [roundVal_zero]
  · have hT1 : (1 : ℚ) ≤ (xs.sum : ℚ) := by exact_mod_cast hpos
    have hm53 : (2 : ℚ) ^ (-53 : ℤ) ≤ (xs.sum : ℚ) / (xs.length : ℚ) := by
      rw [le_div_iff₀ hnQ]
      have e : (2 : ℚ) ^ (-53 : ℤ) * 9007199254740992 = 1 := by norm_num
      have hp := two_zpow_pos (-53)
      nlinarith
    have hμlow := roundVal_ge_rep _ _ (representable_two_zpow (-53) (by norm_num)) hm53
    obtain ⟨M, U, hM, hU, hMU⟩ := hv.representable
    generalize roundVal ((xs.sum : ℚ) / (xs.length : ℚ)) = μ at hμlow hMU ⊢
    have hU105 : -105 ≤ U := by
      by_contra hc
      have hU' : U ≤ -106 := by omega
      have h1 : μ ≤ |(M : ℚ)| * (2 : ℚ) ^ U := by
        rw [hMU]
        exact mul_le_mul_of_nonneg_right (le_abs_self _) (two_zpow_pos U).le
      have h2 : |(M : ℚ)| < (2 : ℚ) ^ (53 : ℤ) := by
        have : ((|M| : ℤ) : ℚ) < ((2 ^ 53 : ℤ) : ℚ) := by exact_mod_cast hM
        rw [Int.cast_abs] at this
        have e : (((2 : ℤ) ^ 53 : ℤ) : ℚ) = (2 : ℚ) ^ (53 : ℤ) := by norm_num
        rwa [e] at this
      have h3 : |(M : ℚ)| * (2 : ℚ) ^ U < (2 : ℚ) ^ (53 : ℤ) * (2 : ℚ) ^ U :=
        mul_lt_mul_of_pos_right h2 (two_zpow_pos U)
      have h4 : (2 : ℚ) ^ (53 : ℤ) * (2 : ℚ) ^ U ≤ (2 : ℚ) ^ (-53 : ℤ) := by
        rw [← zpow_add₀ (by norm_num : (2 : ℚ) ≠ 0)]
        exact zpow_le_zpow_right₀ (by norm_num) (by omega)
      linarith
    refine ⟨M * 2 ^ (U + 106).toNat, ?_⟩
    rw [hMU]
    push_cast
    rw [mul_assoc, ← zpow_natCast, Int.toNat_of_nonneg (by omega),
      ← zpow_add₀ (by norm_num : (2 : ℚ) ≠ 0)]
    congr 2
    ring


/-! ## Lemmas on the containers -/

theorem minLoop_spec (ys : List ℕ) : ∀ (pre : List ℕ) (si sv : ℕ),
    (pre ++ ys)[si]? = some sv → sv ∈ pre → (∀ x ∈ pre, sv ≤ x) →
    ∃ v, (pre ++ ys)[minLoop ys pre.length si sv]? = some v ∧ v ∈ pre ++ ys ∧
      ∀ x ∈ pre ++ ys, v ≤ x := by
  induction ys with
  | nil =>
    intro pre si sv h1 h2 h3
    exact ⟨sv, by simpa [minLoop] using h1, by simpa using h2, by simpa using h3⟩
  | cons y ys ih =>
    intro pre si sv h1 h2 h3
    have hlen : (pre ++ [y]).length = pre.length + 1 := by simp
    have happ : pre ++ y :: ys = (pre ++ [y]) ++ ys := by simp
    by_cases hlt : y < sv
    · have hy : ((pre ++ [y]) ++ ys)[pre.length]? = some y := by
        rw [← happ, List.getElem?_append_right (le_refl _)]; simp
      obtain ⟨v, hv1, hv2, hv3⟩ := ih (pre ++ [y]) pre.length y hy (by simp)
        (by
          intro x hx
          rcases List.mem_append.mp hx with hx | hx
          · exact le_trans (Nat.le_of_lt hlt) (h3 x hx)
          · simp at hx; omega)
      refine ⟨v, ?_, ?_, ?_⟩
      · simp only [minLoop, if_pos hlt]; rw [happ, ← hlen]; exact hv1
      · rw [happ]; exact hv2
      · rw [happ]; exact hv3
    · obtain ⟨v, hv1, hv2, hv3⟩ := ih (pre ++ [y]) si sv (by rw [← happ]; exact h1)
        (by simp [h2])
        (by
          intro x hx
          rcases List.mem_append.mp hx with hx | hx
          · exact h3 x hx
          · simp at hx; omega)
      refine ⟨v, ?_, ?_, ?_⟩
      · simp only [minLoop, if_neg hlt]; rw [happ, ← hlen]; exact hv1
      · rw [happ]; exact hv2
      · rw [happ]; exact hv3

theorem maxLoop_spec (ys : List ℕ) : ∀ (pre : List ℕ) (li lv : ℕ),
    (pre ++ ys)[li]? = some lv → lv ∈ pre → (∀ x ∈ pre, x ≤ lv) →
    ∃ v, (pre ++ ys)[maxLoop ys pre.length li lv]? = some v ∧ v ∈ pre ++ ys ∧
      ∀ x ∈ pre ++ ys, x ≤ v := by
  induction ys with
  | nil =>
    intro pre li lv h1 h2 h3
    exact ⟨lv, by simpa [maxLoop] using h1, by simpa using h2, by simpa using h3⟩
  | cons y ys ih =>
    intro pre li lv h1 h2 h3
    have hlen : (pre ++ [y]).length = pre.length + 1 := by simp
    have happ : pre ++ y :: ys = (pre ++ [y]) ++ ys := by simp
    by_cases hlt : lv < y
    · have hy : ((pre ++ [y]) ++ ys)[pre.length]? = some y := by
        rw [← happ, List.getElem?_append_right (le_refl _)]; simp
      obtain ⟨v, hv1, hv2, hv3⟩ := ih (pre ++ [y]) pre.length y hy (by simp)
        (by
          intro x hx
          rcases List.mem_append.mp hx with hx | hx
          · exact le_trans (h3 x hx) (Nat.le_of_lt hlt)
          · simp at hx; omega)
      refine ⟨v, ?_, ?_, ?_⟩
      · simp only [maxLoop, if_pos hlt]; rw [happ, ← hlen]; exact hv1
      · rw [happ]; exact hv2
      · rw [happ]; exact hv3
    · obtain ⟨v, hv1, hv2, hv3⟩ := ih (pre ++ [y]) li lv (by rw [← happ]; exact h1)
        (by simp [h2])
        (by
          intro x hx
          rcases List.mem_append.mp hx with hx | hx
          · exact h3 x hx
          · simp at hx; omega)
      refine ⟨v, ?_, ?_, ?_⟩
      · simp only [maxLoop, if_neg hlt]; rw [happ, ← hlen]; exact hv1
      · rw [happ]; exact hv2
      · rw [happ]; exact hv3

theorem min_element_spec (xs : List ℕ) (h : xs ≠ []) :
    ∃ v, xs[min_element xs]? = some v ∧ v ∈ xs ∧ ∀ x ∈ xs, v ≤ x := by
  cases xs with
  | nil => exact absurd rfl h
  | cons x xs =>
    have := minLoop_spec xs [x] 0 x (by simp) (by simp) (by simp)
    simpa [min_element] using this

theorem max_element_spec (xs : List ℕ) (h : xs ≠ []) :
    ∃ v, xs[max_element xs]? = some v ∧ v ∈ xs ∧ ∀ x ∈ xs, x ≤ v := by
  cases xs with
  | nil => exact absurd rfl h
  | cons x xs =>
    have := maxLoop_spec xs [x] 0 x (by simp) (by simp) (by simp)
    simpa [max_element] using this

theorem find_pushBack_self (ts : List (String × timevect)) (k : String) (d : ℕ) :
    find (pushBack ts k d) k =
      some (match find ts k with
        | none => [d]
        | some v => v ++ [d]) := by
  induction ts with
  | nil => simp [pushBack, find]
  | cons p rest ih =>
    obtain ⟨k1, v⟩ := p
    by_cases hk : k1 = k
    · simp [pushBack, find, hk]
    · simp [pushBack, find, hk, ih]

theorem length_find_pushBack (ts : List (String × timevect)) (k : String) (d : ℕ) :
    ((find (pushBack ts k d) k).getD []).length = ((find ts k).getD []).length + 1 := by
  rw [find_pushBack_self]
  cases find ts k <;> simp

/-! ## The claims -/

/-- C1, as stated, fails: the sum is accumulated in a `double`, and for the
series `[2^53, 1]` the member `total` is `2^53` while the exact sum is
`2^53 + 1`. -/
theorem stats_total_drops_low_bits :
    (stats.stats [9007199254740992, 1]).count = 2 ∧
    (stats.stats [9007199254740992, 1]).total = some 9007199254740992 ∧
    ([9007199254740992, 1] : List ℕ).sum = 9007199254740993 := by
  decide

/-- C1, amended. For every non-empty series whose exact sum is at most `2^53`,
the snapshot has `count` equal to the number of samples and `total` equal to
the exact sum. -/
theorem stats_count_and_total (xs : List ℕ) (hne : xs ≠ []) (hsum : xs.sum ≤ 2 ^ 53) :
    (stats.stats xs).count = xs.length ∧ 0 < (stats.stats xs).count ∧
    (stats.stats xs).total = some xs.sum :=
  ⟨rfl, List.length_pos.mpr hne, stats_total_exact xs hsum⟩

/-- C1 amended, at the series `[10, 20, 30]`: count 3 and total 60. -/
theorem stats_count_and_total_witness :
    ([10, 20, 30] : List ℕ) ≠ [] ∧ ([10, 20, 30] : List ℕ).sum ≤ 2 ^ 53 ∧
    ((stats.stats [10, 20, 30]).count = ([10, 20, 30] : List ℕ).length ∧
      0 < (stats.stats [10, 20, 30]).count ∧
      (stats.stats [10, 20, 30]).total = some ([10, 20, 30] : List ℕ).sum) ∧
    ([10, 20, 30] : List ℕ).length = 3 ∧ ([10, 20, 30] : List ℕ).sum = 60 :=
  ⟨by decide, by decide, stats_count_and_total [10, 20, 30] (by decide) (by decide),
    by decide, by decide⟩

/-- C2, as stated, fails: `stdev` is a `double`, and for the series
`[10, 20, 30]` (mean 20, squared deviations summing to 200) it is
`4596467122019239 * 2^-49`, whose square times 3 is not 200. -/
theorem stats_stdev_not_exact_root :
    (stats.stats [10, 20, 30]).mean = some (F64.fin 5629499534213120 (-48)) ∧
    (F64.fin 5629499534213120 (-48)).toRat = 20 ∧
    (stats.stats [10, 20, 30]).stdev = some (F64.fin 4596467122019239 (-49)) ∧
    (F64.fin 4596467122019239 (-49)).toRat ^ 2 * 3 ≠
      (([10, 20, 30] : List ℕ).map (fun x : ℕ => ((x : ℚ) - 20) ^ 2)).sum := by
  refine ⟨by decide, ?_, by decide, ?_⟩
  · norm_num [F64.toRat]
  · norm_num [F64.toRat]

/-- C2, amended. For every non-empty series of at most `2^53` samples with sum
at most `2^53`, `mean` and `stdev` are finite doubles, `stdev ≥ 0`, and
`stdev^2 * count` equals the sum of the squared deviations from `mean` (the
population formula, divisor `count`) up to the rounding of the `count + 7`
floating-point operations involved: a relative factor between
`(1 - 2^-53)^(count + 7)` and `(1 + 2^-53)^(count + 7)`. -/
theorem stats_stdev_is_population_stdev (xs : List ℕ) (hne : xs ≠ [])
    (hn : xs.length ≤ 2 ^ 53) (hsum : xs.sum ≤ 2 ^ 53) :
    ∃ mean sd : F64, (stats.stats xs).mean = some mean ∧ (stats.stats xs).stdev = some sd ∧
      mean.isFinite = true ∧ sd.isFinite = true ∧ 0 ≤ sd.toRat ∧
      (xs.map (fun x : ℕ => ((x : ℚ) - mean.toRat) ^ 2)).sum *
          (1 - eps) ^ ((stats.stats xs).count + 7) ≤
        sd.toRat ^ 2 * (stats.stats xs).count ∧
      sd.toRat ^ 2 * (stats.stats xs).count ≤
        (xs.map (fun x : ℕ => ((x : ℚ) - mean.toRat) ^ 2)).sum *
          (1 + eps) ^ ((stats.stats xs).count + 7) := by
  obtain ⟨mean, μ, j, hmean, hv, hμ0, hμ1, hgrid⟩ := mean_facts xs hne hn hsum
  have hall : ∀ y ∈ xs, y ≤ 2 ^ 53 := fun y hy => le_trans (le_sum_of_mem xs y hy) hsum
  obtain ⟨w, hw, hw0, hN⟩ := devest_spec mean μ j hv hμ0 hμ1 hgrid xs hne hn hall
  obtain ⟨hmr, hmf⟩ := hv.toRat_eq
  obtain ⟨hwr, hwf⟩ := hw.toRat_eq
  have hsd : (stats.stats xs).stdev = some (stats.devest xs mean) := by
    have h1 : (stats.stats xs).stdev =
        (stats.stats xs).mean.map (fun m => stats.devest xs m) := rfl
    rw [h1, hmean]
    rfl
  have hc : (stats.stats xs).count = xs.length := rfl
  refine ⟨mean, stats.devest xs mean, hmean, hsd, hmf, hwf, by rw [hwr]; exact hw0, ?_, ?_⟩
  · rw [hmr, hwr, hc]; exact hN.1
  · rw [hmr, hwr, hc]; exact hN.2

/-- C2 amended, at the series `[10, 20, 30]`. -/
theorem stats_stdev_is_population_stdev_witness :
    ([10, 20, 30] : List ℕ) ≠ [] ∧ ([10, 20, 30] : List ℕ).length ≤ 2 ^ 53 ∧
    ([10, 20, 30] : List ℕ).sum ≤ 2 ^ 53 ∧
    ∃ mean sd : F64, (stats.stats [10, 20, 30]).mean = some mean ∧
      (stats.stats [10, 20, 30]).stdev = some sd ∧
      mean.isFinite = true ∧ sd.isFinite = true ∧ 0 ≤ sd.toRat ∧
      (([10, 20, 30] : List ℕ).map (fun x : ℕ => ((x : ℚ) - mean.toRat) ^ 2)).sum *
          (1 - eps) ^ ((stats.stats [10, 20, 30]).count + 7) ≤
        sd.toRat ^ 2 * (stats.stats [10, 20, 30]).count ∧
      sd.toRat ^ 2 * (stats.stats [10, 20, 30]).count ≤
        (([10, 20, 30] : List ℕ).map (fun x : ℕ => ((x : ℚ) - mean.toRat) ^ 2)).sum *
          (1 + eps) ^ ((stats.stats [10, 20, 30]).count + 7) :=
  ⟨by decide, by decide, by decide,
    stats_stdev_is_population_stdev [10, 20, 30] (by decide) (by decide) (by decide)⟩

/-- C3, as stated, fails: `mean` is a `double`, and for the series `[1, 1, 2]`
(total 4, count 3) it is `6004799503160661 * 2^-52`, not `4 / 3`. -/
theorem stats_mean_not_exact_quotient :
    (stats.stats [1, 1, 2]).total = some 4 ∧ (stats.stats [1, 1, 2]).count = 3 ∧
    (stats.stats [1, 1, 2]).mean = some (F64.fin 6004799503160661 (-52)) ∧
    (F64.fin 6004799503160661 (-52)).toRat ≠ 4 / 3 := by
  refine ⟨by decide, by decide, by decide, ?_⟩
  norm_num [F64.toRat]

/-- C3, amended. For every non-empty series of at most `2^53` samples whose
`total` is defined, `mean` is a finite double nearest to the quotient of the
snapshot's own `total` and `count`: no value of the format is closer, the
relative error is at most `2^-53`, and `mean` is the quotient itself whenever
the quotient is a value of the format. -/
theorem stats_mean_is_rounded_quotient (xs : List ℕ) (T : ℕ) (hne : xs ≠ [])
    (hn : xs.length ≤ 2 ^ 53) (hT : (stats.stats xs).total = some T) :
    ∃ x, (stats.stats xs).mean = some x ∧ x.isFinite = true ∧
      (∀ y, Representable y →
        |x.toRat - (T : ℚ) / (stats.stats xs).count| ≤ |y - (T : ℚ) / (stats.stats xs).count|) ∧
      |x.toRat - (T : ℚ) / (stats.stats xs).count| ≤ eps * ((T : ℚ) / (stats.stats xs).count) ∧
      (Representable ((T : ℚ) / (stats.stats xs).count) →
        x.toRat = (T : ℚ) / (stats.stats xs).count) := by
  obtain ⟨x, hx, hv⟩ := mean_isVal xs T hne hn hT
  obtain ⟨hr, hf⟩ := hv.toRat_eq
  have hc : (stats.stats xs).count = xs.length := rfl
  have hlen : 0 < xs.length := List.length_pos.mpr hne
  have hlenQ : (0 : ℚ) < (xs.length : ℚ) := by exact_mod_cast hlen
  have hq0 : (0 : ℚ) ≤ (T : ℚ) / (xs.length : ℚ) := by positivity
  refine ⟨x, hx, hf, ?_, ?_, ?_⟩
  · intro y hy
    rw [hr, hc]
    exact roundVal_nearest _ y hy
  · rw [hr, hc]
    have hnorm : (T : ℚ) / (xs.length : ℚ) = 0 ∨
        (2 : ℚ) ^ (-1022 : ℤ) ≤ |(T : ℚ) / (xs.length : ℚ)| := by
      rcases Nat.eq_zero_or_pos T with h0 | hpos
      · left; simp [h0]
      · right
        rw [abs_of_nonneg hq0, le_div_iff₀ hlenQ]
        have h1 : (1 : ℚ) ≤ (T : ℚ) := by exact_mod_cast hpos
        have h2 : (xs.length : ℚ) ≤ 2 ^ 53 := by exact_mod_cast hn
        have h3 : (2 : ℚ) ^ (-1022 : ℤ) ≤ (2 : ℚ) ^ (-53 : ℤ) :=
          zpow_le_zpow_right₀ (by norm_num) (by norm_num)
        have h4 : (2 : ℚ) ^ (-53 : ℤ) * 2 ^ 53 = 1 := by norm_num
        calc (2 : ℚ) ^ (-1022 : ℤ) * (xs.length : ℚ)
            ≤ (2 : ℚ) ^ (-53 : ℤ) * 2 ^ 53 :=
              mul_le_mul h3 h2 (Nat.cast_nonneg _) (two_zpow_pos _).le
          _ ≤ (T : ℚ) := by rw [h4]; exact h1
    have := roundVal_rel _ hnorm
    rwa [abs_of_nonneg hq0] at this
  · intro hrep
    rw [hr, hc]
    exact roundVal_exact _ hrep

/-- C3 amended, at the series `[10, 20, 30]` with total 60. -/
theorem stats_mean_is_rounded_quotient_witness :
    ([10, 20, 30] : List ℕ) ≠ [] ∧ ([10, 20, 30] : List ℕ).length ≤ 2 ^ 53 ∧
    (stats.stats [10, 20, 30]).total = some 60 ∧
    ∃ x, (stats.stats [10, 20, 30]).mean = some x ∧ x.isFinite = true ∧
      (∀ y, Representable y →
        |x.toRat - ((60 : ℕ) : ℚ) / (stats.stats [10, 20, 30]).count| ≤
          |y - ((60 : ℕ) : ℚ) / (stats.stats [10, 20, 30]).count|) ∧
      |x.toRat - ((60 : ℕ) : ℚ) / (stats.stats [10, 20, 30]).count| ≤
        eps * (((60 : ℕ) : ℚ) / (stats.stats [10, 20, 30]).count) ∧
      (Representable (((60 : ℕ) : ℚ) / (stats.stats [10, 20, 30]).count) →
        x.toRat = ((60 : ℕ) : ℚ) / (stats.stats [10, 20, 30]).count) :=
  ⟨by decide, by decide, by decide,
    stats_mean_is_rounded_quotient [10, 20, 30] 60 (by decide) (by decide) (by decide)⟩

/-- C4. For a non-empty series the `min` and `max` fields of the snapshot are
defined, both are elements of the series, and every sample lies between them. -/
theorem stats_min_max_are_extrema (xs : List ℕ) (h : xs ≠ []) :
    ∃ lo hi, (stats.stats xs).min = some lo ∧ (stats.stats xs).max = some hi ∧
      lo ∈ xs ∧ hi ∈ xs ∧ ∀ x ∈ xs, lo ≤ x ∧ x ≤ hi := by
  obtain ⟨lo, h1, h2, h3⟩ := min_element_spec xs h
  obtain ⟨hi, h4, h5, h6⟩ := max_element_spec xs h
  exact ⟨lo, hi, h1, h4, h2, h5, fun x hx => ⟨h3 x hx, h6 x hx⟩⟩

/-- C4 at the series `[10, 20, 30]`. -/
theorem stats_min_max_are_extrema_witness :
    [10, 20, 30] ≠ [] ∧
    ∃ lo hi, (stats.stats [10, 20, 30]).min = some lo ∧
      (stats.stats [10, 20, 30]).max = some hi ∧
      lo ∈ [10, 20, 30] ∧ hi ∈ [10, 20, 30] ∧ ∀ x ∈ [10, 20, 30], lo ≤ x ∧ x ≤ hi :=
  ⟨by decide, stats_min_max_are_extrema [10, 20, 30] (by decide)⟩

/-- C5, as stated, fails: for a tick difference of `8796093022208999` the
recorded sample is `8796093022209`, one more than the truncated quotient by
1000; the product with the `double` literal `1E-3` is rounded up to an integer
before the truncation. -/
theorem timer_sample_not_truncated_quotient :
    InstrumentFunction.dtor { initialTime := 1, times := [] }
        { funct_ := "f", start_time_ := 0 } 8796093022208999 =
      some { initialTime := 1, times := [("f", [8796093022209])] } ∧
    (8796093022208999 - 0) / 1000 = 8796093022208 := by
  decide

/-- C5, amended. Releasing a timer with label `L` created at tick `s` when the
clock reads `e` (`s ≤ e < 2^64`) appends exactly one sample to the series of
`L`, and when `e - s < 1000 * 2^43` that sample is `(e - s) / 1000`, truncated. -/
theorem timer_release_adds_one_sample (g : Instrument) (L : String) (s e : ℕ)
    (hse : s ≤ e) (he : e < 2 ^ 64) :
    ∃ d, InstrumentFunction.dtor g { funct_ := L, start_time_ := s } e =
        some { g with times := pushBack g.times L d } ∧
      find (pushBack g.times L d) L = some ((find g.times L).getD [] ++ [d]) ∧
      ((find (pushBack g.times L d) L).getD []).length =
        ((find g.times L).getD []).length + 1 ∧
      (e - s < 1000 * 2 ^ 43 → d = (e - s) / 1000) := by
  obtain ⟨d, hd⟩ := scale_defined (e - s) (by omega)
  have hel : elapsed e s = some d := by rw [elapsed_of_le e s hse he, hd]
  refine ⟨d, ?_, ?_, length_find_pushBack _ _ _, ?_⟩
  · simp [InstrumentFunction.dtor, hel]
  · rw [find_pushBack_self]
    cases find g.times L <;> simp
  · intro hlt
    rw [scale_exact (e - s) hlt] at hd
    injection hd with hd
    exact hd.symm

/-- C5 amended, at a timer on `"f"` from tick 10 to tick 2010. -/
theorem timer_release_adds_one_sample_witness :
    (10 : ℕ) ≤ 2010 ∧ (2010 : ℕ) < 2 ^ 64 ∧
    ∃ d, InstrumentFunction.dtor Instrument.init { funct_ := "f", start_time_ := 10 } 2010 =
        some { Instrument.init with times := pushBack Instrument.init.times "f" d } ∧
      find (pushBack Instrument.init.times "f" d) "f" =
        some ((find Instrument.init.times "f").getD [] ++ [d]) ∧
      ((find (pushBack Instrument.init.times "f" d) "f").getD []).length =
        ((find Instrument.init.times "f").getD []).length + 1 ∧
      (2010 - 10 < 1000 * 2 ^ 43 → d = (2010 - 10) / 1000) :=
  ⟨by decide, by decide,
    timer_release_adds_one_sample Instrument.init "f" 10 2010 (by decide) (by decide)⟩

/-- C6. The statement `times[L].push_back(d)` of the timer's destructor leaves
under `L` the previous series followed by `d`, and the one-element series `[d]`
when `L` had no series. -/
theorem record_appends_to_series (ts : List (String × timevect)) (L : String) (d : ℕ) :
    find (pushBack ts L d) L =
      some (match find ts L with
        | none => [d]
        | some v => v ++ [d]) :=
  find_pushBack_self ts L d

/-- C7, evaluated at the empty series: `min` and `max` dereference `end()`
(undefined), `mean` is `0.0 / 0` and `stdev` the square root of `0.0 / 0`, both
NaN; no error value is produced. -/
theorem stats_of_empty_series :
    (stats.stats []).count = 0 ∧ (stats.stats []).total = some 0 ∧
    (stats.stats []).min = none ∧ (stats.stats []).max = none ∧
    (stats.stats []).mean = some F64.nan ∧ (stats.stats []).stdev = some F64.nan := by
  decide

/-- C8, evaluated after three timed scopes shorter than 1000 ticks: the series
is `[0, 0, 0]`, its mean and stdev are `0.0`, and the last column of the row,
`stdev * 100 / mean`, is `0.0 / 0.0`, NaN. -/
theorem report_relative_stdev_of_zero_mean :
    run Instrument.init
      [Event.newInstrument 1,
        Event.endFunction { funct_ := "f", start_time_ := 10 } 20,
        Event.endFunction { funct_ := "f", start_time_ := 30 } 900,
        Event.endFunction { funct_ := "f", start_time_ := 1000 } 1999] =
      some { initialTime := 1, times := [("f", [0, 0, 0])] } ∧
    (stats.stats [0, 0, 0]).mean = some F64.zero ∧
    (stats.stats [0, 0, 0]).stdev = some F64.zero ∧
    ((Instrument.dtor { initialTime := 1, times := [("f", [0, 0, 0])] } 5001).2.map
      (fun r => r.relative)) = [some F64.nan] := by
  decide

theorem find_pushBack_other (ts : List (String × timevect)) (L k : String) (d : ℕ)
    (h : k ≠ L) : find (pushBack ts L d) k = find ts k := by
  induction ts with
  | nil => simp [pushBack, find, Ne.symm h]
  | cons p rest ih =>
    obtain ⟨k1, v⟩ := p
    by_cases hk : k1 = L
    · subst hk
      simp [pushBack, find, Ne.symm h]
    · by_cases hk2 : k1 = k
      · subst hk2
        simp [pushBack, find, hk]
      · simp [pushBack, find, hk, hk2, ih]

theorem find_eq_none_iff (ts : List (String × timevect)) (k : String) :
    find ts k = none ↔ k ∉ ts.map Prod.fst := by
  induction ts with
  | nil => simp [find]
  | cons p rest ih =>
    obtain ⟨k1, v⟩ := p
    by_cases hk : k1 = k
    · simp [find, hk]
    · simp [find, hk, ih, Ne.symm hk]

theorem keys_pushBack (ts : List (String × timevect)) (k : String) (d : ℕ) :
    (pushBack ts k d).map Prod.fst =
      if k ∈ ts.map Prod.fst then ts.map Prod.fst else ts.map Prod.fst ++ [k] := by
  induction ts with
  | nil => simp [pushBack]
  | cons p rest ih =>
    obtain ⟨k1, v⟩ := p
    by_cases hk : k1 = k
    · simp [pushBack, hk]
    · have hk' : ¬ k = k1 := Ne.symm hk
      simp only [pushBack, if_neg hk, List.map_cons, ih, List.mem_cons, hk', false_or]
      split <;> simp

theorem nodup_keys_pushBack (ts : List (String × timevect)) (k : String) (d : ℕ)
    (h : (ts.map Prod.fst).Nodup) : ((pushBack ts k d).map Prod.fst).Nodup := by
  rw [keys_pushBack]
  split
  · exact h
  · rename_i hk
    rw [List.nodup_append]
    refine ⟨h, by simp, ?_⟩
    intro a ha hb
    simp at hb
    subst hb
    exact hk ha

theorem mem_keys_pushBack (ts : List (String × timevect)) (k L : String) (d : ℕ) :
    L ∈ (pushBack ts k d).map Prod.fst ↔ L ∈ ts.map Prod.fst ∨ L = k := by
  rw [keys_pushBack]
  split
  · rename_i hk
    constructor
    · exact Or.inl
    · rintro (h | h)
      · exact h
      · rw [h]; exact hk
  · simp

theorem nonempty_pushBack (ts : List (String × timevect)) (k : String) (d : ℕ)
    (h : ∀ p ∈ ts, p.2 ≠ []) : ∀ p ∈ pushBack ts k d, p.2 ≠ [] := by
  induction ts with
  | nil => simp [pushBack]
  | cons p rest ih =>
    obtain ⟨k1, v⟩ := p
    have hrest : ∀ p ∈ rest, p.2 ≠ [] := fun p hp => h p (by simp [hp])
    by_cases hk : k1 = k
    · intro q hq
      simp only [pushBack, if_pos hk, List.mem_cons] at hq
      rcases hq with hq | hq
      · rw [hq]; simp
      · exact hrest q hq
    · intro q hq
      simp only [pushBack, if_neg hk, List.mem_cons] at hq
      rcases hq with hq | hq
      · rw [hq]; exact h (k1, v) (by simp)
      · exact ih hrest q hq

/-- What one event does to the static state: a destructor of a timer appends
one sample under its label, every other event leaves the state as it is except
that the constructor of `Instrument` stores the clock reading. -/
theorem step_cases (g g1 : Instrument) (ev : Event) (h : step g ev = some g1) :
    (∃ t now d, ev = Event.endFunction t now ∧ elapsed now t.start_time_ = some d ∧
        g1 = { g with times := pushBack g.times t.funct_ d }) ∨
      (g1.times = g.times ∧ ev.label = none ∧ (∀ L, ev.sample L = none) ∧
        (g1.initialTime = g.initialTime ∨
          ∃ now, ev = Event.newInstrument now ∧ g.initialTime = 0 ∧ g1.initialTime = now)) := by
  cases ev with
  | newInstrument now =>
    right
    simp only [step, Instrument.ctor] at h
    split at h
    · rename_i h0
      simp only [Option.some.injEq] at h
      subst h
      exact ⟨rfl, rfl, fun _ => rfl, Or.inr ⟨now, rfl, h0, rfl⟩⟩
    · simp at h
  | endInstrument now =>
    right
    simp only [step, Option.some.injEq] at h
    subst h
    exact ⟨rfl, rfl, fun _ => rfl, Or.inl rfl⟩
  | newFunction funct now =>
    right
    simp only [step, Option.map_eq_some'] at h
    obtain ⟨_, _, h4⟩ := h
    subst h4
    exact ⟨rfl, rfl, fun _ => rfl, Or.inl rfl⟩
  | endFunction t now =>
    left
    simp only [step, InstrumentFunction.dtor, Option.map_eq_some'] at h
    obtain ⟨d, hd, h4⟩ := h
    exact ⟨t, now, d, rfl, hd, h4.symm⟩

theorem run_cons (g g2 : Instrument) (ev : Event) (rest : List Event)
    (h : run g (ev :: rest) = some g2) :
    ∃ g1, step g ev = some g1 ∧ run g1 rest = some g2 := by
  simpa only [run, Option.bind_eq_some] using h

/-- The series of a label after a sequence of events: the previous series
followed by the samples of the releases, in the order of the releases. -/
theorem run_series (L : String) (evs : List Event) : ∀ (g g1 : Instrument),
    run g evs = some g1 →
    (find g1.times L).getD [] = (find g.times L).getD [] ++ samplesOf L evs := by
  induction evs with
  | nil => intro g g1 h; simp [run] at h; simp [h, samplesOf]
  | cons ev rest ih =>
    intro g g2 h
    obtain ⟨g1, h1, h2⟩ := run_cons g g2 ev rest h
    rw [ih g1 g2 h2]
    rcases step_cases g g1 ev h1 with ⟨t, now, d, rfl, hd, rfl⟩ | ⟨ht, _, hs, _⟩
    · by_cases hL : t.funct_ = L
      · subst hL
        simp only [samplesOf, List.filterMap_cons, Event.sample, if_true, hd]
        rw [find_pushBack_self]
        cases find g.times t.funct_ <;> simp
      · simp only [samplesOf, List.filterMap_cons, Event.sample, if_neg hL]
        rw [find_pushBack_other _ _ _ _ (Ne.symm hL)]
    · simp only [samplesOf, List.filterMap_cons, hs L, ht]

theorem run_keys (evs : List Event) : ∀ (g g1 : Instrument),
    run g evs = some g1 → (g.times.map Prod.fst).Nodup →
    (g1.times.map Prod.fst).Nodup ∧
      ∀ L, L ∈ g1.times.map Prod.fst ↔ L ∈ g.times.map Prod.fst ∨ L ∈ recorded evs := by
  induction evs with
  | nil => intro g g1 h hn; simp [run] at h; subst h; simp [recorded, hn]
  | cons ev rest ih =>
    intro g g2 h hn
    obtain ⟨g1, h1, h2⟩ := run_cons g g2 ev rest h
    rcases step_cases g g1 ev h1 with ⟨t, now, d, rfl, hd, rfl⟩ | ⟨ht, hl, _, _⟩
    · obtain ⟨hn2, hm⟩ := ih _ g2 h2 (nodup_keys_pushBack g.times t.funct_ d hn)
      refine ⟨hn2, fun L => ?_⟩
      rw [hm L]
      simp only [mem_keys_pushBack, recorded, List.filterMap_cons, Event.label, List.mem_cons]
      tauto
    · obtain ⟨hn2, hm⟩ := ih g1 g2 h2 (by rw [ht]; exact hn)
      refine ⟨hn2, fun L => ?_⟩
      rw [hm L, ht]
      simp only [recorded, List.filterMap_cons, hl]

theorem run_nonempty (evs : List Event) : ∀ (g g1 : Instrument),
    run g evs = some g1 → (∀ p ∈ g.times, p.2 ≠ []) → ∀ p ∈ g1.times, p.2 ≠ [] := by
  induction evs with
  | nil => intro g g1 h hn; simp [run] at h; subst h; exact hn
  | cons ev rest ih =>
    intro g g2 h hn
    obtain ⟨g1, h1, h2⟩ := run_cons g g2 ev rest h
    rcases step_cases g g1 ev h1 with ⟨t, now, d, rfl, hd, rfl⟩ | ⟨ht, _, _, _⟩
    · exact ih _ g2 h2 (nonempty_pushBack g.times t.funct_ d hn)
    · exact ih g1 g2 h2 (by rw [ht]; exact hn)

theorem reportLoop_length (el : Option ℕ) (ts : List (String × timevect)) :
    ∀ c, (reportLoop el ts c).length = ts.length := by
  induction ts with
  | nil => intro c; rfl
  | cons p rest ih => intro c; simp [reportLoop, ih]

theorem reportLoop_cont (el : Option ℕ) (ts : List (String × timevect)) :
    ∀ c, (reportLoop el ts c).map (fun r => r.cont) = List.range' c ts.length := by
  induction ts with
  | nil => intro c; rfl
  | cons p rest ih => intro c; simp [reportLoop, reportRow, ih, List.range'_succ]

theorem reportLoop_name (el : Option ℕ) (ts : List (String × timevect)) :
    ∀ c, (reportLoop el ts c).map (fun r => r.name) = ts.map Prod.fst := by
  induction ts with
  | nil => intro c; rfl
  | cons p rest ih => intro c; simp [reportLoop, reportRow, ih]

theorem reportLoop_mem (el : Option ℕ) (ts : List (String × timevect)) :
    ∀ c r, r ∈ reportLoop el ts c → ∃ p ∈ ts, ∃ i, r = reportRow el i p := by
  induction ts with
  | nil => intro c r h; simp [reportLoop] at h
  | cons p rest ih =>
    intro c r h
    simp only [reportLoop, List.mem_cons] at h
    rcases h with h | h
    · exact ⟨p, by simp, c, h⟩
    · obtain ⟨q, hq, i, hi⟩ := ih _ r h
      exact ⟨q, by simp [hq], i, hi⟩

theorem find_of_mem_nodup (ts : List (String × timevect)) (p : String × timevect)
    (hp : p ∈ ts) (hn : (ts.map Prod.fst).Nodup) : find ts p.1 = some p.2 := by
  induction ts with
  | nil => simp at hp
  | cons q rest ih =>
    obtain ⟨k1, v⟩ := q
    simp only [List.map_cons, List.nodup_cons] at hn
    rcases List.mem_cons.mp hp with h | h
    · subst h; simp [find]
    · have hne : k1 ≠ p.1 := by
        intro hc
        apply hn.1
        rw [hc]
        exact List.mem_map_of_mem _ h
      simp only [find, if_neg hne]
      exact ih h hn.2

theorem run_find (L : String) (evs : List Event) : ∀ (g g1 : Instrument) (v : timevect),
    run g evs = some g1 → find g.times L = some v →
    find g1.times L = some (v ++ samplesOf L evs) := by
  induction evs with
  | nil => intro g g1 v h hv; simp [run] at h; subst h; simp [samplesOf, hv]
  | cons ev rest ih =>
    intro g g2 v h hv
    obtain ⟨g1, h1, h2⟩ := run_cons g g2 ev rest h
    rcases step_cases g g1 ev h1 with ⟨t, now, d, rfl, hd, rfl⟩ | ⟨ht, _, hs, _⟩
    · by_cases hL : t.funct_ = L
      · subst hL
        have := ih _ g2 (v ++ [d]) h2 (by
          show find (pushBack g.times t.funct_ d) t.funct_ = _
          rw [find_pushBack_self, hv])
        rw [this]
        simp [samplesOf, Event.sample, hd]
      · have := ih _ g2 v h2 (by
          show find (pushBack g.times t.funct_ d) L = _
          rw [find_pushBack_other _ _ _ _ (Ne.symm hL), hv])
        rw [this]
        simp [samplesOf, Event.sample, hL]
    · have := ih g1 g2 v h2 (by rw [ht]; exact hv)
      rw [this]
      simp [samplesOf, hs L]

theorem run_initialTime_keep (evs : List Event) : ∀ (g g1 : Instrument),
    run g evs = some g1 → g.initialTime ≠ 0 → g1.initialTime = g.initialTime := by
  induction evs with
  | nil => intro g g1 h _; simp [run] at h; rw [h]
  | cons ev rest ih =>
    intro g g2 h h0
    obtain ⟨g1, h1, h2⟩ := run_cons g g2 ev rest h
    have hstep : g1.initialTime = g.initialTime := by
      rcases step_cases g g1 ev h1 with ⟨t, now, d, rfl, hd, rfl⟩ | ⟨_, _, _, hi | ⟨_, _, hz, _⟩⟩
      · rfl
      · exact hi
      · exact absurd hz h0
    rw [ih g1 g2 h2 (by rw [hstep]; exact h0), hstep]

theorem samplesOf_append (L : String) (a b : List Event) :
    samplesOf L (a ++ b) = samplesOf L a ++ samplesOf L b := by
  simp [samplesOf, List.filterMap_append]


/-! ## Monotonicity of the rounding and of the tick scaling -/

theorem roundVal_mono (q1 q2 : ℚ) (h : q1 ≤ q2) (hb1 : |q1| < (2 : ℚ) ^ (1023 : ℤ))
    (hb2 : |q2| < (2 : ℚ) ^ (1023 : ℤ)) : roundVal q1 ≤ roundVal q2 := by
  have hrep1 := (roundQ_isVal q1 hb1).representable
  have hrep2 := (roundQ_isVal q2 hb2).representable
  by_contra hc
  have hlt : roundVal q2 < roundVal q1 := not_le.mp hc
  by_cases ha : q1 ≤ roundVal q2
  · have := roundVal_le_rep q1 _ hrep2 ha
    linarith
  · by_cases hb : roundVal q1 ≤ q2
    · have := roundVal_ge_rep q2 _ hrep1 hb
      linarith
    · have n1 := roundVal_nearest q1 (roundVal q2) hrep2
      have n2 := roundVal_nearest q2 (roundVal q1) hrep1
      have ha' : roundVal q2 < q1 := not_le.mp ha
      have hb' : q2 < roundVal q1 := not_le.mp hb
      rw [abs_of_pos (by linarith : 0 < roundVal q1 - q1),
        abs_of_neg (by linarith : roundVal q2 - q1 < 0)] at n1
      rw [abs_of_neg (by linarith : roundVal q2 - q2 < 0),
        abs_of_pos (by linarith : 0 < roundVal q1 - q2)] at n2
      have heq : q1 = q2 := by linarith
      rw [heq] at hlt
      exact lt_irrefl _ hlt

namespace F64

theorem toUInt64_isVal {x : F64} {w : ℚ} (hx : IsVal x w) (h0 : 0 ≤ w)
    (h1 : w < (2 : ℚ) ^ (64 : ℕ)) : toUInt64 x = some ⌊w⌋.toNat := by
  obtain ⟨m, e, rfl, _, _, hv⟩ := hx
  have hm : 0 ≤ m := by
    by_contra hc
    have hm : (m : ℚ) < 0 := by exact_mod_cast (not_le.mp hc)
    have := mul_neg_of_neg_of_pos hm (two_zpow_pos e)
    linarith
  rw [toUInt64_fin m e hm (by rw [hv]; exact h1), hv]

theorem milli_isVal : IsVal milli (4611686018427388 / 4611686018427387904) := by
  refine ⟨4611686018427388, -62, milli_eq, by norm_num, by norm_num, ?_⟩
  norm_num

end F64

/-- The sample stored for a tick difference `t < 2^64`: the integer part of the
rounded product of the rounded difference and the literal `1E-3`. -/
theorem scale_floor (t : ℕ) (ht : t < 2 ^ 64) :
    F64.toUInt64 (F64.mul (F64.ofNat t) F64.milli) =
      some ⌊roundVal (roundVal (t : ℚ) * (4611686018427388 / 4611686018427387904))⌋.toNat := by
  have h64 : (2 : ℚ) ^ (64 : ℤ) = 18446744073709551616 := by norm_num
  have h55 : (2 : ℚ) ^ (55 : ℤ) = 36028797018963968 := by norm_num
  have htQ : (t : ℚ) ≤ (2 : ℚ) ^ (64 : ℤ) := by
    rw [h64]
    have : t ≤ 18446744073709551616 := by omega
    exact_mod_cast this
  have hv0 : 0 ≤ roundVal (t : ℚ) := roundVal_nonneg _ (Nat.cast_nonneg t)
  have hv1 : roundVal (t : ℚ) ≤ (2 : ℚ) ^ (64 : ℤ) :=
    roundVal_le_rep _ _ (representable_two_zpow 64 (by norm_num)) htQ
  have hp0 : 0 ≤ roundVal (t : ℚ) * (4611686018427388 / 4611686018427387904) := by positivity
  have hp1 : roundVal (t : ℚ) * (4611686018427388 / 4611686018427387904) ≤ (2 : ℚ) ^ (55 : ℤ) := by
    rw [h55]
    rw [h64] at hv1
    linarith
  have hbig : |roundVal (t : ℚ) * (4611686018427388 / 4611686018427387904)| <
      (2 : ℚ) ^ (1023 : ℤ) := by
    rw [abs_of_nonneg hp0]
    exact lt_of_le_of_lt hp1 (zpow_lt_zpow_right₀ (by norm_num) (by norm_num))
  have hx := F64.mul_isVal (F64.ofNat_isVal t (by omega)) F64.milli_isVal hbig
  have hw0 := roundVal_nonneg _ hp0
  have hw1 := roundVal_le_rep _ _ (representable_two_zpow 55 (by norm_num)) hp1
  apply F64.toUInt64_isVal hx hw0
  rw [h55] at hw1
  have : (2 : ℚ) ^ (64 : ℕ) = 18446744073709551616 := by norm_num
  rw [this]
  linarith

/-- The tick scaling is monotone on the 64-bit tick counts. -/
theorem scale_mono (t2 t1 d2 d1 : ℕ) (h : t2 ≤ t1) (ht : t1 < 2 ^ 64)
    (h2 : F64.toUInt64 (F64.mul (F64.ofNat t2) F64.milli) = some d2)
    (h1 : F64.toUInt64 (F64.mul (F64.ofNat t1) F64.milli) = some d1) : d2 ≤ d1 := by
  rw [scale_floor t2 (by omega)] at h2
  rw [scale_floor t1 ht] at h1
  injection h2 with h2
  injection h1 with h1
  rw [← h2, ← h1]
  apply Int.toNat_le_toNat
  apply Int.floor_mono
  have hq : (t2 : ℚ) ≤ (t1 : ℚ) := by exact_mod_cast h
  have hm1 := roundVal_mono _ _ hq (nat_lt_big t2 (by omega)) (nat_lt_big t1 (by omega))
  have h64 : (2 : ℚ) ^ (64 : ℤ) = 18446744073709551616 := by norm_num
  have htQ : (t1 : ℚ) ≤ (2 : ℚ) ^ (64 : ℤ) := by
    rw [h64]
    have : t1 ≤ 18446744073709551616 := by omega
    exact_mod_cast this
  have hv0 : 0 ≤ roundVal (t1 : ℚ) := roundVal_nonneg _ (Nat.cast_nonneg t1)
  have hv1 : roundVal (t1 : ℚ) ≤ (2 : ℚ) ^ (64 : ℤ) :=
    roundVal_le_rep _ _ (representable_two_zpow 64 (by norm_num)) htQ
  have hw0 : 0 ≤ roundVal (t2 : ℚ) := roundVal_nonneg _ (Nat.cast_nonneg t2)
  have h200 : (2 : ℚ) ^ (64 : ℤ) < (2 : ℚ) ^ (1023 : ℤ) :=
    zpow_lt_zpow_right₀ (by norm_num) (by norm_num)
  rw [h64] at hv1 h200
  apply roundVal_mono
  · exact mul_le_mul_of_nonneg_right hm1 (by norm_num)
  · rw [abs_of_nonneg (by positivity)]
    linarith
  · rw [abs_of_nonneg (by positivity)]
    linarith


/-! ## Consistency of the snapshot -/

theorem sum_bounds (xs : List ℕ) (lo hi : ℕ) (h : ∀ x ∈ xs, lo ≤ x ∧ x ≤ hi) :
    xs.length * lo ≤ xs.sum ∧ xs.sum ≤ xs.length * hi := by
  induction xs with
  | nil => simp
  | cons y ys ih =>
    have hy := h y (by simp)
    have := ih (fun x hx => h x (by simp [hx]))
    simp only [List.length_cons, List.sum_cons]
    constructor <;> nlinarith [this.1, this.2, hy.1, hy.2]

/-- The sum of squared deviations from any `μ` of samples in `[lo, hi]`, bounded
through `(hi - y) * (y - lo) ≥ 0`. -/
theorem sum_sq_le (xs : List ℕ) (lo hi μ : ℚ) (h : ∀ x ∈ xs, lo ≤ (x : ℚ) ∧ (x : ℚ) ≤ hi) :
    (xs.map (fun y : ℕ => ((y : ℚ) - μ) ^ 2)).sum ≤
      (lo + hi - 2 * μ) * ((xs.sum : ℕ) : ℚ) - (xs.length : ℚ) * (lo * hi - μ ^ 2) := by
  induction xs with
  | nil => simp
  | cons y ys ih =>
    have hy := h y (by simp)
    have := ih (fun x hx => h x (by simp [hx]))
    simp only [List.map_cons, List.sum_cons, List.length_cons, Nat.cast_add, Nat.cast_one]
    nlinarith [this, mul_nonneg (sub_nonneg.mpr hy.2) (sub_nonneg.mpr hy.1)]

theorem sq_le_mul_of_abs_le (x p q : ℚ) (h1 : |x| ≤ p) (h2 : |x| ≤ q) : x ^ 2 ≤ p * q := by
  have h0 := abs_nonneg x
  calc x ^ 2 = |x| * |x| := by rw [← sq, sq_abs]
    _ ≤ p * q := mul_le_mul h1 h2 h0 (le_trans h0 h1)

theorem mul_le_quarter_sq (a b m : ℚ) : (b - m) * (m - a) ≤ (b - a) ^ 2 / 4 := by
  have e : (b - a) ^ 2 / 4 - (b - m) * (m - a) = (b + a - 2 * m) ^ 2 / 4 := by ring
  have := sq_nonneg (b + a - 2 * m)
  linarith

theorem le_of_sq_le_sq_nonneg (w r : ℚ) (hr : 0 ≤ r) (h : w ^ 2 ≤ r ^ 2) : w ≤ r := by
  by_contra hc
  have hc' : r < w := not_le.mp hc
  nlinarith

/-- The `stdev` member against the range of the samples. -/
theorem stdev_le_range (xs : List ℕ) (lo hi : ℕ) (hne : xs ≠ []) (hn : xs.length + 7 ≤ 2 ^ 52)
    (hsum : xs.sum ≤ 2 ^ 53) (hlo : lo ∈ xs) (hhi : hi ∈ xs)
    (hb : ∀ x ∈ xs, lo ≤ x ∧ x ≤ hi) :
    ∃ mean sd : F64, ∃ μ w : ℚ, (stats.stats xs).mean = some mean ∧
      (stats.stats xs).stdev = some sd ∧ IsVal mean μ ∧ IsVal sd w ∧
      (lo : ℚ) ≤ μ ∧ μ ≤ (hi : ℚ) ∧ 0 ≤ w ∧ w ≤ (hi : ℚ) - (lo : ℚ) := by
  have hn53 : xs.length ≤ 2 ^ 53 := by omega
  obtain ⟨mean, μ0, j, hmean, hv0, hμ0, hμ1, hgrid⟩ := mean_facts xs hne hn53 hsum
  have hv : IsVal mean (roundVal ((xs.sum : ℚ) / (xs.length : ℚ))) := by
    obtain ⟨mean1, hmean1, hv1⟩ := mean_isVal xs xs.sum hne hn53 (stats_total_exact xs hsum)
    rw [hmean] at hmean1
    injection hmean1 with h
    rw [h]
    exact hv1
  have hμeq : μ0 = roundVal ((xs.sum : ℚ) / (xs.length : ℚ)) := hv0.unique hv
  rw [hμeq] at hμ0 hμ1 hgrid
  have hall : ∀ y ∈ xs, y ≤ 2 ^ 53 := fun y hy => le_trans (le_sum_of_mem xs y hy) hsum
  obtain ⟨w, hw, hw0, hN⟩ := devest_spec mean _ j hv hμ0 hμ1 hgrid xs hne hn53 hall
  have hsd : (stats.stats xs).stdev = some (stats.devest xs mean) := by
    have h1 : (stats.stats xs).stdev =
        (stats.stats xs).mean.map (fun m => stats.devest xs m) := rfl
    rw [h1, hmean]
    rfl
  have hlen : 0 < xs.length := List.length_pos.mpr hne
  have hnQ : (0 : ℚ) < (xs.length : ℚ) := by exact_mod_cast hlen
  obtain ⟨hs1, hs2⟩ := sum_bounds xs lo hi hb
  have hs1Q : (xs.length : ℚ) * (lo : ℚ) ≤ (xs.sum : ℚ) := by exact_mod_cast hs1
  have hs2Q : (xs.sum : ℚ) ≤ (xs.length : ℚ) * (hi : ℚ) := by exact_mod_cast hs2
  -- the exact mean lies in `[lo, hi]`, and so does its rounding
  have hm_lo : (lo : ℚ) ≤ (xs.sum : ℚ) / (xs.length : ℚ) := by
    rw [le_div_iff₀ hnQ]; linarith
  have hm_hi : (xs.sum : ℚ) / (xs.length : ℚ) ≤ (hi : ℚ) := by
    rw [div_le_iff₀ hnQ]; linarith
  have hlorep := representable_nat lo (hall lo hlo)
  have hhirep := representable_nat hi (hall hi hhi)
  have hμ_lo := roundVal_ge_rep _ _ hlorep hm_lo
  have hμ_hi := roundVal_le_rep _ _ hhirep hm_hi
  refine ⟨mean, stats.devest xs mean, _, w, hmean, hsd, hv, hw, hμ_lo, hμ_hi, hw0, ?_⟩
  -- the rounding of the mean is no farther from it than `lo` and `hi`
  have n1 := roundVal_nearest ((xs.sum : ℚ) / (xs.length : ℚ)) (lo : ℚ) hlorep
  have n2 := roundVal_nearest ((xs.sum : ℚ) / (xs.length : ℚ)) (hi : ℚ) hhirep
  rw [abs_of_nonpos (by linarith : (lo : ℚ) - (xs.sum : ℚ) / (xs.length : ℚ) ≤ 0)] at n1
  rw [abs_of_nonneg (by linarith : 0 ≤ (hi : ℚ) - (xs.sum : ℚ) / (xs.length : ℚ))] at n2
  have hS := sum_sq_le xs (lo : ℚ) (hi : ℚ) (roundVal ((xs.sum : ℚ) / (xs.length : ℚ)))
    (fun x hx => ⟨by exact_mod_cast (hb x hx).1, by exact_mod_cast (hb x hx).2⟩)
  have hT : ((xs.sum : ℕ) : ℚ) = (xs.length : ℚ) * ((xs.sum : ℚ) / (xs.length : ℚ)) := by
    field_simp
  generalize (xs.sum : ℚ) / (xs.length : ℚ) = m at hm_lo hm_hi hμ_lo hμ_hi n1 n2 hS hT hN
  generalize roundVal m = μ at hμ_lo hμ_hi n1 n2 hS hN
  generalize (xs.map (fun y : ℕ => ((y : ℚ) - μ) ^ 2)).sum = S at hS hN
  rw [hT] at hS
  have hpow : (1 + eps) ^ (xs.length + 7) ≤ 2 := one_add_eps_pow_le_two _ hn
  have hP0 : (0 : ℚ) ≤ (1 + eps) ^ (xs.length + 7) := pow_nonneg (by linarith [eps_pos]) _
  have hN2 := hN.2
  generalize (1 + eps) ^ (xs.length + 7) = P at hpow hP0 hN2
  generalize (xs.length : ℚ) = n at hnQ hS hN2
  generalize (lo : ℚ) = a at hm_lo hμ_lo n1 hS ⊢
  generalize (hi : ℚ) = b at hm_hi hμ_hi n2 hS ⊢
  -- squared distance of the rounded mean from the mean
  have hd2 : (m - μ) ^ 2 ≤ (b - m) * (m - a) := by
    have e : (m - μ) ^ 2 = (μ - m) ^ 2 := by ring
    rw [e, mul_comm]
    have n1a : |μ - m| ≤ m - a := by linarith [n1]
    exact sq_le_mul_of_abs_le _ _ _ n1a n2
  have hprod := mul_le_quarter_sq a b m
  have hS2 : S ≤ n * ((b - a) ^ 2 / 2) := by
    have e : (a + b - 2 * μ) * (n * m) - n * (a * b - μ ^ 2) =
        n * ((b - m) * (m - a) + (m - μ) ^ 2) := by ring
    rw [e] at hS
    have : (b - m) * (m - a) + (m - μ) ^ 2 ≤ (b - a) ^ 2 / 2 := by linarith
    calc S ≤ n * ((b - m) * (m - a) + (m - μ) ^ 2) := hS
      _ ≤ n * ((b - a) ^ 2 / 2) := mul_le_mul_of_nonneg_left this hnQ.le
  have hR0 : 0 ≤ (b - a) ^ 2 := sq_nonneg _
  have hw2 : w ^ 2 * n ≤ (b - a) ^ 2 * n := by
    have h1 : S * P ≤ n * ((b - a) ^ 2 / 2) * 2 := by
      have hS0' : 0 ≤ n * ((b - a) ^ 2 / 2) := by positivity
      calc S * P ≤ n * ((b - a) ^ 2 / 2) * P := mul_le_mul_of_nonneg_right hS2 hP0
        _ ≤ n * ((b - a) ^ 2 / 2) * 2 := mul_le_mul_of_nonneg_left hpow hS0'
    linarith
  have hw3 : w ^ 2 ≤ (b - a) ^ 2 := le_of_mul_le_mul_right hw2 hnQ
  have hba : 0 ≤ b - a := by linarith
  exact le_of_sq_le_sq_nonneg w (b - a) hba hw3


/-! ## The claims on the registry and the report -/

/-- The report over a live map.  For every content of the map (a state `g0`
with distinct keys) and every sequence of events after it, the body of
`~Instrument()` run on the live map yields one row per distinct label: as many
rows as distinct labels in the map or recorded since, no label twice, exactly
those labels, the counter column `0, 1, ..., k - 1` in row order, and in each
row the number of samples of the series of its label. -/
theorem report_has_one_row_per_label (g0 : Instrument) (evs : List Event) (g : Instrument)
    (now : ℕ) (h0 : (g0.times.map Prod.fst).Nodup) (h : run g0 evs = some g) :
    ((Instrument.dtor g now).2).length =
      (g0.times.map Prod.fst ++ recorded evs).dedup.length ∧
    (((Instrument.dtor g now).2).map (fun r => r.name)).Nodup ∧
    (∀ L, L ∈ ((Instrument.dtor g now).2).map (fun r => r.name) ↔
      L ∈ g0.times.map Prod.fst ∨ L ∈ recorded evs) ∧
    ((Instrument.dtor g now).2).map (fun r => r.cont) =
      List.range ((Instrument.dtor g now).2).length ∧
    ∀ r ∈ (Instrument.dtor g now).2,
      (find g.times r.name).map List.length = some r.count := by
  obtain ⟨hn, hm⟩ := run_keys evs g0 g h h0
  have hrows : (Instrument.dtor g now).2 =
      reportLoop (elapsed now g.initialTime) g.times 0 := rfl
  rw [hrows, reportLoop_length, reportLoop_name, reportLoop_cont]
  refine ⟨?_, hn, hm, ?_, ?_⟩
  · have h1 : (g.times.map Prod.fst).toFinset =
        (g0.times.map Prod.fst ++ recorded evs).toFinset := by
      ext L
      simp only [List.mem_toFinset, List.mem_append]
      exact hm L
    have h2 := List.toFinset_card_of_nodup hn
    have h3 := List.card_toFinset (g0.times.map Prod.fst ++ recorded evs)
    rw [h1] at h2
    rw [← h3, h2, List.length_map]
  · rw [List.range_eq_range']
  · intro r hr
    obtain ⟨p, hp, i, rfl⟩ := reportLoop_mem _ _ _ r hr
    have : (reportRow (elapsed now g.initialTime) i p).name = p.1 := rfl
    rw [this, find_of_mem_nodup g.times p hp hn]
    rfl

/-- The report over a live map, at a run from program start that records under
`"f"`, `"g"` and `"f"` again. -/
theorem report_has_one_row_per_label_witness :
    (Instrument.init.times.map Prod.fst).Nodup ∧
    run Instrument.init
      [Event.newInstrument 1,
        Event.endFunction { funct_ := "f", start_time_ := 10 } 2010,
        Event.endFunction { funct_ := "g", start_time_ := 20 } 5020,
        Event.endFunction { funct_ := "f", start_time_ := 30 } 7030] =
      some { initialTime := 1, times := [("f", [2, 7]), ("g", [5])] } ∧
    (((Instrument.dtor { initialTime := 1, times := [("f", [2, 7]), ("g", [5])] } 9000).2).length =
        (Instrument.init.times.map Prod.fst ++ recorded
          [Event.newInstrument 1,
            Event.endFunction { funct_ := "f", start_time_ := 10 } 2010,
            Event.endFunction { funct_ := "g", start_time_ := 20 } 5020,
            Event.endFunction { funct_ := "f", start_time_ := 30 } 7030]).dedup.length ∧
      (((Instrument.dtor { initialTime := 1, times := [("f", [2, 7]), ("g", [5])] } 9000).2).map
        (fun r => r.name)).Nodup ∧
      (∀ L, L ∈ ((Instrument.dtor { initialTime := 1, times := [("f", [2, 7]), ("g", [5])] }
            9000).2).map (fun r => r.name) ↔
          L ∈ Instrument.init.times.map Prod.fst ∨ L ∈ recorded
            [Event.newInstrument 1,
              Event.endFunction { funct_ := "f", start_time_ := 10 } 2010,
              Event.endFunction { funct_ := "g", start_time_ := 20 } 5020,
              Event.endFunction { funct_ := "f", start_time_ := 30 } 7030]) ∧
      ((Instrument.dtor { initialTime := 1, times := [("f", [2, 7]), ("g", [5])] } 9000).2).map
          (fun r => r.cont) =
        List.range
          ((Instrument.dtor { initialTime := 1, times := [("f", [2, 7]), ("g", [5])] }
            9000).2).length ∧
      ∀ r ∈ (Instrument.dtor { initialTime := 1, times := [("f", [2, 7]), ("g", [5])] } 9000).2,
        (find ({ initialTime := 1, times := [("f", [2, 7]), ("g", [5])] } : Instrument).times
          r.name).map List.length = some r.count) :=
  ⟨by decide, by decide,
    report_has_one_row_per_label Instrument.init
      [Event.newInstrument 1,
        Event.endFunction { funct_ := "f", start_time_ := 10 } 2010,
        Event.endFunction { funct_ := "g", start_time_ := 20 } 5020,
        Event.endFunction { funct_ := "f", start_time_ := 30 } 7030]
      { initialTime := 1, times := [("f", [2, 7]), ("g", [5])] } 9000 (by decide) (by decide)⟩

/-- C11, evaluated for the object declared by `INSTRUMENTPP_CONSTRUCT` at
namespace scope, in a program whose `main` times `"f"`, `"g"` and `"f"` again:
two distinct labels are recorded and the body of the destructor on the live
map would print two rows, as it does for a local object; but when `times` was
initialised after the object it is destroyed before `~Instrument()` runs, and
the report is undefined instead of having two rows. -/
theorem report_of_namespace_scope_registry :
    run Instrument.init
      [Event.newInstrument 1,
        Event.endFunction { funct_ := "f", start_time_ := 10 } 2010,
        Event.endFunction { funct_ := "g", start_time_ := 20 } 5020,
        Event.endFunction { funct_ := "f", start_time_ := 30 } 7030] =
      some { initialTime := 1, times := [("f", [2, 7]), ("g", [5])] } ∧
    (recorded
      [Event.newInstrument 1,
        Event.endFunction { funct_ := "f", start_time_ := 10 } 2010,
        Event.endFunction { funct_ := "g", start_time_ := 20 } 5020,
        Event.endFunction { funct_ := "f", start_time_ := 30 } 7030]).dedup.length = 2 ∧
    (Instrument.teardown Storage.block false
        { initialTime := 1, times := [("f", [2, 7]), ("g", [5])] } 9000).map
      (fun r => r.2.map (fun row => (row.cont, row.name, row.count))) =
      some [(0, "f", 2), (1, "g", 1)] ∧
    (Instrument.teardown Storage.namespaceScope true
        { initialTime := 1, times := [("f", [2, 7]), ("g", [5])] } 9000).map
      (fun r => r.2.map (fun row => (row.cont, row.name, row.count))) =
      some [(0, "f", 2), (1, "g", 1)] ∧
    Instrument.teardown Storage.namespaceScope false
      { initialTime := 1, times := [("f", [2, 7]), ("g", [5])] } 9000 = none := by
  decide

/-- C12, as stated, fails for nested calls: timer A on `"f"` is created at
tick 1000 and timer B on `"f"` at tick 2000, inside A's scope; B is released
first (at 5000, duration 3) and A last (at 10000, duration 9), and the series
is `[3, 9]`: the duration of the call that began first comes last. -/
theorem nested_series_not_in_call_order :
    run Instrument.init
      [Event.newInstrument 1,
        Event.newFunction "f" 1000,
        Event.newFunction "f" 2000,
        Event.endFunction { funct_ := "f", start_time_ := 2000 } 5000,
        Event.endFunction { funct_ := "f", start_time_ := 1000 } 10000] =
      some { initialTime := 1, times := [("f", [3, 9])] } ∧
    elapsed 10000 1000 = some 9 ∧ elapsed 5000 2000 = some 3 := by
  decide

/-- C12, amended. The series of a label lists the durations of its timers in
the order of their releases: when timer A on `L` is released before timer B on
`L`, whatever the order of their creations, the duration of A comes before the
duration of B in the series of `L`, which is the previous series followed by
the samples of all releases in order. -/
theorem series_in_release_order (L : String) (g g1 : Instrument)
    (pre mid post : List Event) (A B : InstrumentFunction) (eA eB dA dB : ℕ)
    (hA : A.funct_ = L) (hB : B.funct_ = L)
    (hdA : elapsed eA A.start_time_ = some dA) (hdB : elapsed eB B.start_time_ = some dB)
    (h : run g (pre ++ Event.endFunction A eA :: (mid ++ Event.endFunction B eB :: post)) =
      some g1) :
    (find g1.times L).getD [] =
      (find g.times L).getD [] ++
        (samplesOf L pre ++ dA :: (samplesOf L mid ++ dB :: samplesOf L post)) := by
  rw [run_series L _ g g1 h, samplesOf_append]
  congr 2
  have e1 : samplesOf L (Event.endFunction A eA :: (mid ++ Event.endFunction B eB :: post)) =
      dA :: samplesOf L (mid ++ Event.endFunction B eB :: post) := by
    simp [samplesOf, Event.sample, hA, hdA]
  have e2 : samplesOf L (Event.endFunction B eB :: post) = dB :: samplesOf L post := by
    simp [samplesOf, Event.sample, hB, hdB]
  rw [e1, samplesOf_append, e2]

/-- C12 amended, at the nested run of the counterexample: B is released before
A and the series is B's duration followed by A's. -/
theorem series_in_release_order_witness :
    ({ funct_ := "f", start_time_ := 2000 } : InstrumentFunction).funct_ = "f" ∧
    ({ funct_ := "f", start_time_ := 1000 } : InstrumentFunction).funct_ = "f" ∧
    elapsed 5000 ({ funct_ := "f", start_time_ := 2000 } : InstrumentFunction).start_time_ =
      some 3 ∧
    elapsed 10000 ({ funct_ := "f", start_time_ := 1000 } : InstrumentFunction).start_time_ =
      some 9 ∧
    run Instrument.init
      ([Event.newInstrument 1, Event.newFunction "f" 1000, Event.newFunction "f" 2000] ++
        Event.endFunction { funct_ := "f", start_time_ := 2000 } 5000 ::
          ([] ++ Event.endFunction { funct_ := "f", start_time_ := 1000 } 10000 :: [])) =
      some { initialTime := 1, times := [("f", [3, 9])] } ∧
    (find ({ initialTime := 1, times := [("f", [3, 9])] } : Instrument).times "f").getD [] =
      (find Instrument.init.times "f").getD [] ++
        (samplesOf "f"
            [Event.newInstrument 1, Event.newFunction "f" 1000, Event.newFunction "f" 2000] ++
          3 :: (samplesOf "f" [] ++ 9 :: samplesOf "f" [])) :=
  ⟨by decide, by decide, by decide, by decide, by decide,
    series_in_release_order "f" Instrument.init { initialTime := 1, times := [("f", [3, 9])] }
      [Event.newInstrument 1, Event.newFunction "f" 1000, Event.newFunction "f" 2000] [] []
      { funct_ := "f", start_time_ := 2000 } { funct_ := "f", start_time_ := 1000 }
      5000 10000 3 9 (by decide) (by decide) (by decide) (by decide) (by decide)⟩

/-- C13, as stated, fails: after a Registry started at tick 5, one timed call and
the teardown, the mapping still holds the series and `initialTime` is still 5;
a later construction of `Instrument` fails its assertion and a later
construction of an `InstrumentFunction` is accepted. -/
theorem teardown_discards_nothing :
    run Instrument.init
      [Event.newInstrument 5,
        Event.endFunction { funct_ := "f", start_time_ := 10 } 2010,
        Event.endInstrument 3000] =
      some { initialTime := 5, times := [("f", [2])] } ∧
    Instrument.ctor { initialTime := 5, times := [("f", [2])] } 4000 = none ∧
    InstrumentFunction.ctor { initialTime := 5, times := [("f", [2])] } "g" 4000 =
      some { funct_ := "g", start_time_ := 4000 } := by
  decide

/-- C13, amended. The destructor of `Instrument` assigns to no static member:
after the teardown of a Registry with a non-zero run start, and after any
further events, the run start is unchanged, every series is still in the
mapping (followed by what was recorded since), and the construction of another
`Instrument` fails its assertion. -/
theorem teardown_keeps_state (g g1 : Instrument) (now t : ℕ) (evs : List Event)
    (h0 : g.initialTime ≠ 0) (h : run g (Event.endInstrument now :: evs) = some g1) :
    step g (Event.endInstrument now) = some g ∧
    g1.initialTime = g.initialTime ∧
    (∀ L v, find g.times L = some v → find g1.times L = some (v ++ samplesOf L evs)) ∧
    Instrument.ctor g1 t = none := by
  have hi := run_initialTime_keep _ g g1 h h0
  refine ⟨rfl, hi, ?_, ?_⟩
  · intro L v hv
    have := run_find L _ g g1 v h hv
    simpa [samplesOf, Event.sample] using this
  · simp [Instrument.ctor, hi, h0]

/-- C13 amended, at the teardown of a Registry started at tick 5 that holds one
series. -/
theorem teardown_keeps_state_witness :
    ({ initialTime := 5, times := [("f", [2])] } : Instrument).initialTime ≠ 0 ∧
    run { initialTime := 5, times := [("f", [2])] } (Event.endInstrument 3000 :: []) =
      some { initialTime := 5, times := [("f", [2])] } ∧
    (step { initialTime := 5, times := [("f", [2])] } (Event.endInstrument 3000) =
        some { initialTime := 5, times := [("f", [2])] } ∧
      ({ initialTime := 5, times := [("f", [2])] } : Instrument).initialTime =
        ({ initialTime := 5, times := [("f", [2])] } : Instrument).initialTime ∧
      (∀ L v, find ({ initialTime := 5, times := [("f", [2])] } : Instrument).times L = some v →
        find ({ initialTime := 5, times := [("f", [2])] } : Instrument).times L =
          some (v ++ samplesOf L [])) ∧
      Instrument.ctor { initialTime := 5, times := [("f", [2])] } 4000 = none) :=
  ⟨by decide, by decide,
    teardown_keeps_state { initialTime := 5, times := [("f", [2])] }
      { initialTime := 5, times := [("f", [2])] } 3000 4000 [] (by decide) (by decide)⟩

/-- C15. Recording `d` under `L` (the statement `times[L].push_back(d)`) leaves
the run start and the series of every other label unchanged, removes no label,
and extends the series of `L` by `d` at the end; the constructor of
`InstrumentFunction` returns the state it was given, or fails its assertion. -/
theorem registry_is_append_only (g : Instrument) (L : String) (d : ℕ) (funct : String)
    (now : ℕ) :
    ({ g with times := pushBack g.times L d } : Instrument).initialTime = g.initialTime ∧
    (∀ k, k ≠ L → find (pushBack g.times L d) k = find g.times k) ∧
    (∀ k, k ∈ g.times.map Prod.fst → k ∈ (pushBack g.times L d).map Prod.fst) ∧
    find (pushBack g.times L d) L = some ((find g.times L).getD [] ++ [d]) ∧
    (find g.times L).getD [] <+: (find (pushBack g.times L d) L).getD [] ∧
    step g (Event.newFunction funct now) = if 0 < g.initialTime then some g else none := by
  have hself : find (pushBack g.times L d) L = some ((find g.times L).getD [] ++ [d]) := by
    rw [find_pushBack_self]
    cases find g.times L <;> simp
  refine ⟨rfl, fun k hk => find_pushBack_other _ _ _ _ hk, ?_, hself, ?_, ?_⟩
  · intro k hk
    rw [mem_keys_pushBack]
    exact Or.inl hk
  · rw [hself]
    exact ⟨[d], rfl⟩
  · simp only [step, InstrumentFunction.ctor]
    split <;> rfl

/-- C17. In every state reached from program start, every series of the mapping
is non-empty; so every row of the report is computed from a non-empty series:
its call count is positive and its `min` and `max` are defined. -/
theorem reachable_series_are_nonempty (evs : List Event) (g : Instrument) (now : ℕ)
    (h : run Instrument.init evs = some g) :
    (∀ p ∈ g.times, p.2 ≠ []) ∧
    ∀ r ∈ (Instrument.dtor g now).2, 0 < r.count ∧ r.min.isSome = true ∧ r.max.isSome = true := by
  have hne := run_nonempty evs Instrument.init g h (by simp [Instrument.init])
  refine ⟨hne, ?_⟩
  intro r hr
  obtain ⟨p, hp, i, rfl⟩ := reportLoop_mem _ _ _ r hr
  have hp2 := hne p hp
  obtain ⟨lo, hlo, _, _⟩ := min_element_spec p.2 hp2
  obtain ⟨hi, hhi, _, _⟩ := max_element_spec p.2 hp2
  refine ⟨List.length_pos.mpr hp2, ?_, ?_⟩
  · show (p.2[min_element p.2]?).isSome = true
    rw [hlo]; rfl
  · show (p.2[max_element p.2]?).isSome = true
    rw [hhi]; rfl

/-- C17, at a run with two timed calls. -/
theorem reachable_series_are_nonempty_witness :
    run Instrument.init
      [Event.newInstrument 1,
        Event.newFunction "f" 10,
        Event.endFunction { funct_ := "f", start_time_ := 10 } 2010,
        Event.endFunction { funct_ := "g", start_time_ := 20 } 5020] =
      some { initialTime := 1, times := [("f", [2]), ("g", [5])] } ∧
    ((∀ p ∈ ({ initialTime := 1, times := [("f", [2]), ("g", [5])] } : Instrument).times,
        p.2 ≠ []) ∧
      ∀ r ∈ (Instrument.dtor { initialTime := 1, times := [("f", [2]), ("g", [5])] } 9000).2,
        0 < r.count ∧ r.min.isSome = true ∧ r.max.isSome = true) :=
  ⟨by decide,
    reachable_series_are_nonempty
      [Event.newInstrument 1,
        Event.newFunction "f" 10,
        Event.endFunction { funct_ := "f", start_time_ := 10 } 2010,
        Event.endFunction { funct_ := "g", start_time_ := 20 } 5020]
      { initialTime := 1, times := [("f", [2]), ("g", [5])] } 9000 (by decide)⟩

/-! ## The claims on nested timers and on the consistency of a snapshot -/

/-- C16. Nested timers on one label are independent: for clock readings
`s1 ≤ s2 ≤ e2 ≤ e1` of a 64-bit clock, the calls of an outer timer `(s1, e1)`
and of an inner timer `(s2, e2)` on `L`, in a started run, extend the series of
`L` by exactly two samples, the sample of the inner timer and then the sample
of the outer timer, leave every other series as it was, and the sample of the
outer timer is at least the sample of the inner one. -/
theorem nested_timers_outer_ge_inner (g : Instrument) (L : String) (s1 s2 e2 e1 : ℕ)
    (h0 : 0 < g.initialTime) (h1 : s1 ≤ s2) (h2 : s2 ≤ e2) (h3 : e2 ≤ e1) (h4 : e1 < 2 ^ 64) :
    ∃ dIn dOut : ℕ, elapsed e2 s2 = some dIn ∧ elapsed e1 s1 = some dOut ∧
      run g [Event.newFunction L s1, Event.newFunction L s2,
          Event.endFunction { funct_ := L, start_time_ := s2 } e2,
          Event.endFunction { funct_ := L, start_time_ := s1 } e1] =
        some { g with times := pushBack (pushBack g.times L dIn) L dOut } ∧
      find (pushBack (pushBack g.times L dIn) L dOut) L =
        some ((find g.times L).getD [] ++ [dIn, dOut]) ∧
      (∀ k, k ≠ L → find (pushBack (pushBack g.times L dIn) L dOut) k = find g.times k) ∧
      dIn ≤ dOut := by
  obtain ⟨dIn, hIn⟩ := scale_defined (e2 - s2) (by omega)
  obtain ⟨dOut, hOut⟩ := scale_defined (e1 - s1) (by omega)
  have hle := scale_mono (e2 - s2) (e1 - s1) dIn dOut (by omega) (by omega) hIn hOut
  have eIn : elapsed e2 s2 = some dIn := by
    rw [elapsed_of_le e2 s2 h2 (by omega)]; exact hIn
  have eOut : elapsed e1 s1 = some dOut := by
    rw [elapsed_of_le e1 s1 (by omega) h4]; exact hOut
  refine ⟨dIn, dOut, eIn, eOut, ?_, ?_, ?_, hle⟩
  · simp [run, step, InstrumentFunction.ctor, InstrumentFunction.dtor, h0, eIn, eOut]
  · rw [find_pushBack_self, find_pushBack_self]
    cases find g.times L <;> simp
  · intro k hk
    rw [find_pushBack_other _ _ _ _ hk, find_pushBack_other _ _ _ _ hk]

/-- C16, at an outer call from tick 1000 to tick 10000 and an inner call from
tick 2000 to tick 5000. -/
theorem nested_timers_outer_ge_inner_witness :
    0 < ({ initialTime := 1, times := [("f", [4])] } : Instrument).initialTime ∧
    1000 ≤ 2000 ∧ 2000 ≤ 5000 ∧ 5000 ≤ 10000 ∧ 10000 < 2 ^ 64 ∧
    ∃ dIn dOut : ℕ, elapsed 5000 2000 = some dIn ∧ elapsed 10000 1000 = some dOut ∧
      run { initialTime := 1, times := [("f", [4])] }
          [Event.newFunction "f" 1000, Event.newFunction "f" 2000,
            Event.endFunction { funct_ := "f", start_time_ := 2000 } 5000,
            Event.endFunction { funct_ := "f", start_time_ := 1000 } 10000] =
        some { ({ initialTime := 1, times := [("f", [4])] } : Instrument) with
          times := pushBack
            (pushBack ({ initialTime := 1, times := [("f", [4])] } : Instrument).times "f" dIn)
            "f" dOut } ∧
      find (pushBack
          (pushBack ({ initialTime := 1, times := [("f", [4])] } : Instrument).times "f" dIn)
          "f" dOut) "f" =
        some ((find ({ initialTime := 1, times := [("f", [4])] } : Instrument).times "f").getD []
          ++ [dIn, dOut]) ∧
      (∀ k, k ≠ "f" →
        find (pushBack
            (pushBack ({ initialTime := 1, times := [("f", [4])] } : Instrument).times "f" dIn)
            "f" dOut) k =
          find ({ initialTime := 1, times := [("f", [4])] } : Instrument).times k) ∧
      dIn ≤ dOut :=
  ⟨by decide, by decide, by decide, by decide, by decide,
    nested_timers_outer_ge_inner { initialTime := 1, times := [("f", [4])] } "f"
      1000 2000 5000 10000 (by decide) (by decide) (by decide) (by decide) (by decide)⟩

/-- C18, as stated, fails: for the series of the single sample
`x = 2^53 + 1 = 9007199254740993`, `min` and `max` are `x`, but `total` is
`2^53` (the sum is accumulated in a `double`) and `mean` is `2^53`: `mean` is
below `min`, `count * min` exceeds `total`, and neither `total` nor `mean` is
`x`. -/
theorem single_sample_mean_below_min :
    (stats.stats [9007199254740993]).count = 1 ∧
    (stats.stats [9007199254740993]).min = some 9007199254740993 ∧
    (stats.stats [9007199254740993]).max = some 9007199254740993 ∧
    (stats.stats [9007199254740993]).total = some 9007199254740992 ∧
    (stats.stats [9007199254740993]).mean = some (F64.fin 4503599627370496 1) ∧
    (F64.fin 4503599627370496 1).toRat < 9007199254740993 ∧
    ¬ (1 * 9007199254740993 ≤ 9007199254740992) := by
  refine ⟨by decide, by decide, by decide, by decide, by decide, ?_, by decide⟩
  norm_num [F64.toRat]

/-- C18, amended. For every non-empty series of at most `2^52 - 7` samples with
sum at most `2^53`, all members of the snapshot are defined, `mean` and `stdev`
are finite, and the snapshot is consistent: `min ≤ mean ≤ max`,
`count * min ≤ total ≤ count * max` and `0 ≤ stdev ≤ max - min`; for a series
with the single sample `x`, `min = max = total = x`, `mean = x` and
`stdev = 0`. -/
theorem snapshot_is_consistent (xs : List ℕ) (hne : xs ≠ []) (hn : xs.length + 7 ≤ 2 ^ 52)
    (hsum : xs.sum ≤ 2 ^ 53) :
    ∃ (lo hi T : ℕ) (mean sd : F64),
      (stats.stats xs).min = some lo ∧ (stats.stats xs).max = some hi ∧
      (stats.stats xs).total = some T ∧ (stats.stats xs).mean = some mean ∧
      (stats.stats xs).stdev = some sd ∧ mean.isFinite = true ∧ sd.isFinite = true ∧
      (lo : ℚ) ≤ mean.toRat ∧ mean.toRat ≤ (hi : ℚ) ∧
      (stats.stats xs).count * lo ≤ T ∧ T ≤ (stats.stats xs).count * hi ∧
      0 ≤ sd.toRat ∧ sd.toRat ≤ (hi : ℚ) - (lo : ℚ) ∧
      ∀ x, xs = [x] → lo = x ∧ hi = x ∧ T = x ∧ mean.toRat = (x : ℚ) ∧ sd.toRat = 0 := by
  obtain ⟨lo, hlo, hlomem, hlole⟩ := min_element_spec xs hne
  obtain ⟨hi, hhi, hhimem, hhige⟩ := max_element_spec xs hne
  have hb : ∀ x ∈ xs, lo ≤ x ∧ x ≤ hi := fun x hx => ⟨hlole x hx, hhige x hx⟩
  obtain ⟨mean, sd, μ, w, hmean, hsd, hv, hw, hμlo, hμhi, hw0, hwle⟩ :=
    stdev_le_range xs lo hi hne hn hsum hlomem hhimem hb
  obtain ⟨hmr, hmf⟩ := hv.toRat_eq
  obtain ⟨hwr, hwf⟩ := hw.toRat_eq
  obtain ⟨hs1, hs2⟩ := sum_bounds xs lo hi hb
  have hc : (stats.stats xs).count = xs.length := rfl
  refine ⟨lo, hi, xs.sum, mean, sd, hlo, hhi, stats_total_exact xs hsum, hmean, hsd, hmf, hwf,
    by rw [hmr]; exact hμlo, by rw [hmr]; exact hμhi, by rw [hc]; exact hs1,
    by rw [hc]; exact hs2, by rw [hwr]; exact hw0, by rw [hwr]; exact hwle, ?_⟩
  intro x hx
  subst hx
  have e1 : lo = x := by simpa using hlomem
  have e2 : hi = x := by simpa using hhimem
  subst e1
  subst e2
  refine ⟨rfl, rfl, by simp, ?_, ?_⟩
  · rw [hmr]; exact le_antisymm hμhi hμlo
  · rw [hwr]; apply le_antisymm _ hw0
    simpa using hwle

/-- C18 amended, at the series `[10, 20, 30]`. -/
theorem snapshot_is_consistent_witness :
    ([10, 20, 30] : List ℕ) ≠ [] ∧ ([10, 20, 30] : List ℕ).length + 7 ≤ 2 ^ 52 ∧
    ([10, 20, 30] : List ℕ).sum ≤ 2 ^ 53 ∧
    ∃ (lo hi T : ℕ) (mean sd : F64),
      (stats.stats [10, 20, 30]).min = some lo ∧ (stats.stats [10, 20, 30]).max = some hi ∧
      (stats.stats [10, 20, 30]).total = some T ∧ (stats.stats [10, 20, 30]).mean = some mean ∧
      (stats.stats [10, 20, 30]).stdev = some sd ∧ mean.isFinite = true ∧
      sd.isFinite = true ∧
      (lo : ℚ) ≤ mean.toRat ∧ mean.toRat ≤ (hi : ℚ) ∧
      (stats.stats [10, 20, 30]).count * lo ≤ T ∧ T ≤ (stats.stats [10, 20, 30]).count * hi ∧
      0 ≤ sd.toRat ∧ sd.toRat ≤ (hi : ℚ) - (lo : ℚ) ∧
      ∀ x, ([10, 20, 30] : List ℕ) = [x] →
        lo = x ∧ hi = x ∧ T = x ∧ mean.toRat = (x : ℚ) ∧ sd.toRat = 0 :=
  ⟨by decide, by decide, by decide,
    snapshot_is_consistent [10, 20, 30] (by decide) (by decide) (by decide)⟩

end Instrumentpp
